import Mathlib

/-!
# Black-Scholes call Greeks: analytic, forward-difference and complex-step evaluators

A shallow embedding of the repository's numerical code.

Modelling conventions.

* `Dbl` models a C++ `double` with rounding idealised away: a finite value is an exact real
  number (no rounding, no overflow, no underflow), and the three special values `+inf`, `-inf`
  and `NaN` propagate as in IEEE-754.  Zero is unsigned and behaves as `+0`.
* Decimal literals that the source documents as rounded mathematical constants
  (`NEG_HALF_LOG_2PI  // -0.5*log(2π)`, `inv_sqrt2  // 1/√2`) are taken at their documented exact
  value, like every other rounding.
* The analytic Greeks (`analytic_greeks.cpp`) are embedded over `Dbl`, because their edge cases
  (`K = 0`, `S = 0`) run through infinities and NaN.
* The complex-step and forward-difference evaluators are embedded over `ℝ` and `ℂ` (finite
  doubles, `std::complex<double>` as `ℂ`).
* `bs_call_price.h` (`bs_price_call`, `Phi_real`, `phi`) is not part of the sources at hand; these
  three functions are modelled from the specification.  The distribution function `Φ` is written
  as its power series; `Phi_eq_cdf` proves that it is the integral of the density from `-∞`.
* Real numbers have no decidable order, so the definitions live in a `noncomputable section`;
  values at concrete inputs are obtained by proof (`norm_num`, `simp`), not by evaluation.

Layout: the definitions (data model, then the functions of each source file); the arithmetic of
`Dbl`; the auxiliary facts, grouped by subject into a few theorems that are conjunctions (each
component is proved under its own name inside the proof, and a later proof starts by naming the
components it uses): the analytic Greeks on finite inputs, the density and `d1`, the closed form
of the complex pricer, the sweep, the distribution function through its derivative, the error
analysis of the complex-step estimators, the spot derivatives of the price with the forward
difference; then `Phi_eq_cdf`, and the claims C1-C25.
-/

noncomputable section

open Real

/-- A C++ `double` with exact finite values and the IEEE-754 special values. -/
inductive Dbl where
  | fin (x : ℝ)
  | pinf
  | ninf
  | nan

namespace Dbl

/-- Unary minus. -/
def neg : Dbl → Dbl
  | fin x => fin (-x)
  | pinf => ninf
  | ninf => pinf
  | nan => nan

/-- IEEE addition: `inf + (-inf)` is NaN. -/
def add : Dbl → Dbl → Dbl
  | fin x, fin y => fin (x + y)
  | fin _, pinf => pinf
  | fin _, ninf => ninf
  | pinf, fin _ => pinf
  | pinf, pinf => pinf
  | ninf, fin _ => ninf
  | ninf, ninf => ninf
  | _, _ => nan

/-- An infinity of the sign of `x` times the sign of `s`; `0 * inf` is NaN. -/
def signedInf (x : ℝ) (positive : Bool) : Dbl :=
  if 0 < x then (if positive then pinf else ninf)
  else if x < 0 then (if positive then ninf else pinf)
  else nan

/-- IEEE multiplication: `0 * inf` is NaN. -/
def mul : Dbl → Dbl → Dbl
  | fin x, fin y => fin (x * y)
  | fin x, pinf => signedInf x true
  | fin x, ninf => signedInf x false
  | pinf, fin y => signedInf y true
  | ninf, fin y => signedInf y false
  | pinf, pinf => pinf
  | ninf, ninf => pinf
  | pinf, ninf => ninf
  | ninf, pinf => ninf
  | _, _ => nan

/-- IEEE division: `x / 0` is an infinity of the sign of `x`, `0 / 0` and `inf / inf` are NaN. -/
def div : Dbl → Dbl → Dbl
  | fin x, fin y => if y = 0 then signedInf x true else fin (x / y)
  | fin _, pinf => fin 0
  | fin _, ninf => fin 0
  | pinf, fin y => if y < 0 then ninf else pinf
  | ninf, fin y => if y < 0 then pinf else ninf
  | _, _ => nan

instance : Neg Dbl := ⟨neg⟩
instance : Add Dbl := ⟨add⟩
instance : Sub Dbl := ⟨fun a b => add a (neg b)⟩
instance : Mul Dbl := ⟨mul⟩
instance : Div Dbl := ⟨div⟩

/-- The comparison `a < b`; false as soon as one side is NaN. -/
def lt : Dbl → Dbl → Bool
  | fin x, fin y => decide (x < y)
  | fin _, pinf => true
  | ninf, fin _ => true
  | ninf, pinf => true
  | _, _ => false

/-- The comparison `a > b`. -/
def gt (a b : Dbl) : Bool := lt b a

/-- The comparison `a <= b`; false as soon as one side is NaN. -/
def le : Dbl → Dbl → Bool
  | fin x, fin y => decide (x ≤ y)
  | fin _, pinf => true
  | ninf, fin _ => true
  | ninf, pinf => true
  | pinf, pinf => true
  | ninf, ninf => true
  | _, _ => false

/-- The comparison `a >= b`. -/
def ge (a b : Dbl) : Bool := le b a

/-- The comparison `a == b`; NaN is equal to nothing. -/
def eq : Dbl → Dbl → Bool
  | fin x, fin y => decide (x = y)
  | pinf, pinf => true
  | ninf, ninf => true
  | _, _ => false

/-- The function `std::isnan`. -/
def isnan : Dbl → Bool
  | nan => true
  | _ => false

/-- The function `std::max(a, b)`, which is `(a < b) ? b : a`. -/
def max (a b : Dbl) : Dbl := if lt a b then b else a

/-- The function `std::abs`. -/
def abs : Dbl → Dbl
  | fin x => fin |x|
  | pinf => pinf
  | ninf => pinf
  | nan => nan

/-- The function `std::sqrt`: NaN on negative arguments. -/
def sqrt : Dbl → Dbl
  | fin x => if x < 0 then nan else fin (Real.sqrt x)
  | pinf => pinf
  | _ => nan

/-- The function `std::exp`: `exp(-inf) = 0`. -/
def exp : Dbl → Dbl
  | fin x => fin (Real.exp x)
  | pinf => pinf
  | ninf => fin 0
  | nan => nan

/-- The function `std::log`: `log(0) = -inf`, NaN on negative arguments. -/
def log : Dbl → Dbl
  | fin x => if 0 < x then fin (Real.log x) else if x = 0 then ninf else nan
  | pinf => pinf
  | _ => nan

/-- The function `std::log1p`, the logarithm of `1 + x`: `log1p(-1) = -inf`, NaN below `-1`. -/
def log1p : Dbl → Dbl
  | fin x => if -1 < x then fin (Real.log (1 + x)) else if x = -1 then ninf else nan
  | pinf => pinf
  | _ => nan

end Dbl

/-- Modelled from the spec: `phi` of the absent `bs_call_price.h`, the standard normal density
`φ(x) = e^{-x²/2}/√(2π)`. -/
def phi (x : ℝ) : ℝ := Real.exp (-(x ^ 2) / 2) / Real.sqrt (2 * π)

/-- Modelled from the spec: the standard normal cumulative distribution function `Φ`, the value
of `Phi_real` of the absent `bs_call_price.h` at a finite argument.  It is written as its
everywhere convergent power series
`Φ(x) = 1/2 + (1/√(2π))·Σₙ (−1)ⁿ·x^(2n+1) / (2ⁿ·n!·(2n+1))`,
the antiderivative of `φ` with `Φ(0) = 1/2`; `Phi_eq_cdf` proves `Φ(x) = ∫_{-∞}^{x} φ(t) dt`. -/
def Phi (x : ℝ) : ℝ :=
  1 / 2 + tsum (fun n : ℕ => (-1) ^ n * x ^ (2 * n + 1) / (2 ^ n * n.factorial * (2 * n + 1))) /
    Real.sqrt (2 * π)

/-- Modelled from the spec: `Phi_real` of the absent `bs_call_price.h` on a `double`, the standard
normal CDF with its limits `Φ(+inf) = 1`, `Φ(-inf) = 0` and NaN propagated. -/
def Phi_real : Dbl → Dbl
  | Dbl.fin x => Dbl.fin (Phi x)
  | Dbl.pinf => Dbl.fin 1
  | Dbl.ninf => Dbl.fin 0
  | Dbl.nan => Dbl.nan

/-- The constant `NEG_HALF_LOG_2PI` of `bs_gamma_call`; the source writes the rounded decimal
`-0.91893853320467274178` and documents it as `-0.5*log(2π)`. -/
def NEG_HALF_LOG_2PI : ℝ := -(1 / 2) * Real.log (2 * π)

/-- Black-Scholes call delta, `analytic_greeks.cpp`. -/
def bs_delta_call (S K r q sigma T : Dbl) : Dbl :=
  let sigmaT := sigma * Dbl.sqrt (Dbl.max T (Dbl.fin 0))
  let DFq := Dbl.exp (-q * T)
  let F := S * Dbl.exp ((r - q) * T)
  if Dbl.eq sigmaT (Dbl.fin 0) then
    DFq * (if Dbl.gt F K then Dbl.fin 1 else Dbl.fin 0)
  else
    let ln_F_over_K :=
      if Dbl.gt K (Dbl.fin 0) then
        let x := (F - K) / K
        if Dbl.le (Dbl.abs x) (Dbl.fin 1e-12) then Dbl.log1p x else Dbl.log (F / K)
      else Dbl.log (F / K)
    let d1 := (ln_F_over_K + Dbl.fin 0.5 * sigma * sigma * T) / sigmaT
    DFq * Phi_real d1

/-- Black-Scholes call gamma, `analytic_greeks.cpp`. -/
def bs_gamma_call (S K r q sigma T : Dbl) : Dbl :=
  let sigmaT := sigma * Dbl.sqrt (Dbl.max T (Dbl.fin 0))
  if Dbl.eq sigmaT (Dbl.fin 0) then Dbl.fin 0
  else
    let F := S * Dbl.exp ((r - q) * T)
    let ln_F_over_K :=
      if Dbl.gt K (Dbl.fin 0) then
        let x := (F - K) / K
        if Dbl.le (Dbl.abs x) (Dbl.fin 1e-12) then Dbl.log1p x else Dbl.log (F / K)
      else Dbl.log (F / K)
    let d1 := (ln_F_over_K + Dbl.fin 0.5 * sigma * sigma * T) / sigmaT
    let log_phi := Dbl.fin (-0.5) * d1 * d1 + Dbl.fin NEG_HALF_LOG_2PI
    let phi_d1 := Dbl.exp log_phi
    Dbl.exp (-q * T) * phi_d1 / (S * sigmaT)

/-- The string dispatcher `bs_analytic_call`, `analytic_greeks.cpp`: the requested Greek, or the
quiet NaN for any other selector. -/
def bs_analytic_call (type : String) (S K r q sigma T : Dbl) : Dbl :=
  if type = "delta" then bs_delta_call S K r q sigma T
  else if type = "gamma" then bs_gamma_call S K r q sigma T
  else Dbl.nan

/-- The forward price `F = S·e^{(r-q)T}` of the specification. -/
def forward (S r q T : ℝ) : ℝ := S * Real.exp ((r - q) * T)

/-- The quantity `d1 = (ln(F/K) + ½σ²T)/(σ√T)` of the specification, with `F` the forward
price. -/
def d1 (S K r q sigma T : ℝ) : ℝ :=
  (Real.log (forward S r q T / K) + 1 / 2 * sigma ^ 2 * T) / (sigma * Real.sqrt T)

/-- Modelled from the spec: `bs_price_call` of the absent `bs_call_price.h`, the scalar
Black-Scholes call price `e^{-rT}·(F·Φ(d1) − K·Φ(d2))` with `F = S·e^{(r-q)T}`,
`d1 = (ln(F/K) + ½σ²T)/(σ√T)` and `d2 = d1 − σ√T`, on finite inputs with `S, K, σ, T > 0`. -/
def bs_price_call (S K r q sigma T : ℝ) : ℝ :=
  let DF := Real.exp (-r * T)
  let F := S * Real.exp ((r - q) * T)
  let sigmaT := sigma * Real.sqrt T
  let d1 := (Real.log (F / K) + 1 / 2 * sigma ^ 2 * T) / sigmaT
  let d2 := d1 - sigmaT
  DF * (F * Phi d1 - K * Phi d2)

/-- The principal complex square root, `std::sqrt` on `std::complex<double>`. -/
def csqrt (z : ℂ) : ℂ := z ^ (1 / 2 : ℂ)

/-- The lambda `Phi_complex` of `bs_price_call_complex`: the first-order extension
`Φ(x + iy) ≈ Φ(x) + i·y·φ(x)`. -/
def Phi_complex (z : ℂ) : ℂ :=
  let x_real := z.re
  let y_imag := z.im
  ⟨Phi x_real, y_imag * phi x_real⟩

/-- Complex-valued Black-Scholes call price, `complex_step_differentation.cpp`. -/
def bs_price_call_complex (S K r q sigma T : ℂ) : ℂ :=
  let DF := Complex.exp (-r * T)
  let F := S * Complex.exp ((r - q) * T)
  let sigmaT := sigma * csqrt T
  let ln_F_over_K := Complex.log (F / K)
  let d1 := (ln_F_over_K + (⟨0.5, 0⟩ : ℂ) * sigma * sigma * T) / sigmaT
  let d2 := d1 - sigmaT
  DF * (F * Phi_complex d1 - K * Phi_complex d2)

/-- Complex-step delta `Im[C(S + ih)] / h`, `complex_step_differentation.cpp`. -/
def delta_complex_step (S K r q sigma T h : ℝ) : ℝ :=
  let S_complex : ℂ := ⟨S, h⟩
  let K_complex : ℂ := ⟨K, 0⟩
  let r_complex : ℂ := ⟨r, 0⟩
  let q_complex : ℂ := ⟨q, 0⟩
  let sigma_complex : ℂ := ⟨sigma, 0⟩
  let T_complex : ℂ := ⟨T, 0⟩
  let price_complex :=
    bs_price_call_complex S_complex K_complex r_complex q_complex sigma_complex T_complex
  price_complex.im / h

/-- Real-axis complex-step gamma `-2(Re[C(S + ih)] - C(S)) / h²`,
`complex_step_differentation.cpp`. -/
def gamma_complex_step (S K r q sigma T h : ℝ) : ℝ :=
  let f_x := bs_price_call S K r q sigma T
  let S_complex : ℂ := ⟨S, h⟩
  let K_complex : ℂ := ⟨K, 0⟩
  let r_complex : ℂ := ⟨r, 0⟩
  let q_complex : ℂ := ⟨q, 0⟩
  let sigma_complex : ℂ := ⟨sigma, 0⟩
  let T_complex : ℂ := ⟨T, 0⟩
  let f_x_plus_ih :=
    bs_price_call_complex S_complex K_complex r_complex q_complex sigma_complex T_complex
  let real_part := f_x_plus_ih.re;
  -2 * (real_part - f_x) / (h * h)

/-- The constant `inv_sqrt2` of `gamma_complex_step_45deg`; the source writes the rounded decimal
`0.70710678118654752440` and documents it as `1/√2`. -/
def inv_sqrt2 : ℝ := 1 / Real.sqrt 2

/-- The 45° complex-step gamma `Im[C(S + hω) + C(S - hω)] / h²` with `ω = (1 + i)/√2`,
`complex_step_differentation.cpp`. -/
def gamma_complex_step_45deg (S K r q sigma T h : ℝ) : ℝ :=
  let omega : ℂ := ⟨inv_sqrt2, inv_sqrt2⟩
  let K_complex : ℂ := ⟨K, 0⟩
  let r_complex : ℂ := ⟨r, 0⟩
  let q_complex : ℂ := ⟨q, 0⟩
  let sigma_complex : ℂ := ⟨sigma, 0⟩
  let T_complex : ℂ := ⟨T, 0⟩
  let shift := (⟨h, 0⟩ : ℂ) * omega
  let S_plus : ℂ := ⟨S, 0⟩
  let f_plus :=
    bs_price_call_complex (S_plus + shift) K_complex r_complex q_complex sigma_complex T_complex
  let f_minus :=
    bs_price_call_complex (S_plus - shift) K_complex r_complex q_complex sigma_complex T_complex
  let imag_sum := (f_plus + f_minus).im
  imag_sum / (h * h)

/-- The generic forward difference `(f(x + h) - f(x)) / h`,
`classical_forward_differences.cpp`. -/
def classical_forward_difference (f : ℝ → ℝ) (x h : ℝ) : ℝ :=
  (f (x + h) - f x) / h

/-- Forward-difference delta `[C(S+h) - C(S)] / h`, `classical_forward_differences.cpp`. -/
def delta_fwd (S K r q sigma T h : ℝ) : ℝ :=
  let C_S := bs_price_call S K r q sigma T
  let C_S_plus_h := bs_price_call (S + h) K r q sigma T
  (C_S_plus_h - C_S) / h

/-- Forward-difference gamma `[C(S+2h) - 2C(S+h) + C(S)] / h²`,
`classical_forward_differences.cpp`. -/
def gamma_fwd (S K r q sigma T h : ℝ) : ℝ :=
  let C_S := bs_price_call S K r q sigma T
  let C_S_plus_h := bs_price_call (S + h) K r q sigma T
  let C_S_plus_2h := bs_price_call (S + 2 * h) K r q sigma T
  (C_S_plus_2h - 2 * C_S_plus_h + C_S) / (h * h)

/-- The constant `num_points` of `write_scenario_csv`. -/
def num_points : ℕ := 24

/-- The constant `log_min` of `write_scenario_csv`. -/
def log_min : ℝ := -16

/-- The constant `log_max` of `write_scenario_csv`. -/
def log_max : ℝ := -4

/-- One record of the stream written by `write_scenario_csv`: the values of one loop iteration,
named after the columns of the header (the Error Record of the specification). -/
structure ErrorRecord where
  h_rel : Dbl
  h : Dbl
  Delta_analytic : Dbl
  Delta_fd : Dbl
  Delta_cs : Dbl
  err_D_fd : Dbl
  err_D_cs : Dbl
  Gamma_analytic : Dbl
  Gamma_fd : Dbl
  Gamma_cs_real : Dbl
  Gamma_cs_45 : Dbl
  err_G_fd : Dbl
  err_G_cs_real : Dbl
  err_G_cs_45 : Dbl

/-- The header line written by `write_scenario_csv`, as the list of its comma-separated column
names. -/
def csv_header : List String :=
  ["h_rel", "h",
   "Delta_analytic", "Delta_fd", "Delta_cs", "err_D_fd", "err_D_cs",
   "Gamma_analytic", "Gamma_fd", "Gamma_cs_real", "Gamma_cs_45",
   "err_G_fd", "err_G_cs_real", "err_G_cs_45"]

/-- The row written for one record: the values in the order of the `csv << ...` statements of the
loop body of `write_scenario_csv`. -/
def csv_row (e : ErrorRecord) : List Dbl :=
  [e.h_rel, e.h,
   e.Delta_analytic, e.Delta_fd, e.Delta_cs,
   e.err_D_fd, e.err_D_cs,
   e.Gamma_analytic, e.Gamma_fd, e.Gamma_cs_real, e.Gamma_cs_45,
   e.err_G_fd, e.err_G_cs_real, e.err_G_cs_45]

/-- The body of the loop of `write_scenario_csv` at the index `i`, given the analytic values
computed once before the loop.  The estimators are evaluated on finite doubles and their results
enter the record as finite values. -/
def sweep_record (S K r q sigma T : ℝ) (delta_analytic gamma_analytic : Dbl) (i : ℕ) :
    ErrorRecord :=
  let log_h_rel := log_min + (i : ℝ) * (log_max - log_min) / ((num_points - 1 : ℕ) : ℝ)
  let h_rel := (10 : ℝ) ^ log_h_rel
  let h := h_rel * S
  let delta_fd := delta_fwd S K r q sigma T h
  let gamma_fd := gamma_fwd S K r q sigma T h
  let delta_cs := delta_complex_step S K r q sigma T h
  let gamma_cs_real := gamma_complex_step S K r q sigma T h
  let gamma_cs_45 := gamma_complex_step_45deg S K r q sigma T h
  let err_D_fd := Dbl.abs (Dbl.fin delta_fd - delta_analytic)
  let err_D_cs := Dbl.abs (Dbl.fin delta_cs - delta_analytic)
  let err_G_fd := Dbl.abs (Dbl.fin gamma_fd - gamma_analytic)
  let err_G_cs_real := Dbl.abs (Dbl.fin gamma_cs_real - gamma_analytic)
  let err_G_cs_45 := Dbl.abs (Dbl.fin gamma_cs_45 - gamma_analytic)
  ErrorRecord.mk (Dbl.fin h_rel) (Dbl.fin h)
    delta_analytic (Dbl.fin delta_fd) (Dbl.fin delta_cs) err_D_fd err_D_cs
    gamma_analytic (Dbl.fin gamma_fd) (Dbl.fin gamma_cs_real) (Dbl.fin gamma_cs_45)
    err_G_fd err_G_cs_real err_G_cs_45

/-- The records written by `write_scenario_csv`, `write_greeks.cpp`, in order, on the path where
the output file opens (otherwise the function returns without writing).  The file name and the
text rendering of the numbers are not modelled. -/
def write_scenario_csv (S K r q sigma T : ℝ) : List ErrorRecord :=
  let delta_analytic :=
    bs_delta_call (Dbl.fin S) (Dbl.fin K) (Dbl.fin r) (Dbl.fin q) (Dbl.fin sigma) (Dbl.fin T)
  let gamma_analytic :=
    bs_gamma_call (Dbl.fin S) (Dbl.fin K) (Dbl.fin r) (Dbl.fin q) (Dbl.fin sigma) (Dbl.fin T)
  (List.range num_points).map (sweep_record S K r q sigma T delta_analytic gamma_analytic)

/-- Auxiliary: the factor of the imaginary part of the complex price at the spot `x + iy`,
`Im C(x + iy) = e^{-qT}·im_core`, namely `y·Φ(D) − (arg(x+iy)/(σ√T))·φ(D)·(|x+iy| − x)` with
`D = d1(|x+iy|)`. -/
def im_core (x y K r q sigma T : ℝ) : ℝ :=
  y * Phi (d1 (Complex.abs ⟨x, y⟩) K r q sigma T) -
    Complex.arg ⟨x, y⟩ / (sigma * Real.sqrt T) * phi (d1 (Complex.abs ⟨x, y⟩) K r q sigma T) *
      (Complex.abs ⟨x, y⟩ - x)

end

/-! ## Arithmetic of `Dbl` on finite values -/

namespace Dbl

@[simp] theorem fin_add (x y : ℝ) : fin x + fin y = fin (x + y) := rfl

@[simp] theorem fin_sub (x y : ℝ) : fin x - fin y = fin (x - y) := by
  show fin (x + -y) = fin (x - y)
  rw [sub_eq_add_neg]

@[simp] theorem fin_mul (x y : ℝ) : fin x * fin y = fin (x * y) := rfl

@[simp] theorem neg_fin (x : ℝ) : -fin x = fin (-x) := rfl

theorem fin_div (x y : ℝ) (hy : y ≠ 0) : fin x / fin y = fin (x / y) := by
  show div (fin x) (fin y) = _
  delta div
  simp [hy]

end Dbl

/-! ## The analytic Greeks on finite inputs -/

set_option maxHeartbeats 0 in
/-- Values of `bs_delta_call` and `bs_gamma_call` on finite inputs, branch by branch.  The
components are, in order: `log1p_eq_log`, `ln_F_over_K_eq`, `sigmaT_eq`, `bs_delta_call_pos`,
`phi_pos`, `phi_nonneg`, `Phi_zero`, `exp_log_density`, `bs_gamma_call_pos`, `sigmaT_eq_zero_iff`,
`bs_delta_call_degenerate`, `bs_gamma_call_degenerate`, `bs_delta_call_strike_zero`,
`bs_delta_call_spot_zero`, `bs_gamma_call_strike_zero`, `bs_gamma_call_spot_zero`,
`bs_delta_call_zero_zero`, `d1_scale`. -/
theorem analytic_greeks_facts :
    (∀ (F K : ℝ) (hF : 0 < F) (hK : 0 < K),
        Dbl.log1p ((Dbl.fin F - Dbl.fin K) / Dbl.fin K) = Dbl.fin (Real.log (F / K)) ∧
        Dbl.log (Dbl.fin F / Dbl.fin K) = Dbl.fin (Real.log (F / K))) ∧
    (∀ (F K : ℝ) (hF : 0 < F) (hK : 0 < K),
        (if Dbl.gt (Dbl.fin K) (Dbl.fin 0) then
        (if Dbl.le (Dbl.abs (Dbl.fin (F - K) / Dbl.fin K)) (Dbl.fin 1e-12) then
        Dbl.log1p (Dbl.fin (F - K) / Dbl.fin K)
        else Dbl.log (Dbl.fin F / Dbl.fin K))
        else Dbl.log (Dbl.fin F / Dbl.fin K)) = Dbl.fin (Real.log (F / K))) ∧
    (∀ (sigma T : ℝ),
        Dbl.fin sigma * Dbl.sqrt (Dbl.max (Dbl.fin T) (Dbl.fin 0)) =
        Dbl.fin (sigma * Real.sqrt (max T 0))) ∧
    (∀ (S K r q sigma T : ℝ) (hS : 0 < S) (hK : 0 < K) (hs : 0 < sigma) (hT : 0 < T),
        bs_delta_call (Dbl.fin S) (Dbl.fin K) (Dbl.fin r) (Dbl.fin q) (Dbl.fin sigma) (Dbl.fin T) =
        Dbl.fin (Real.exp (-q * T) * Phi (d1 S K r q sigma T))) ∧
    (∀ (x : ℝ),
        0 < phi x) ∧
    (∀ (x : ℝ),
        0 ≤ phi x) ∧
    (Phi 0 = 1 / 2) ∧
    (∀ (x : ℝ),
        Real.exp (-0.5 * x * x + NEG_HALF_LOG_2PI) = phi x) ∧
    (∀ (S K r q sigma T : ℝ) (hS : 0 < S) (hK : 0 < K) (hs : 0 < sigma) (hT : 0 < T),
        bs_gamma_call (Dbl.fin S) (Dbl.fin K) (Dbl.fin r) (Dbl.fin q) (Dbl.fin sigma) (Dbl.fin T) =
        Dbl.fin (Real.exp (-q * T) * phi (d1 S K r q sigma T) / (S * (sigma * Real.sqrt T)))) ∧
    (∀ (sigma T : ℝ),
        sigma * Real.sqrt (max T 0) = 0 ↔ sigma = 0 ∨ T ≤ 0) ∧
    (∀ (S K r q sigma T : ℝ) (h : sigma * Real.sqrt (max T 0) = 0),
        bs_delta_call (Dbl.fin S) (Dbl.fin K) (Dbl.fin r) (Dbl.fin q) (Dbl.fin sigma) (Dbl.fin T) =
        if K < forward S r q T then Dbl.fin (Real.exp (-q * T)) else Dbl.fin 0) ∧
    (∀ (S K r q sigma T : ℝ) (h : sigma * Real.sqrt (max T 0) = 0),
        bs_gamma_call (Dbl.fin S) (Dbl.fin K) (Dbl.fin r) (Dbl.fin q) (Dbl.fin sigma) (Dbl.fin T) =
        Dbl.fin 0) ∧
    (∀ (S r q sigma T : ℝ) (hS : 0 < S) (hs : 0 < sigma) (hT : 0 < T),
        bs_delta_call (Dbl.fin S) (Dbl.fin 0) (Dbl.fin r) (Dbl.fin q) (Dbl.fin sigma) (Dbl.fin T) =
        Dbl.fin (Real.exp (-q * T))) ∧
    (∀ (K r q sigma T : ℝ) (hK : 0 < K) (hs : 0 < sigma) (hT : 0 < T),
        bs_delta_call (Dbl.fin 0) (Dbl.fin K) (Dbl.fin r) (Dbl.fin q) (Dbl.fin sigma) (Dbl.fin T) =
        Dbl.fin 0) ∧
    (∀ (S r q sigma T : ℝ) (hS : 0 < S) (hs : 0 < sigma) (hT : 0 < T),
        bs_gamma_call (Dbl.fin S) (Dbl.fin 0) (Dbl.fin r) (Dbl.fin q) (Dbl.fin sigma) (Dbl.fin T) =
        Dbl.fin 0) ∧
    (∀ (K r q sigma T : ℝ) (hK : 0 < K) (hs : 0 < sigma) (hT : 0 < T),
        bs_gamma_call (Dbl.fin 0) (Dbl.fin K) (Dbl.fin r) (Dbl.fin q) (Dbl.fin sigma) (Dbl.fin T) =
        Dbl.nan) ∧
    (∀ (r q sigma T : ℝ) (hs : 0 < sigma) (hT : 0 < T),
        bs_delta_call (Dbl.fin 0) (Dbl.fin 0) (Dbl.fin r) (Dbl.fin q) (Dbl.fin sigma) (Dbl.fin T) =
        Dbl.nan) ∧
    (∀ (lam S K r q sigma T : ℝ) (hl : 0 < lam),
        d1 (lam * S) (lam * K) r q sigma T = d1 S K r q sigma T) := by
  -- The `log1p` form agrees with the `log` form: for positive `F` and `K` both evaluate to
  -- `ln(F/K)`.
  have log1p_eq_log (F K : ℝ) (hF : 0 < F) (hK : 0 < K) :
      Dbl.log1p ((Dbl.fin F - Dbl.fin K) / Dbl.fin K) = Dbl.fin (Real.log (F / K)) ∧
      Dbl.log (Dbl.fin F / Dbl.fin K) = Dbl.fin (Real.log (F / K)) := by
    have hK0 : K ≠ 0 := ne_of_gt hK
    have hFK : 0 < F / K := div_pos hF hK
    have h1 : 1 + (F - K) / K = F / K := by field_simp
    have h2 : -1 < (F - K) / K := by
      have : (F - K) / K = F / K - 1 := by field_simp
      rw [this]; linarith
    constructor
    · rw [Dbl.fin_sub, Dbl.fin_div _ _ hK0]
      delta Dbl.log1p
      simp [h2, h1]
    · rw [Dbl.fin_div _ _ hK0]
      delta Dbl.log
      simp [hFK]
  -- The logarithm block shared by `bs_delta_call` and `bs_gamma_call` evaluates to `ln(F/K)` for
  -- positive `F` and `K`, whichever branch is taken.
  have ln_F_over_K_eq (F K : ℝ) (hF : 0 < F) (hK : 0 < K) :
      (if Dbl.gt (Dbl.fin K) (Dbl.fin 0) then
          (if Dbl.le (Dbl.abs (Dbl.fin (F - K) / Dbl.fin K)) (Dbl.fin 1e-12) then
            Dbl.log1p (Dbl.fin (F - K) / Dbl.fin K)
          else Dbl.log (Dbl.fin F / Dbl.fin K))
        else Dbl.log (Dbl.fin F / Dbl.fin K)) = Dbl.fin (Real.log (F / K)) := by
    obtain ⟨h1, h2⟩ := log1p_eq_log F K hF hK
    rw [Dbl.fin_sub] at h1
    rw [h1, h2]
    simp
  -- The total volatility `sigma * sqrt(max(T, 0))` on finite inputs.
  have sigmaT_eq (sigma T : ℝ) :
      Dbl.fin sigma * Dbl.sqrt (Dbl.max (Dbl.fin T) (Dbl.fin 0)) =
        Dbl.fin (sigma * Real.sqrt (max T 0)) := by
    by_cases hT : T < 0
    · have : max T 0 = 0 := max_eq_right (le_of_lt hT)
      delta Dbl.max Dbl.lt Dbl.sqrt
      simp [hT, this]
    · have : max T 0 = T := max_eq_left (not_lt.mp hT)
      delta Dbl.max Dbl.lt Dbl.sqrt
      simp [hT, this]
  -- Value of `bs_delta_call` in the non-degenerate branch: `e^{-qT}·Φ(d1)`.
  have bs_delta_call_pos (S K r q sigma T : ℝ) (hS : 0 < S) (hK : 0 < K) (hs : 0 < sigma)
      (hT : 0 < T) :
      bs_delta_call (Dbl.fin S) (Dbl.fin K) (Dbl.fin r) (Dbl.fin q) (Dbl.fin sigma) (Dbl.fin T) =
        Dbl.fin (Real.exp (-q * T) * Phi (d1 S K r q sigma T)) := by
    have hF : 0 < S * Real.exp ((r - q) * T) := mul_pos hS (Real.exp_pos _)
    have hmax : max T 0 = T := max_eq_left (le_of_lt hT)
    have ha : sigma * Real.sqrt T ≠ 0 := ne_of_gt (mul_pos hs (Real.sqrt_pos.mpr hT))
    delta bs_delta_call d1 forward
    delta Dbl.exp
    simp only [sigmaT_eq, hmax, Dbl.neg_fin, Dbl.fin_mul, Dbl.fin_sub]
    rw [ln_F_over_K_eq _ _ hF hK]
    delta Dbl.eq Phi_real
    simp only [ha, decide_False, Bool.false_eq_true, if_false, Dbl.fin_mul, Dbl.fin_add,
      Dbl.fin_div _ _ ha]
    congr 3
    ring
  have phi_pos (x : ℝ) : 0 < phi x := by
    delta phi; positivity
  have phi_nonneg (x : ℝ) : 0 ≤ phi x := le_of_lt (phi_pos x)
  -- Half of the mass lies below zero: `Φ(0) = 1/2`.
  have Phi_zero : Phi 0 = 1 / 2 := by
    delta Phi
    simp
  -- The log-density form of the source is the standard normal density.
  have exp_log_density (x : ℝ) :
      Real.exp (-0.5 * x * x + NEG_HALF_LOG_2PI) = phi x := by
    have h2pi : (0 : ℝ) < 2 * Real.pi := by positivity
    have hsq : Real.exp (1 / 2 * Real.log (2 * Real.pi)) = Real.sqrt (2 * Real.pi) := by
      rw [Real.sqrt_eq_rpow, Real.rpow_def_of_pos h2pi]
      ring_nf
    have hc : Real.exp (-(1 / 2) * Real.log (2 * Real.pi)) = (Real.sqrt (2 * Real.pi))⁻¹ := by
      rw [← hsq, ← Real.exp_neg]
      congr 1
      ring
    delta phi NEG_HALF_LOG_2PI
    rw [Real.exp_add, hc, div_eq_mul_inv]
    congr 2
    ring
  -- Value of `bs_gamma_call` in the non-degenerate branch: `e^{-qT}·φ(d1)/(S·σ√T)`.
  have bs_gamma_call_pos (S K r q sigma T : ℝ) (hS : 0 < S) (hK : 0 < K) (hs : 0 < sigma)
      (hT : 0 < T) :
      bs_gamma_call (Dbl.fin S) (Dbl.fin K) (Dbl.fin r) (Dbl.fin q) (Dbl.fin sigma) (Dbl.fin T) =
        Dbl.fin (Real.exp (-q * T) * phi (d1 S K r q sigma T) / (S * (sigma * Real.sqrt T))) := by
    have hF : 0 < S * Real.exp ((r - q) * T) := mul_pos hS (Real.exp_pos _)
    have hmax : max T 0 = T := max_eq_left (le_of_lt hT)
    have ha0 : 0 < sigma * Real.sqrt T := mul_pos hs (Real.sqrt_pos.mpr hT)
    have ha : sigma * Real.sqrt T ≠ 0 := ne_of_gt ha0
    have hSa : S * (sigma * Real.sqrt T) ≠ 0 := ne_of_gt (mul_pos hS ha0)
    delta bs_gamma_call
    delta Dbl.exp
    simp only [sigmaT_eq, hmax, Dbl.neg_fin, Dbl.fin_mul, Dbl.fin_sub]
    rw [ln_F_over_K_eq _ _ hF hK]
    delta Dbl.eq Dbl.exp
    simp only [ha, decide_False, Bool.false_eq_true, if_false, Dbl.fin_mul, Dbl.fin_add,
      Dbl.fin_div _ _ ha, Dbl.fin_div _ _ hSa, exp_log_density]
    delta d1 forward
    congr 5
    ring
  -- The total volatility vanishes exactly when `σ = 0` or `T ≤ 0`.
  have sigmaT_eq_zero_iff (sigma T : ℝ) :
      sigma * Real.sqrt (max T 0) = 0 ↔ sigma = 0 ∨ T ≤ 0 := by
    rw [mul_eq_zero, Real.sqrt_eq_zero', max_le_iff]
    simp
  -- Value of `bs_delta_call` in the degenerate branch.
  have bs_delta_call_degenerate (S K r q sigma T : ℝ)
      (h : sigma * Real.sqrt (max T 0) = 0) :
      bs_delta_call (Dbl.fin S) (Dbl.fin K) (Dbl.fin r) (Dbl.fin q) (Dbl.fin sigma) (Dbl.fin T) =
        if K < forward S r q T then Dbl.fin (Real.exp (-q * T)) else Dbl.fin 0 := by
    delta bs_delta_call forward
    delta Dbl.exp Dbl.eq Dbl.gt Dbl.lt
    simp only [sigmaT_eq, h, Dbl.neg_fin, Dbl.fin_mul, Dbl.fin_sub, decide_True, if_true,
      decide_eq_true_eq]
    split_ifs <;> simp
  -- Value of `bs_gamma_call` in the degenerate branch.
  have bs_gamma_call_degenerate (S K r q sigma T : ℝ)
      (h : sigma * Real.sqrt (max T 0) = 0) :
      bs_gamma_call (Dbl.fin S) (Dbl.fin K) (Dbl.fin r) (Dbl.fin q) (Dbl.fin sigma) (Dbl.fin T) =
        Dbl.fin 0 := by
    delta bs_gamma_call
    delta Dbl.eq
    simp only [sigmaT_eq, h, decide_True, if_true]
  -- Value of `bs_delta_call` at strike zero and positive spot: the logarithm is `+inf`.
  have bs_delta_call_strike_zero (S r q sigma T : ℝ) (hS : 0 < S) (hs : 0 < sigma)
      (hT : 0 < T) :
      bs_delta_call (Dbl.fin S) (Dbl.fin 0) (Dbl.fin r) (Dbl.fin q) (Dbl.fin sigma) (Dbl.fin T) =
        Dbl.fin (Real.exp (-q * T)) := by
    have hF : 0 < S * Real.exp ((r - q) * T) := mul_pos hS (Real.exp_pos _)
    have hmax : max T 0 = T := max_eq_left (le_of_lt hT)
    have ha0 : 0 < sigma * Real.sqrt T := mul_pos hs (Real.sqrt_pos.mpr hT)
    have ha : sigma * Real.sqrt T ≠ 0 := ne_of_gt ha0
    have hdiv : Dbl.fin (S * Real.exp ((r - q) * T)) / Dbl.fin 0 = Dbl.pinf := by
      show Dbl.div _ _ = _
      delta Dbl.div Dbl.signedInf
      simp [hF]
    have hadd : ∀ y : ℝ, Dbl.pinf + Dbl.fin y = Dbl.pinf := fun y => rfl
    have hdiv2 : Dbl.pinf / Dbl.fin (sigma * Real.sqrt T) = Dbl.pinf := by
      show Dbl.div _ _ = _
      delta Dbl.div
      simp [not_lt.mpr (le_of_lt ha0)]
    delta bs_delta_call
    delta Dbl.exp Dbl.eq Dbl.gt Dbl.lt Dbl.log Phi_real
    simp only [sigmaT_eq, hmax, Dbl.neg_fin, Dbl.fin_mul, Dbl.fin_sub, ha, decide_False,
      Bool.false_eq_true, if_false, lt_irrefl, hdiv, hadd, hdiv2, mul_one]
  -- Value of `bs_delta_call` at spot zero and positive strike: the logarithm is `-inf`.
  have bs_delta_call_spot_zero (K r q sigma T : ℝ) (hK : 0 < K) (hs : 0 < sigma)
      (hT : 0 < T) :
      bs_delta_call (Dbl.fin 0) (Dbl.fin K) (Dbl.fin r) (Dbl.fin q) (Dbl.fin sigma) (Dbl.fin T) =
        Dbl.fin 0 := by
    have hK0 : K ≠ 0 := ne_of_gt hK
    have hmax : max T 0 = T := max_eq_left (le_of_lt hT)
    have ha0 : 0 < sigma * Real.sqrt T := mul_pos hs (Real.sqrt_pos.mpr hT)
    have ha : sigma * Real.sqrt T ≠ 0 := ne_of_gt ha0
    have hx : (0 - K) / K = -1 := by field_simp
    have habs : ¬ ((1 : ℝ) ≤ 1e-12) := by norm_num
    have hadd : ∀ y : ℝ, Dbl.ninf + Dbl.fin y = Dbl.ninf := fun y => rfl
    have hdiv2 : Dbl.ninf / Dbl.fin (sigma * Real.sqrt T) = Dbl.ninf := by
      show Dbl.div _ _ = _
      delta Dbl.div
      simp [not_lt.mpr (le_of_lt ha0)]
    delta bs_delta_call
    delta Dbl.exp Dbl.eq Dbl.gt Dbl.lt Dbl.abs Dbl.le Dbl.log Phi_real
    simp only [sigmaT_eq, hmax, Dbl.neg_fin, Dbl.fin_mul, Dbl.fin_sub, ha, decide_False,
      Bool.false_eq_true, if_false, hK, decide_True, if_true, Dbl.fin_div _ _ hK0,
      zero_mul, hx, abs_neg, abs_one, habs, zero_div, lt_irrefl, hadd, hdiv2, mul_zero]
  -- Value of `bs_gamma_call` at strike zero and positive spot: `d1 = +inf` and the density
  -- underflows to zero.
  have bs_gamma_call_strike_zero (S r q sigma T : ℝ) (hS : 0 < S) (hs : 0 < sigma)
      (hT : 0 < T) :
      bs_gamma_call (Dbl.fin S) (Dbl.fin 0) (Dbl.fin r) (Dbl.fin q) (Dbl.fin sigma) (Dbl.fin T) =
        Dbl.fin 0 := by
    have hF : 0 < S * Real.exp ((r - q) * T) := mul_pos hS (Real.exp_pos _)
    have hmax : max T 0 = T := max_eq_left (le_of_lt hT)
    have ha0 : 0 < sigma * Real.sqrt T := mul_pos hs (Real.sqrt_pos.mpr hT)
    have ha : sigma * Real.sqrt T ≠ 0 := ne_of_gt ha0
    have hSa : S * (sigma * Real.sqrt T) ≠ 0 := ne_of_gt (mul_pos hS ha0)
    have hdiv : Dbl.fin (S * Real.exp ((r - q) * T)) / Dbl.fin 0 = Dbl.pinf := by
      show Dbl.div _ _ = _
      delta Dbl.div Dbl.signedInf
      simp [hF]
    have hadd : ∀ y : ℝ, Dbl.pinf + Dbl.fin y = Dbl.pinf := fun y => rfl
    have hadd2 : ∀ y : ℝ, Dbl.ninf + Dbl.fin y = Dbl.ninf := fun y => rfl
    have hdiv2 : Dbl.pinf / Dbl.fin (sigma * Real.sqrt T) = Dbl.pinf := by
      show Dbl.div _ _ = _
      delta Dbl.div
      simp [not_lt.mpr (le_of_lt ha0)]
    have hmul : Dbl.fin (-0.5) * Dbl.pinf = Dbl.ninf := by
      show Dbl.mul _ _ = _
      have : ¬ ((0 : ℝ) < -0.5) := by norm_num
      have h' : ((-0.5 : ℝ) < 0) := by norm_num
      delta Dbl.mul Dbl.signedInf
      simp [this, h']
    have hmul2 : Dbl.ninf * Dbl.pinf = Dbl.ninf := rfl
    delta bs_gamma_call
    delta Dbl.exp Dbl.eq Dbl.gt Dbl.lt Dbl.log
    simp only [sigmaT_eq, hmax, Dbl.neg_fin, Dbl.fin_mul, Dbl.fin_sub, ha, decide_False,
      Bool.false_eq_true, if_false, lt_irrefl, hdiv, hadd, hdiv2, hmul, hmul2, hadd2,
      mul_zero, Dbl.fin_div _ _ hSa, zero_div]
  -- Value of `bs_gamma_call` at spot zero and positive strike: the quotient is `0 / 0`.
  have bs_gamma_call_spot_zero (K r q sigma T : ℝ) (hK : 0 < K) (hs : 0 < sigma)
      (hT : 0 < T) :
      bs_gamma_call (Dbl.fin 0) (Dbl.fin K) (Dbl.fin r) (Dbl.fin q) (Dbl.fin sigma) (Dbl.fin T) =
        Dbl.nan := by
    have hK0 : K ≠ 0 := ne_of_gt hK
    have hmax : max T 0 = T := max_eq_left (le_of_lt hT)
    have ha0 : 0 < sigma * Real.sqrt T := mul_pos hs (Real.sqrt_pos.mpr hT)
    have ha : sigma * Real.sqrt T ≠ 0 := ne_of_gt ha0
    have hx : (0 - K) / K = -1 := by field_simp
    have habs : ¬ ((1 : ℝ) ≤ 1e-12) := by norm_num
    have hadd : ∀ y : ℝ, Dbl.ninf + Dbl.fin y = Dbl.ninf := fun y => rfl
    have hdiv2 : Dbl.ninf / Dbl.fin (sigma * Real.sqrt T) = Dbl.ninf := by
      show Dbl.div _ _ = _
      delta Dbl.div
      simp [not_lt.mpr (le_of_lt ha0)]
    have hmul : Dbl.fin (-0.5) * Dbl.ninf = Dbl.pinf := by
      show Dbl.mul _ _ = _
      have : ¬ ((0 : ℝ) < -0.5) := by norm_num
      have h' : ((-0.5 : ℝ) < 0) := by norm_num
      delta Dbl.mul Dbl.signedInf
      simp [this, h']
    have hmul2 : Dbl.pinf * Dbl.ninf = Dbl.ninf := rfl
    have hdiv3 : Dbl.fin 0 / Dbl.fin 0 = Dbl.nan := by
      show Dbl.div _ _ = _
      delta Dbl.div Dbl.signedInf
      simp
    delta bs_gamma_call
    delta Dbl.exp Dbl.eq Dbl.gt Dbl.lt Dbl.abs Dbl.le Dbl.log
    simp only [sigmaT_eq, hmax, Dbl.neg_fin, Dbl.fin_mul, Dbl.fin_sub, ha, decide_False,
      Bool.false_eq_true, if_false, hK, decide_True, if_true, Dbl.fin_div _ _ hK0,
      zero_mul, hx, abs_neg, abs_one, habs, zero_div, lt_irrefl, hadd, hdiv2, hmul,
      hmul2, mul_zero, hdiv3]
  -- Value of `bs_delta_call` at spot zero and strike zero: `0 / 0` gives NaN.
  have bs_delta_call_zero_zero (r q sigma T : ℝ) (hs : 0 < sigma) (hT : 0 < T) :
      bs_delta_call (Dbl.fin 0) (Dbl.fin 0) (Dbl.fin r) (Dbl.fin q) (Dbl.fin sigma) (Dbl.fin T) =
        Dbl.nan := by
    have hmax : max T 0 = T := max_eq_left (le_of_lt hT)
    have ha0 : 0 < sigma * Real.sqrt T := mul_pos hs (Real.sqrt_pos.mpr hT)
    have ha : sigma * Real.sqrt T ≠ 0 := ne_of_gt ha0
    have hdiv3 : Dbl.fin 0 / Dbl.fin 0 = Dbl.nan := by
      show Dbl.div _ _ = _
      delta Dbl.div Dbl.signedInf
      simp
    have hadd : ∀ y : ℝ, Dbl.nan + Dbl.fin y = Dbl.nan := fun y => rfl
    have hdiv2 : ∀ y : ℝ, Dbl.nan / Dbl.fin y = Dbl.nan := fun y => rfl
    have hmul : ∀ y : ℝ, Dbl.fin y * Dbl.nan = Dbl.nan := fun y => rfl
    delta bs_delta_call
    delta Dbl.exp Dbl.eq Dbl.gt Dbl.lt Dbl.log Phi_real
    simp only [sigmaT_eq, hmax, Dbl.neg_fin, Dbl.fin_mul, Dbl.fin_sub, ha, decide_False,
      Bool.false_eq_true, if_false, lt_irrefl, zero_mul, hdiv3, hadd, hdiv2, hmul]
  -- The quantity `d1` does not change when spot and strike are scaled together.
  have d1_scale (lam S K r q sigma T : ℝ) (hl : 0 < lam) :
      d1 (lam * S) (lam * K) r q sigma T = d1 S K r q sigma T := by
    delta d1 forward
    rw [mul_assoc, mul_div_mul_left _ _ (ne_of_gt hl)]
  exact ⟨log1p_eq_log, ln_F_over_K_eq, sigmaT_eq, bs_delta_call_pos, phi_pos, phi_nonneg,
    Phi_zero, exp_log_density, bs_gamma_call_pos, sigmaT_eq_zero_iff, bs_delta_call_degenerate,
    bs_gamma_call_degenerate, bs_delta_call_strike_zero, bs_delta_call_spot_zero,
    bs_gamma_call_strike_zero, bs_gamma_call_spot_zero, bs_delta_call_zero_zero, d1_scale⟩

/-! ## Estimates for the normal density and for `d1` -/

set_option maxHeartbeats 0 in
/-- Elementary estimates for the density `phi` and the quantity `d1`.  The components are, in order:
`phi_le_one`, `phi_d1_shift`, `d1_sub`, `phi_shift_general`, `d1_test_scenario`, `phi_lower`,
`phi_le_of_sq_le`, `phi_le_phi_zero`, `phi_zero_sub_ge`, `phi_ge_quadratic`, `d1_flat_scenario`,
`gamma_le_right`, `gamma_lower_test_scenario`, `phi_far_lt_half_phi_near`, `exp_neg_taylor`,
`sqrt_two_pi_bounds`, `d1_known_scenario`, `phi_taylor_error`, `inv_sqrt_two_pi_bounds`,
`phi_tenth_value`. -/
theorem density_facts :
    (∀ (x : ℝ),
        phi x ≤ 1) ∧
    (∀ (x K r q sigma T : ℝ) (hx : 0 < x) (hK : 0 < K) (hs : 0 < sigma) (hT : 0 < T),
        K * phi (d1 x K r q sigma T - sigma * Real.sqrt T) =
        forward x r q T * phi (d1 x K r q sigma T)) ∧
    (∀ (x y K r q sigma T : ℝ) (hx : 0 < x) (hy : 0 < y) (hK : 0 < K),
        d1 x K r q sigma T - d1 y K r q sigma T = Real.log (x / y) / (sigma * Real.sqrt T)) ∧
    (∀ (S K r q sigma T s : ℝ) (hS : 0 < S) (hK : 0 < K) (hs : 0 < sigma) (hT : 0 < T),
        K * phi (s - sigma * Real.sqrt T) =
        forward S r q T * Real.exp (sigma * Real.sqrt T * (s - d1 S K r q sigma T)) * phi s) ∧
    (d1 100 100 0.05 0.02 0.2 1 = 1 / 4) ∧
    (∀ (x : ℝ) (hx : x ^ 2 ≤ 1),
        1 / 6 ≤ phi x) ∧
    (∀ (x y : ℝ) (h : y ^ 2 ≤ x ^ 2),
        phi x ≤ phi y) ∧
    (∀ (x : ℝ),
        phi x ≤ phi 0) ∧
    (∀ (delta : ℝ),
        phi 0 * (delta ^ 2 / 2 / (1 + delta ^ 2 / 2)) ≤ phi 0 - phi delta) ∧
    (∀ (x : ℝ),
        phi 0 * (1 - x ^ 2 / 2) ≤ phi x) ∧
    (d1 100 100 0 0.005 0.1 1 = 0) ∧
    (∀ (S K r q sigma T x : ℝ) (hS : 0 < S) (hs : 0 < sigma) (hT : 0 < T) (hx : S ≤ x),
        Real.exp (-q * T) * phi (d1 x K r q sigma T) / (x * (sigma * Real.sqrt T)) ≤
        Real.exp (-q * T) / (S * (sigma * Real.sqrt T))) ∧
    (∀ (x : ℝ) (hx : x ∈ Set.Icc (100 : ℝ) (100 + 0.001)),
        0.008 ≤ Real.exp (-0.02 * 1) * phi (d1 x 100 0.05 0.02 0.2 1) / (x * (0.2 * Real.sqrt 1))) ∧
    (phi (9 / 4) < phi (1 / 4) / 2) ∧
    (∀ (s : ℝ) (hs0 : 0 ≤ s) (hs1 : s ≤ 1),
        |Real.exp (-s) - (1 - s + s ^ 2 / 2 - s ^ 3 / 6)| ≤ 5 / 96 * s ^ 4) ∧
    ((2.5066282746310 : ℝ) < Real.sqrt (2 * Real.pi) ∧
        Real.sqrt (2 * Real.pi) < 2.5066282746311) ∧
    (d1 100 100 0 0 0.2 1 = 1 / 10) ∧
    (∀ (t : ℝ) (ht : t ∈ Set.Icc (0 : ℝ) (1 / 10)),
        |phi t - (1 - t ^ 2 / 2 + t ^ 4 / 8 - t ^ 6 / 48) / Real.sqrt (2 * Real.pi)| ≤
        14 / 10 ^ 12) ∧
    ((0.39894228040141 : ℝ) < 1 / Real.sqrt (2 * Real.pi) ∧
        1 / Real.sqrt (2 * Real.pi) < 0.39894228040145) ∧
    (|phi (1 / 10) / 20 - 0.01984762737385| < 1e-10) := by
  obtain ⟨-, -, -, -, phi_pos, phi_nonneg, -, -, -, -, -, -, -, -, -, -, -,
    -⟩ := analytic_greeks_facts
  -- The density is at most one.
  have phi_le_one (x : ℝ) : phi x ≤ 1 := by
    delta phi
    have h1 : Real.exp (-(x ^ 2) / 2) ≤ 1 := by
      rw [Real.exp_le_one_iff]
      have := sq_nonneg x
      linarith
    have h2 : (1 : ℝ) ≤ Real.sqrt (2 * Real.pi) := by
      rw [show (1 : ℝ) = Real.sqrt 1 by simp]
      apply Real.sqrt_le_sqrt
      have := Real.pi_gt_three
      linarith
    rw [div_le_one (by positivity)]
    linarith
  -- Shifting the argument of the density by the total volatility: `K·φ(d1 − σ√T) = F·φ(d1)`.
  have phi_d1_shift (x K r q sigma T : ℝ) (hx : 0 < x) (hK : 0 < K) (hs : 0 < sigma)
      (hT : 0 < T) :
      K * phi (d1 x K r q sigma T - sigma * Real.sqrt T) =
        forward x r q T * phi (d1 x K r q sigma T) := by
    have ha0 : 0 < sigma * Real.sqrt T := mul_pos hs (Real.sqrt_pos.mpr hT)
    have hF : 0 < forward x r q T := mul_pos hx (Real.exp_pos _)
    have hFK : 0 < forward x r q T / K := div_pos hF hK
    have hsq : Real.sqrt T ^ 2 = T := Real.sq_sqrt (le_of_lt hT)
    have hD : d1 x K r q sigma T * (sigma * Real.sqrt T) =
        Real.log (forward x r q T / K) + 1 / 2 * sigma ^ 2 * T := by
      delta d1
      field_simp
      ring
    have key : -((d1 x K r q sigma T - sigma * Real.sqrt T) ^ 2) / 2 =
        -(d1 x K r q sigma T ^ 2) / 2 + Real.log (forward x r q T / K) := by
      have : (d1 x K r q sigma T - sigma * Real.sqrt T) ^ 2 =
          d1 x K r q sigma T ^ 2 - 2 * (d1 x K r q sigma T * (sigma * Real.sqrt T)) +
            sigma ^ 2 * Real.sqrt T ^ 2 := by ring
      rw [this, hD, hsq]
      ring
    delta phi
    rw [key, Real.exp_add, Real.exp_log hFK]
    field_simp
    ring
  -- Dependence of `d1` on the spot: `d1(x) − d1(y) = ln(x/y)/(σ√T)`.
  have d1_sub (x y K r q sigma T : ℝ) (hx : 0 < x) (hy : 0 < y) (hK : 0 < K) :
      d1 x K r q sigma T - d1 y K r q sigma T = Real.log (x / y) / (sigma * Real.sqrt T) := by
    have hE : 0 < Real.exp ((r - q) * T) := Real.exp_pos _
    delta d1 forward
    rw [← sub_div]
    congr 1
    rw [Real.log_div (ne_of_gt (mul_pos hx hE)) (ne_of_gt hK),
      Real.log_div (ne_of_gt (mul_pos hy hE)) (ne_of_gt hK),
      Real.log_mul (ne_of_gt hx) (ne_of_gt hE), Real.log_mul (ne_of_gt hy) (ne_of_gt hE),
      Real.log_div (ne_of_gt hx) (ne_of_gt hy)]
    ring
  -- The density at a shifted argument: `K·φ(s − σ√T) = F·e^{σ√T·(s − d1)}·φ(s)`.
  have phi_shift_general (S K r q sigma T s : ℝ) (hS : 0 < S) (hK : 0 < K) (hs : 0 < sigma)
      (hT : 0 < T) :
      K * phi (s - sigma * Real.sqrt T) =
        forward S r q T * Real.exp (sigma * Real.sqrt T * (s - d1 S K r q sigma T)) * phi s := by
    have h0 := phi_d1_shift S K r q sigma T hS hK hs hT
    have hgen : ∀ t : ℝ, phi (t - sigma * Real.sqrt T) =
        phi t * Real.exp (sigma * Real.sqrt T * t - (sigma * Real.sqrt T) ^ 2 / 2) := by
      intro t
      delta phi
      rw [div_mul_eq_mul_div, ← Real.exp_add]
      congr 2
      ring
    rw [hgen] at h0 ⊢
    have hp := phi_pos (d1 S K r q sigma T)
    have hK' : K * Real.exp (sigma * Real.sqrt T * d1 S K r q sigma T -
        (sigma * Real.sqrt T) ^ 2 / 2) = forward S r q T := by
      have : phi (d1 S K r q sigma T) * (K * Real.exp (sigma * Real.sqrt T * d1 S K r q sigma T -
          (sigma * Real.sqrt T) ^ 2 / 2)) = phi (d1 S K r q sigma T) * forward S r q T := by
        linarith
      exact mul_left_cancel₀ (ne_of_gt hp) this
    rw [← hK']
    have : Real.exp (sigma * Real.sqrt T * s - (sigma * Real.sqrt T) ^ 2 / 2) =
        Real.exp (sigma * Real.sqrt T * d1 S K r q sigma T - (sigma * Real.sqrt T) ^ 2 / 2) *
          Real.exp (sigma * Real.sqrt T * (s - d1 S K r q sigma T)) := by
      rw [← Real.exp_add]; congr 1; ring
    rw [this]
    ring
  -- The value of `d1` at `S = K = 100`, `r = 0.05`, `q = 0.02`, `σ = 0.2`, `T = 1`.
  have d1_test_scenario : d1 100 100 0.05 0.02 0.2 1 = 1 / 4 := by
    delta d1 forward
    have h1 : (100 : ℝ) * Real.exp ((0.05 - 0.02) * 1) / 100 = Real.exp ((0.05 - 0.02) * 1) := by
      field_simp
    rw [h1, Real.log_exp, Real.sqrt_one]
    norm_num
  -- A lower bound for the density on `[-1, 1]`.
  have phi_lower (x : ℝ) (hx : x ^ 2 ≤ 1) : 1 / 6 ≤ phi x := by
    delta phi
    have h1 : (1 : ℝ) / 2 ≤ Real.exp (-(x ^ 2) / 2) := by
      have := Real.add_one_le_exp (-(x ^ 2) / 2)
      linarith
    have h2 : Real.sqrt (2 * Real.pi) ≤ 3 := by
      rw [show (3 : ℝ) = Real.sqrt 9 by
        rw [show (9 : ℝ) = 3 ^ 2 by norm_num, Real.sqrt_sq (by norm_num)]]
      apply Real.sqrt_le_sqrt
      have := Real.pi_lt_four
      linarith
    have h3 : (0 : ℝ) < Real.sqrt (2 * Real.pi) := by positivity
    rw [le_div_iff₀ h3]
    linarith
  -- The density decreases with the modulus of its argument.
  have phi_le_of_sq_le (x y : ℝ) (h : y ^ 2 ≤ x ^ 2) : phi x ≤ phi y := by
    delta phi
    apply div_le_div_of_nonneg_right _ (Real.sqrt_nonneg _)
    apply Real.exp_le_exp.mpr
    linarith
  -- The density is largest at zero.
  have phi_le_phi_zero (x : ℝ) : phi x ≤ phi 0 :=
    phi_le_of_sq_le x 0 (by simpa using sq_nonneg x)
  -- The drop of the density between `0` and `δ`.
  have phi_zero_sub_ge (delta : ℝ) :
      phi 0 * (delta ^ 2 / 2 / (1 + delta ^ 2 / 2)) ≤ phi 0 - phi delta := by
    have hs : 0 ≤ delta ^ 2 / 2 := by positivity
    have h1 : 1 + delta ^ 2 / 2 ≤ Real.exp (delta ^ 2 / 2) := by
      have := Real.add_one_le_exp (delta ^ 2 / 2)
      linarith
    have h2 : Real.exp (-(delta ^ 2) / 2) ≤ 1 / (1 + delta ^ 2 / 2) := by
      have he : Real.exp (-(delta ^ 2) / 2) = 1 / Real.exp (delta ^ 2 / 2) := by
        rw [one_div, ← Real.exp_neg]; congr 1; ring
      rw [he]
      exact one_div_le_one_div_of_le (by positivity) h1
    have h3 : phi delta = phi 0 * Real.exp (-(delta ^ 2) / 2) := by
      delta phi
      simp
      ring
    have h4 : delta ^ 2 / 2 / (1 + delta ^ 2 / 2) = 1 - 1 / (1 + delta ^ 2 / 2) := by
      field_simp
    rw [h3, h4]
    have hp := phi_nonneg 0
    nlinarith
  -- A quadratic lower bound for the density.
  have phi_ge_quadratic (x : ℝ) : phi 0 * (1 - x ^ 2 / 2) ≤ phi x := by
    have h3 : phi x = phi 0 * Real.exp (-(x ^ 2) / 2) := by
      delta phi
      simp
      ring
    rw [h3]
    apply mul_le_mul_of_nonneg_left _ (phi_nonneg 0)
    have := Real.add_one_le_exp (-(x ^ 2) / 2)
    linarith
  -- The value of `d1` at `S = K = 100`, `r = 0`, `q = 0.005`, `σ = 0.1`, `T = 1`.
  have d1_flat_scenario : d1 100 100 0 0.005 0.1 1 = 0 := by
    delta d1 forward
    have h1 : (100 : ℝ) * Real.exp ((0 - 0.005) * 1) / 100 = Real.exp ((0 - 0.005) * 1) := by
      field_simp
    rw [h1, Real.log_exp, Real.sqrt_one]
    norm_num
  -- The gamma is at most `e^{-qT}/(S·σ√T)` to the right of `S`.
  have gamma_le_right (S K r q sigma T x : ℝ) (hS : 0 < S) (hs : 0 < sigma) (hT : 0 < T)
      (hx : S ≤ x) :
      Real.exp (-q * T) * phi (d1 x K r q sigma T) / (x * (sigma * Real.sqrt T)) ≤
        Real.exp (-q * T) / (S * (sigma * Real.sqrt T)) := by
    have ha0 : 0 < sigma * Real.sqrt T := mul_pos hs (Real.sqrt_pos.mpr hT)
    have hxpos : 0 < x := lt_of_lt_of_le hS hx
    have hE : 0 < Real.exp (-q * T) := Real.exp_pos _
    have h1 : Real.exp (-q * T) * phi (d1 x K r q sigma T) ≤ Real.exp (-q * T) * 1 :=
      mul_le_mul_of_nonneg_left (phi_le_one _) (le_of_lt hE)
    rw [mul_one] at h1
    calc Real.exp (-q * T) * phi (d1 x K r q sigma T) / (x * (sigma * Real.sqrt T))
        ≤ Real.exp (-q * T) / (x * (sigma * Real.sqrt T)) :=
          div_le_div_of_nonneg_right h1 (by positivity)
      _ ≤ Real.exp (-q * T) / (S * (sigma * Real.sqrt T)) :=
          div_le_div_of_nonneg_left (le_of_lt hE) (by positivity)
            (mul_le_mul_of_nonneg_right hx (le_of_lt ha0))
  -- In the test scenario `S = K = 100`, `r = 0.05`, `q = 0.02`, `σ = 0.2`, `T = 1` the gamma is
  -- at least `0.008` on `[100, 100.001]`.
  have gamma_lower_test_scenario (x : ℝ) (hx : x ∈ Set.Icc (100 : ℝ) (100 + 0.001)) :
      0.008 ≤ Real.exp (-0.02 * 1) * phi (d1 x 100 0.05 0.02 0.2 1) / (x * (0.2 * Real.sqrt 1)) := by
    obtain ⟨hx1, hx2⟩ := hx
    have hxpos : 0 < x := by linarith
    have hd := d1_sub x 100 100 0.05 0.02 0.2 1 hxpos (by norm_num) (by norm_num)
    rw [d1_test_scenario, Real.sqrt_one] at hd
    have hl0 : 0 ≤ Real.log (x / 100) := Real.log_nonneg (by rw [le_div_iff₀ (by norm_num)]; linarith)
    have hl1 : Real.log (x / 100) ≤ x / 100 - 1 :=
      Real.log_le_sub_one_of_pos (by positivity)
    have hD0 : 1 / 4 ≤ d1 x 100 0.05 0.02 0.2 1 := by
      have : 0 ≤ Real.log (x / 100) / (0.2 * 1) := by positivity
      linarith
    have hD1 : d1 x 100 0.05 0.02 0.2 1 ≤ 1 / 2 := by
      have : Real.log (x / 100) / (0.2 * 1) ≤ (x / 100 - 1) / (0.2 * 1) :=
        div_le_div_of_nonneg_right hl1 (by norm_num)
      have h2 : (x / 100 - 1) / (0.2 * 1) ≤ 1 / 4 := by
        rw [div_le_iff₀ (by norm_num)]
        linarith
      linarith
    have hphi := phi_lower (d1 x 100 0.05 0.02 0.2 1) (by nlinarith)
    have hE : 0.98 ≤ Real.exp (-0.02 * 1) := by
      have := Real.add_one_le_exp (-0.02 * 1 : ℝ)
      linarith
    rw [Real.sqrt_one, le_div_iff₀ (by positivity)]
    have h3 : 0.98 * (1 / 6) ≤ Real.exp (-0.02 * 1) * phi (d1 x 100 0.05 0.02 0.2 1) :=
      mul_le_mul hE hphi (by norm_num) (Real.exp_pos _).le
    nlinarith
  -- The density at `9/4` is less than half the density at `1/4`.
  have phi_far_lt_half_phi_near : phi (9 / 4) < phi (1 / 4) / 2 := by
    have h1 : phi (9 / 4) = phi (1 / 4) * Real.exp (-(5 / 2)) := by
      delta phi
      rw [div_mul_eq_mul_div, ← Real.exp_add]
      norm_num
    have h2 : Real.exp (-(5 / 2)) < 1 / 2 := by
      rw [Real.exp_neg, inv_lt_comm₀ (Real.exp_pos _) (by norm_num)]
      have := Real.add_one_le_exp (5 / 2 : ℝ)
      norm_num at this ⊢
      linarith
    rw [h1]
    have := phi_pos (1 / 4)
    nlinarith
  -- Third-order Taylor bound for `e^{-s}` on `[0, 1]`.
  have exp_neg_taylor (s : ℝ) (hs0 : 0 ≤ s) (hs1 : s ≤ 1) :
      |Real.exp (-s) - (1 - s + s ^ 2 / 2 - s ^ 3 / 6)| ≤ 5 / 96 * s ^ 4 := by
    have hx : |(-s)| ≤ 1 := by rw [abs_neg, abs_of_nonneg hs0]; exact hs1
    have h := Real.exp_bound hx (show 0 < 4 by norm_num)
    simp only [Finset.sum_range_succ, Finset.sum_range_zero, Nat.factorial, abs_neg,
      abs_of_nonneg hs0] at h
    norm_num at h
    have e1 : Real.exp (-s) - (1 - s + s ^ 2 / 2 - s ^ 3 / 6) =
        Real.exp (-s) - (1 + -s + s ^ 2 / 2 + (-s) ^ 3 / 6) := by ring
    rw [e1]
    refine le_trans h (le_of_eq ?_)
    ring
  -- Rational enclosure of `√(2π)`.
  have sqrt_two_pi_bounds :
      (2.5066282746310 : ℝ) < Real.sqrt (2 * Real.pi) ∧
        Real.sqrt (2 * Real.pi) < 2.5066282746311 := by
    have h1 := Real.pi_gt_d20
    have h2 := Real.pi_lt_d20
    constructor
    · rw [Real.lt_sqrt (by norm_num)]
      norm_num at h1 ⊢
      linarith
    · rw [Real.sqrt_lt (by positivity) (by norm_num)]
      norm_num at h2 ⊢
      linarith
  -- In the scenario `S = K = 100`, `r = q = 0`, `σ = 0.2`, `T = 1`, `d1 = 0.1`.
  have d1_known_scenario : d1 100 100 0 0 0.2 1 = 1 / 10 := by
    delta d1 forward
    rw [Real.sqrt_one]
    norm_num
  -- The density differs from its sixth-degree Taylor polynomial by at most `1.4e-11` on
  -- `[0, 1/10]`.
  have phi_taylor_error (t : ℝ) (ht : t ∈ Set.Icc (0 : ℝ) (1 / 10)) :
      |phi t - (1 - t ^ 2 / 2 + t ^ 4 / 8 - t ^ 6 / 48) / Real.sqrt (2 * Real.pi)| ≤
        14 / 10 ^ 12 := by
    obtain ⟨ht0, ht1⟩ := ht
    obtain ⟨hc1, -⟩ := sqrt_two_pi_bounds
    have hc : 0 < Real.sqrt (2 * Real.pi) := by linarith
    have hs0 : 0 ≤ t ^ 2 / 2 := by positivity
    have hs1 : t ^ 2 / 2 ≤ 1 / 200 := by nlinarith
    have hT := exp_neg_taylor (t ^ 2 / 2) hs0 (by linarith)
    have hs4 : (t ^ 2 / 2) ^ 4 ≤ (1 / 200) ^ 4 := pow_le_pow_left₀ hs0 hs1 4
    have e1 : phi t - (1 - t ^ 2 / 2 + t ^ 4 / 8 - t ^ 6 / 48) / Real.sqrt (2 * Real.pi) =
        (Real.exp (-(t ^ 2 / 2)) -
          (1 - t ^ 2 / 2 + (t ^ 2 / 2) ^ 2 / 2 - (t ^ 2 / 2) ^ 3 / 6)) /
            Real.sqrt (2 * Real.pi) := by
      delta phi
      rw [← sub_div, neg_div]
      congr 1
      ring
    rw [e1, abs_div, abs_of_pos hc, div_le_iff₀ hc]
    refine le_trans hT ?_
    have h2 : (5 : ℝ) / 96 * (t ^ 2 / 2) ^ 4 ≤ 5 / 96 * (1 / 200) ^ 4 :=
      mul_le_mul_of_nonneg_left hs4 (by norm_num)
    have h3 : (14 : ℝ) / 10 ^ 12 * 2.5066282746310 ≤ 14 / 10 ^ 12 * Real.sqrt (2 * Real.pi) :=
      mul_le_mul_of_nonneg_left hc1.le (by norm_num)
    refine le_trans h2 (le_trans ?_ h3)
    norm_num
  -- Rational enclosure of `1/√(2π)`.
  have inv_sqrt_two_pi_bounds :
      (0.39894228040141 : ℝ) < 1 / Real.sqrt (2 * Real.pi) ∧
        1 / Real.sqrt (2 * Real.pi) < 0.39894228040145 := by
    obtain ⟨h1, h2⟩ := sqrt_two_pi_bounds
    have hc : 0 < Real.sqrt (2 * Real.pi) := by linarith
    constructor
    · rw [lt_div_iff₀ hc]
      nlinarith
    · rw [div_lt_iff₀ hc]
      nlinarith
  -- The density at `0.1`, divided by `20`, to ten decimals.
  have phi_tenth_value : |phi (1 / 10) / 20 - 0.01984762737385| < 1e-10 := by
    obtain ⟨h1, h2⟩ := inv_sqrt_two_pi_bounds
    have hT := exp_neg_taylor (1 / 200) (by norm_num) (by norm_num)
    have e1 : phi (1 / 10) = Real.exp (-(1 / 200)) * (1 / Real.sqrt (2 * Real.pi)) := by
      delta phi
      rw [mul_one_div]
      congr 2
      norm_num
    rw [e1]
    generalize 1 / Real.sqrt (2 * Real.pi) = ic at h1 h2
    generalize Real.exp (-(1 / 200)) = E at hT
    rw [abs_le] at hT
    obtain ⟨h3, h4⟩ := hT
    norm_num at h1 h2 h3 h4
    have hE0 : 0.995 ≤ E := by linarith
    have hE1 : E ≤ 0.9951 := by linarith
    rw [abs_lt]
    norm_num
    constructor <;> nlinarith
  exact ⟨phi_le_one, phi_d1_shift, d1_sub, phi_shift_general, d1_test_scenario, phi_lower,
    phi_le_of_sq_le, phi_le_phi_zero, phi_zero_sub_ge, phi_ge_quadratic, d1_flat_scenario,
    gamma_le_right, gamma_lower_test_scenario, phi_far_lt_half_phi_near, exp_neg_taylor,
    sqrt_two_pi_bounds, d1_known_scenario, phi_taylor_error, inv_sqrt_two_pi_bounds,
    phi_tenth_value⟩

/-! ## The complex pricer in closed form -/

set_option maxHeartbeats 0 in
/-- Closed form of `bs_price_call_complex` at a complex spot, with the bounds on modulus, argument
and logarithm that the complex-step estimators need.  The components are, in order: `csqrt_ofReal`,
`complex_d1_eq`, `bs_price_call_complex_re_im`, `bs_price_call_complex_im`, `abs_sub_re_bounds`,
`mul_cos_le_sin`, `arg_bounds`, `d1_shift_bounds`, `im_price_upper`, `im_price_lower`,
`gamma_complex_step_45deg_eq`, `im_core_correction_bounds`, `log_abs_upper_bounds`,
`log_abs_lower_bounds`, `inv_sqrt2_sq`, `cube_div_upper`, `cube_div_lower`, `abs_sub_re_lower`,
`log_abs_ratio_le`, `im_core_correction_refined`, `arith_drop`, `arith_lower`, `arith_upper`,
`assemble_flat`, `abs_arg_reflect`, `bs_price_call_complex_reflect`, `gamma_complex_step_45deg_neg`.
-/
theorem complex_pricer_facts :
    (∀ (T : ℝ) (hT : 0 < T),
        csqrt (⟨T, 0⟩ : ℂ) = ((Real.sqrt T : ℝ) : ℂ)) ∧
    (∀ (z : ℂ) (K r q sigma T : ℝ) (hz : z ≠ 0) (hK : 0 < K) (hs : 0 < sigma) (hT : 0 < T),
        (Complex.log (z * Complex.exp (((⟨r, 0⟩ : ℂ) - ⟨q, 0⟩) * ⟨T, 0⟩) / ⟨K, 0⟩) +
        (⟨0.5, 0⟩ : ℂ) * ⟨sigma, 0⟩ * ⟨sigma, 0⟩ * ⟨T, 0⟩) / ((⟨sigma, 0⟩ : ℂ) * csqrt ⟨T, 0⟩) =
        ⟨d1 (Complex.abs z) K r q sigma T, Complex.arg z / (sigma * Real.sqrt T)⟩) ∧
    (∀ (z : ℂ) (K r q sigma T : ℝ) (hz : z ≠ 0) (hK : 0 < K) (hs : 0 < sigma) (hT : 0 < T),
        (bs_price_call_complex z ⟨K, 0⟩ ⟨r, 0⟩ ⟨q, 0⟩ ⟨sigma, 0⟩ ⟨T, 0⟩).re =
        Real.exp (-r * T) * (Real.exp ((r - q) * T) *
        (z.re * Phi (d1 (Complex.abs z) K r q sigma T) -
        z.im * (Complex.arg z / (sigma * Real.sqrt T) *
        phi (d1 (Complex.abs z) K r q sigma T))) -
        K * Phi (d1 (Complex.abs z) K r q sigma T - sigma * Real.sqrt T)) ∧
        (bs_price_call_complex z ⟨K, 0⟩ ⟨r, 0⟩ ⟨q, 0⟩ ⟨sigma, 0⟩ ⟨T, 0⟩).im =
        Real.exp (-r * T) * (Real.exp ((r - q) * T) *
        (z.re * (Complex.arg z / (sigma * Real.sqrt T) *
        phi (d1 (Complex.abs z) K r q sigma T)) +
        z.im * Phi (d1 (Complex.abs z) K r q sigma T)) -
        K * (Complex.arg z / (sigma * Real.sqrt T) *
        phi (d1 (Complex.abs z) K r q sigma T - sigma * Real.sqrt T)))) ∧
    (∀ (z : ℂ) (K r q sigma T : ℝ) (hz : z ≠ 0) (hK : 0 < K) (hs : 0 < sigma) (hT : 0 < T),
        (bs_price_call_complex z ⟨K, 0⟩ ⟨r, 0⟩ ⟨q, 0⟩ ⟨sigma, 0⟩ ⟨T, 0⟩).im =
        Real.exp (-q * T) * (z.im * Phi (d1 (Complex.abs z) K r q sigma T) -
        Complex.arg z / (sigma * Real.sqrt T) * phi (d1 (Complex.abs z) K r q sigma T) *
        (Complex.abs z - z.re))) ∧
    (∀ (S h : ℝ) (hS : 0 < S),
        S ≤ Complex.abs ⟨S, h⟩ ∧ Complex.abs ⟨S, h⟩ - S ≤ h ^ 2 / (2 * S)) ∧
    (∀ (x : ℝ) (hx0 : 0 ≤ x) (hx2 : x ≤ 2),
        x * Real.cos x ≤ Real.sin x) ∧
    (∀ (S h : ℝ) (hS : 0 < S) (hh : 0 ≤ h),
        h / Complex.abs ⟨S, h⟩ ≤ Complex.arg ⟨S, h⟩ ∧ Complex.arg ⟨S, h⟩ ≤ h / S) ∧
    (∀ (S K r q sigma T h : ℝ) (hS : 0 < S) (hK : 0 < K) (hs : 0 < sigma) (hT : 0 < T),
        0 ≤ d1 (Complex.abs ⟨S, h⟩) K r q sigma T - d1 S K r q sigma T ∧
        d1 (Complex.abs ⟨S, h⟩) K r q sigma T - d1 S K r q sigma T ≤
        h ^ 2 / (2 * S ^ 2 * (sigma * Real.sqrt T))) ∧
    (∀ (x y K r q sigma T : ℝ) (hx : 0 < x) (hK : 0 < K) (hs : 0 < sigma) (hT : 0 < T),
        (bs_price_call_complex ⟨x, y⟩ ⟨K, 0⟩ ⟨r, 0⟩ ⟨q, 0⟩ ⟨sigma, 0⟩ ⟨T, 0⟩).im =
        Real.exp (-q * T) * im_core x y K r q sigma T) ∧
    (∀ (x y K r q sigma T : ℝ) (hx : 0 < x) (hK : 0 < K) (hs : 0 < sigma) (hT : 0 < T),
        (bs_price_call_complex ⟨x, -y⟩ ⟨K, 0⟩ ⟨r, 0⟩ ⟨q, 0⟩ ⟨sigma, 0⟩ ⟨T, 0⟩).im =
        -(Real.exp (-q * T) * im_core x y K r q sigma T)) ∧
    (∀ (S K r q sigma T h : ℝ) (hK : 0 < K) (hs : 0 < sigma) (hT : 0 < T) (hh : 0 < h) (hc : h * inv_sqrt2 < S),
        gamma_complex_step_45deg S K r q sigma T h =
        Real.exp (-q * T) * (im_core (S + h * inv_sqrt2) (h * inv_sqrt2) K r q sigma T -
        im_core (S - h * inv_sqrt2) (h * inv_sqrt2) K r q sigma T) / (h * h)) ∧
    (∀ (x y K r q sigma T : ℝ) (hx : 0 < x) (hy : 0 ≤ y) (hs : 0 < sigma) (hT : 0 < T),
        0 ≤ Complex.arg ⟨x, y⟩ / (sigma * Real.sqrt T) *
        phi (d1 (Complex.abs ⟨x, y⟩) K r q sigma T) * (Complex.abs ⟨x, y⟩ - x) ∧
        Complex.arg ⟨x, y⟩ / (sigma * Real.sqrt T) *
        phi (d1 (Complex.abs ⟨x, y⟩) K r q sigma T) * (Complex.abs ⟨x, y⟩ - x) ≤
        y ^ 3 / (2 * (sigma * Real.sqrt T) * x ^ 2)) ∧
    (∀ (S c : ℝ) (hS : 0 < S) (hc : 0 ≤ c),
        c / S - c ^ 2 / S ^ 2 ≤ Real.log (Complex.abs ⟨S + c, c⟩ / S) ∧
        Real.log (Complex.abs ⟨S + c, c⟩ / S) ≤ c / S + c ^ 2 / (2 * S ^ 2)) ∧
    (∀ (S c : ℝ) (hS : 0 < S) (hc : 0 ≤ c) (hcS : c ≤ S / 2),
        c / S - c ^ 2 / S ^ 2 ≤ Real.log (S / Complex.abs ⟨S - c, c⟩) ∧
        Real.log (S / Complex.abs ⟨S - c, c⟩) ≤ c / S + 2 * c ^ 2 / S ^ 2) ∧
    (inv_sqrt2 * inv_sqrt2 = 1 / 2) ∧
    (∀ (a S c : ℝ) (ha : 0 < a) (hS : 0 < S) (hc : 0 ≤ c),
        c ^ 3 / (2 * a * (S + c) ^ 2) ≤ 2 * c ^ 3 / (a * S ^ 2)) ∧
    (∀ (a S c : ℝ) (ha : 0 < a) (hS : 0 < S) (hc : 0 ≤ c) (hc2 : c ≤ S / 2),
        c ^ 3 / (2 * a * (S - c) ^ 2) ≤ 2 * c ^ 3 / (a * S ^ 2)) ∧
    (∀ (x y : ℝ) (hx : 0 < x),
        y ^ 2 / (2 * Complex.abs ⟨x, y⟩) ≤ Complex.abs ⟨x, y⟩ - x) ∧
    (∀ (S c : ℝ) (hS : 0 < S) (hc : 0 ≤ c) (hcS : c < S),
        Real.log (Complex.abs ⟨S + c, c⟩ / S) + Real.log (S / Complex.abs ⟨S - c, c⟩) ≤
        2 * (c / S)) ∧
    (∀ (x y K r q sigma T : ℝ) (hx : 0 < x) (hy : 0 ≤ y) (hs : 0 < sigma) (hT : 0 < T),
        y ^ 3 * phi (d1 (Complex.abs ⟨x, y⟩) K r q sigma T) /
        (2 * (sigma * Real.sqrt T) * (x ^ 2 + y ^ 2)) ≤
        Complex.arg ⟨x, y⟩ / (sigma * Real.sqrt T) *
        phi (d1 (Complex.abs ⟨x, y⟩) K r q sigma T) * (Complex.abs ⟨x, y⟩ - x) ∧
        Complex.arg ⟨x, y⟩ / (sigma * Real.sqrt T) *
        phi (d1 (Complex.abs ⟨x, y⟩) K r q sigma T) * (Complex.abs ⟨x, y⟩ - x) ≤
        y ^ 3 * phi 0 / (2 * (sigma * Real.sqrt T) * x ^ 2)) ∧
    (∀ (u : ℝ) (hu1 : u ≤ 1 / 100) (hu0 : 0 ≤ u),
        12 * u ^ 2 ≤ (5 * u) ^ 2 / 2 / (1 + (5 * u) ^ 2 / 2)) ∧
    (∀ (u : ℝ) (hu0 : 0 ≤ u) (hu1 : u ≤ 1 / 100),
        1 / (1 - u) ^ 2 ≤ 1 + 21 / 10 * u) ∧
    (∀ (u : ℝ) (hu0 : 0 ≤ u) (hu1 : u ≤ 1 / 100),
        1 - 253 / 100 * u ≤ (1 - 506 / 1000 * u) / (1 + 2 * u + 2 * u ^ 2)) ∧
    (∀ (u p0 pd pD dPhi Jp Jm rp rm : ℝ) (hu0 : 0 < u) (hu1 : u ≤ 1 / 100) (hp0 : 0 ≤ p0) (hpd0 : 0 ≤ pd) (hrp1 : u - u ^ 2 ≤ rp) (hrp2 : rp ≤ u + u ^ 2 / 2) (hsum : rp + rm ≤ 2 * u) (hsplit : dPhi ≤ (10 * rp + 10 * rm) * pd + 2 * (5 * u) * (p0 - pd)) (hdrop : p0 * ((5 * u) ^ 2 / 2 / (1 + (5 * u) ^ 2 / 2)) ≤ p0 - pd) (hquad : p0 * (1 - (10 * rp) ^ 2 / 2) ≤ pD) (hJp : (100 * u) ^ 3 * pD / (2 * (1 / 10) * ((100 + 100 * u) ^ 2 + (100 * u) ^ 2)) ≤ Jp) (hJm : Jm ≤ (100 * u) ^ 3 * p0 / (2 * (1 / 10) * (100 - 100 * u) ^ 2)),
        100 * u * dPhi - Jp + Jm - (100 * u) ^ 2 / 5 * p0 ≤ -(96 * (100 * u) ^ 4 * p0 / 10 ^ 6)) ∧
    (∀ (S h : ℝ) (hS : 0 < S),
        Complex.abs (⟨S, -h⟩ : ℂ) = Complex.abs (⟨S, h⟩ : ℂ) ∧
        Complex.arg (⟨S, -h⟩ : ℂ) = -Complex.arg (⟨S, h⟩ : ℂ)) ∧
    (∀ (S K r q sigma T h : ℝ) (hS : 0 < S) (hK : 0 < K) (hs : 0 < sigma) (hT : 0 < T),
        (bs_price_call_complex ⟨S, -h⟩ ⟨K, 0⟩ ⟨r, 0⟩ ⟨q, 0⟩ ⟨sigma, 0⟩ ⟨T, 0⟩).re =
        (bs_price_call_complex ⟨S, h⟩ ⟨K, 0⟩ ⟨r, 0⟩ ⟨q, 0⟩ ⟨sigma, 0⟩ ⟨T, 0⟩).re ∧
        (bs_price_call_complex ⟨S, -h⟩ ⟨K, 0⟩ ⟨r, 0⟩ ⟨q, 0⟩ ⟨sigma, 0⟩ ⟨T, 0⟩).im =
        -(bs_price_call_complex ⟨S, h⟩ ⟨K, 0⟩ ⟨r, 0⟩ ⟨q, 0⟩ ⟨sigma, 0⟩ ⟨T, 0⟩).im) ∧
    (∀ (S K r q sigma T h : ℝ),
        gamma_complex_step_45deg S K r q sigma T (-h) =
        gamma_complex_step_45deg S K r q sigma T h) := by
  obtain ⟨-, -, -, -, -, phi_nonneg, -, -, -, -, -, -, -, -, -, -, -, -⟩ := analytic_greeks_facts
  obtain ⟨phi_le_one, phi_d1_shift, d1_sub, -, -, -, -, phi_le_phi_zero, -, -, -, -, -, -, -, -,
    -, -, -, -⟩ := density_facts
  -- The principal square root of a positive real.
  have csqrt_ofReal (T : ℝ) (hT : 0 < T) : csqrt (⟨T, 0⟩ : ℂ) = ((Real.sqrt T : ℝ) : ℂ) := by
    have h : (⟨T, 0⟩ : ℂ) = ((T : ℝ) : ℂ) := rfl
    have h2 : (1 / 2 : ℂ) = (((1 / 2 : ℝ)) : ℂ) := by push_cast; rfl
    delta csqrt
    rw [h, h2, ← Complex.ofReal_cpow (le_of_lt hT), Real.sqrt_eq_rpow]
  -- The complex `d1` of `bs_price_call_complex` at a complex spot `z ≠ 0`: its real part is the
  -- real `d1` at spot `|z|`, its imaginary part is `arg z / (σ√T)`.
  have complex_d1_eq (z : ℂ) (K r q sigma T : ℝ) (hz : z ≠ 0) (hK : 0 < K) (hs : 0 < sigma)
      (hT : 0 < T) :
      (Complex.log (z * Complex.exp (((⟨r, 0⟩ : ℂ) - ⟨q, 0⟩) * ⟨T, 0⟩) / ⟨K, 0⟩) +
          (⟨0.5, 0⟩ : ℂ) * ⟨sigma, 0⟩ * ⟨sigma, 0⟩ * ⟨T, 0⟩) / ((⟨sigma, 0⟩ : ℂ) * csqrt ⟨T, 0⟩) =
        ⟨d1 (Complex.abs z) K r q sigma T, Complex.arg z / (sigma * Real.sqrt T)⟩ := by
    have hr : ∀ x : ℝ, (⟨x, 0⟩ : ℂ) = ((x : ℝ) : ℂ) := fun x => rfl
    have habs : 0 < Complex.abs z := Complex.abs.pos hz
    have hE : 0 < Real.exp ((r - q) * T) := Real.exp_pos _
    have hEK : 0 < Real.exp ((r - q) * T) / K := div_pos hE hK
    have ha0 : 0 < sigma * Real.sqrt T := mul_pos hs (Real.sqrt_pos.mpr hT)
    rw [csqrt_ofReal T hT]
    simp only [hr]
    have h1 : z * Complex.exp (((r : ℂ) - (q : ℂ)) * (T : ℂ)) / (K : ℂ) =
        ((Real.exp ((r - q) * T) / K : ℝ) : ℂ) * z := by
      push_cast
      ring
    rw [h1, Complex.log_ofReal_mul hEK hz]
    have h2 : ((sigma : ℂ) * ((Real.sqrt T : ℝ) : ℂ)) = ((sigma * Real.sqrt T : ℝ) : ℂ) := by
      push_cast; rfl
    have h3 : ((0.5 : ℝ) : ℂ) * (sigma : ℂ) * (sigma : ℂ) * (T : ℂ) =
        ((1 / 2 * sigma ^ 2 * T : ℝ) : ℂ) := by
      rw [show (0.5 : ℝ) = 1 / 2 by norm_num]
      push_cast
      ring
    rw [h2, h3]
    apply Complex.ext
    · rw [Complex.div_ofReal_re]
      simp only [Complex.add_re, Complex.ofReal_re, Complex.log_re]
      delta d1 forward
      congr 1
      rw [show Complex.abs z * Real.exp ((r - q) * T) / K =
        Complex.abs z * (Real.exp ((r - q) * T) / K) by ring,
        Real.log_mul (ne_of_gt habs) (ne_of_gt hEK)]
      ring
    · rw [Complex.div_ofReal_im]
      simp only [Complex.add_im, Complex.ofReal_im, Complex.log_im]
      ring
  -- Real and imaginary part of the complex pricer at a complex spot `z ≠ 0` and real
  -- `K, r, q, σ, T`, with `D = d1(|z|)` and `ι = arg z / (σ√T)`.
  have bs_price_call_complex_re_im (z : ℂ) (K r q sigma T : ℝ) (hz : z ≠ 0) (hK : 0 < K)
      (hs : 0 < sigma) (hT : 0 < T) :
      (bs_price_call_complex z ⟨K, 0⟩ ⟨r, 0⟩ ⟨q, 0⟩ ⟨sigma, 0⟩ ⟨T, 0⟩).re =
          Real.exp (-r * T) * (Real.exp ((r - q) * T) *
              (z.re * Phi (d1 (Complex.abs z) K r q sigma T) -
                z.im * (Complex.arg z / (sigma * Real.sqrt T) *
                  phi (d1 (Complex.abs z) K r q sigma T))) -
            K * Phi (d1 (Complex.abs z) K r q sigma T - sigma * Real.sqrt T)) ∧
        (bs_price_call_complex z ⟨K, 0⟩ ⟨r, 0⟩ ⟨q, 0⟩ ⟨sigma, 0⟩ ⟨T, 0⟩).im =
          Real.exp (-r * T) * (Real.exp ((r - q) * T) *
              (z.re * (Complex.arg z / (sigma * Real.sqrt T) *
                  phi (d1 (Complex.abs z) K r q sigma T)) +
                z.im * Phi (d1 (Complex.abs z) K r q sigma T)) -
            K * (Complex.arg z / (sigma * Real.sqrt T) *
              phi (d1 (Complex.abs z) K r q sigma T - sigma * Real.sqrt T))) := by
    have hr : ∀ x : ℝ, (⟨x, 0⟩ : ℂ) = ((x : ℝ) : ℂ) := fun x => rfl
    have hD := complex_d1_eq z K r q sigma T hz hK hs hT
    have hDF : Complex.exp (-(⟨r, 0⟩ : ℂ) * ⟨T, 0⟩) = ((Real.exp (-r * T) : ℝ) : ℂ) := by
      rw [hr, hr]; push_cast; rfl
    have hE : Complex.exp (((⟨r, 0⟩ : ℂ) - ⟨q, 0⟩) * ⟨T, 0⟩) =
        ((Real.exp ((r - q) * T) : ℝ) : ℂ) := by
      rw [hr, hr, hr]; push_cast; rfl
    have ha : (⟨sigma, 0⟩ : ℂ) * csqrt ⟨T, 0⟩ = ((sigma * Real.sqrt T : ℝ) : ℂ) := by
      rw [csqrt_ofReal T hT, hr]; push_cast; rfl
    delta bs_price_call_complex
    simp only [hD]
    rw [hDF, hE, ha]
    delta Phi_complex
    simp only [hr K]
    constructor
    · simp only [Complex.mul_re, Complex.sub_re, Complex.ofReal_re, Complex.ofReal_im,
        Complex.mul_im, Complex.sub_im]
      ring
    · simp only [Complex.mul_re, Complex.sub_re, Complex.ofReal_re, Complex.ofReal_im,
        Complex.mul_im, Complex.sub_im]
      ring
  -- Imaginary part of the complex pricer, simplified with `K·φ(D − σ√T) = |z|·e^{(r-q)T}·φ(D)`:
  -- `Im C(z) = e^{-qT}·(Im z·Φ(D) − (arg z/(σ√T))·φ(D)·(|z| − Re z))` with `D = d1(|z|)`.
  have bs_price_call_complex_im (z : ℂ) (K r q sigma T : ℝ) (hz : z ≠ 0) (hK : 0 < K)
      (hs : 0 < sigma) (hT : 0 < T) :
      (bs_price_call_complex z ⟨K, 0⟩ ⟨r, 0⟩ ⟨q, 0⟩ ⟨sigma, 0⟩ ⟨T, 0⟩).im =
        Real.exp (-q * T) * (z.im * Phi (d1 (Complex.abs z) K r q sigma T) -
          Complex.arg z / (sigma * Real.sqrt T) * phi (d1 (Complex.abs z) K r q sigma T) *
            (Complex.abs z - z.re)) := by
    have habs : 0 < Complex.abs z := Complex.abs.pos hz
    rw [(bs_price_call_complex_re_im z K r q sigma T hz hK hs hT).2]
    have hsh := phi_d1_shift (Complex.abs z) K r q sigma T habs hK hs hT
    have hE : Real.exp (-q * T) = Real.exp (-r * T) * Real.exp ((r - q) * T) := by
      rw [← Real.exp_add]; congr 1; ring
    rw [show K * (Complex.arg z / (sigma * Real.sqrt T) *
          phi (d1 (Complex.abs z) K r q sigma T - sigma * Real.sqrt T)) =
        Complex.arg z / (sigma * Real.sqrt T) *
          (K * phi (d1 (Complex.abs z) K r q sigma T - sigma * Real.sqrt T)) by ring, hsh, hE]
    delta forward
    ring
  -- Modulus of `S + ih` against `S`: `0 ≤ |S + ih| − S ≤ h²/(2S)`.
  have abs_sub_re_bounds (S h : ℝ) (hS : 0 < S) :
      S ≤ Complex.abs ⟨S, h⟩ ∧ Complex.abs ⟨S, h⟩ - S ≤ h ^ 2 / (2 * S) := by
    have hsq : Complex.abs ⟨S, h⟩ ^ 2 = S ^ 2 + h ^ 2 := by
      rw [Complex.sq_abs, Complex.normSq_mk]; ring
    have hnn : 0 ≤ Complex.abs ⟨S, h⟩ := Complex.abs.nonneg _
    have hq : 0 ≤ h ^ 2 / (2 * S) := by positivity
    constructor
    · nlinarith [sq_nonneg h]
    · have h2 : Complex.abs ⟨S, h⟩ ^ 2 ≤ (S + h ^ 2 / (2 * S)) ^ 2 := by
        rw [hsq]
        have : (S + h ^ 2 / (2 * S)) ^ 2 = S ^ 2 + h ^ 2 + (h ^ 2 / (2 * S)) ^ 2 := by
          field_simp; ring
        rw [this]
        nlinarith [sq_nonneg (h ^ 2 / (2 * S))]
      have := abs_le_of_sq_le_sq' h2 (by positivity)
      linarith [this.2]
  -- On `[0, 2]`, `x·cos x ≤ sin x`; this gives `x ≤ tan x` below `π/2`.
  have mul_cos_le_sin (x : ℝ) (hx0 : 0 ≤ x) (hx2 : x ≤ 2) : x * Real.cos x ≤ Real.sin x := by
    have hA : ∀ y : ℝ, 0 ≤ y → y ≤ 1 → y * Real.cos y ≤ Real.sin y := by
      intro y hy0 hy1
      have habs : |y| ≤ 1 := by rw [abs_of_nonneg hy0]; exact hy1
      have hs := Real.sin_bound habs
      have hc := Real.cos_bound habs
      rw [abs_of_nonneg hy0] at hs hc
      rw [abs_le] at hs hc
      have h1 : y * Real.cos y ≤ y * (1 - y ^ 2 / 2 + y ^ 4 * (5 / 96)) :=
        mul_le_mul_of_nonneg_left (by linarith [hc.2]) hy0
      have h3 : 0 ≤ y ^ 3 := by positivity
      have h4 : y ^ 4 ≤ y ^ 3 := by nlinarith
      have h5 : y ^ 5 ≤ y ^ 3 := by nlinarith [mul_nonneg h3 hy0]
      nlinarith [hs.1]
    by_cases h1 : x ≤ 1
    · exact hA x hx0 h1
    · have hy := hA (x / 2) (by linarith) (by linarith)
      have hs : Real.sin x = 2 * Real.sin (x / 2) * Real.cos (x / 2) := by
        rw [← Real.sin_two_mul]; congr 1; ring
      have hc : Real.cos x = 2 * Real.cos (x / 2) ^ 2 - 1 := by
        rw [← Real.cos_two_mul]; congr 1; ring
      have hsq := Real.sin_sq_add_cos_sq (x / 2)
      have hcpos : 0 ≤ Real.cos (x / 2) := by
        apply Real.cos_nonneg_of_mem_Icc
        constructor <;> linarith [Real.pi_gt_three]
      have hspos : 0 ≤ Real.sin (x / 2) := by
        apply Real.sin_nonneg_of_nonneg_of_le_pi <;> linarith [Real.pi_gt_three]
      rw [hs, hc]
      have e : x * (2 * Real.cos (x / 2) ^ 2 - 1) =
          2 * (x / 2 * Real.cos (x / 2)) * Real.cos (x / 2) -
            2 * (x / 2) * (1 - Real.cos (x / 2) ^ 2) - 0 := by ring
      have h2 : 2 * (x / 2 * Real.cos (x / 2)) * Real.cos (x / 2) ≤
          2 * Real.sin (x / 2) * Real.cos (x / 2) := by
        apply mul_le_mul_of_nonneg_right _ hcpos
        linarith
      have h3 : 0 ≤ 2 * (x / 2) * (1 - Real.cos (x / 2) ^ 2) := by
        have : 1 - Real.cos (x / 2) ^ 2 = Real.sin (x / 2) ^ 2 := by linarith
        rw [this]
        positivity
      linarith
  -- Argument of `S + ih` for `S > 0` and `h ≥ 0`: `h/|S + ih| ≤ arg ≤ h/S`.
  have arg_bounds (S h : ℝ) (hS : 0 < S) (hh : 0 ≤ h) :
      h / Complex.abs ⟨S, h⟩ ≤ Complex.arg ⟨S, h⟩ ∧ Complex.arg ⟨S, h⟩ ≤ h / S := by
    have hre : 0 < (⟨S, h⟩ : ℂ).re := hS
    have hz : (⟨S, h⟩ : ℂ) ≠ 0 := by
      intro h0
      have := congrArg Complex.re h0
      simp at this
      linarith
    have habs : 0 < Complex.abs ⟨S, h⟩ := Complex.abs.pos hz
    have harg0 : 0 ≤ Complex.arg ⟨S, h⟩ := Complex.arg_nonneg_iff.mpr hh
    have hlt : |Complex.arg ⟨S, h⟩| < Real.pi / 2 :=
      Complex.abs_arg_lt_pi_div_two_iff.mpr (Or.inl hre)
    rw [abs_of_nonneg harg0] at hlt
    have hsin := Complex.sin_arg ⟨S, h⟩
    have hcos := Complex.cos_arg hz
    simp only at hsin hcos
    constructor
    · rw [← hsin]
      exact Real.sin_le harg0
    · have h2 := mul_cos_le_sin _ harg0 (by linarith [Real.pi_lt_d2])
      rw [hsin, hcos] at h2
      rw [le_div_iff₀ hS]
      have h3 : Complex.arg ⟨S, h⟩ * S ≤ h := by
        have := mul_le_mul_of_nonneg_right h2 habs.le
        field_simp at this
        linarith
      exact h3
  -- The shift of `d1` caused by the step: `0 ≤ d1(|S + ih|) − d1(S) ≤ h²/(2S²σ√T)`.
  have d1_shift_bounds (S K r q sigma T h : ℝ) (hS : 0 < S) (hK : 0 < K) (hs : 0 < sigma)
      (hT : 0 < T) :
      0 ≤ d1 (Complex.abs ⟨S, h⟩) K r q sigma T - d1 S K r q sigma T ∧
        d1 (Complex.abs ⟨S, h⟩) K r q sigma T - d1 S K r q sigma T ≤
          h ^ 2 / (2 * S ^ 2 * (sigma * Real.sqrt T)) := by
    have ha0 : 0 < sigma * Real.sqrt T := mul_pos hs (Real.sqrt_pos.mpr hT)
    obtain ⟨h1, h2⟩ := abs_sub_re_bounds S h hS
    have habs : 0 < Complex.abs ⟨S, h⟩ := lt_of_lt_of_le hS h1
    rw [d1_sub _ _ K r q sigma T habs hS hK]
    have hq : 1 ≤ Complex.abs ⟨S, h⟩ / S := by rw [le_div_iff₀ hS]; linarith
    constructor
    · exact div_nonneg (Real.log_nonneg hq) (le_of_lt ha0)
    · have hlog : Real.log (Complex.abs ⟨S, h⟩ / S) ≤ Complex.abs ⟨S, h⟩ / S - 1 :=
        Real.log_le_sub_one_of_pos (by positivity)
      have h3 : Complex.abs ⟨S, h⟩ / S - 1 ≤ h ^ 2 / (2 * S ^ 2) := by
        have : Complex.abs ⟨S, h⟩ / S - 1 = (Complex.abs ⟨S, h⟩ - S) / S := by field_simp
        rw [this, div_le_iff₀ hS]
        have : h ^ 2 / (2 * S ^ 2) * S = h ^ 2 / (2 * S) := by field_simp; ring
        rw [this]
        exact h2
      rw [div_le_iff₀ ha0]
      have : h ^ 2 / (2 * S ^ 2 * (sigma * Real.sqrt T)) * (sigma * Real.sqrt T) =
          h ^ 2 / (2 * S ^ 2) := by field_simp; ring
      rw [this]
      linarith
  -- Imaginary part of the complex price at `x + iy` with `x > 0`.
  have im_price_upper (x y K r q sigma T : ℝ) (hx : 0 < x) (hK : 0 < K) (hs : 0 < sigma)
      (hT : 0 < T) :
      (bs_price_call_complex ⟨x, y⟩ ⟨K, 0⟩ ⟨r, 0⟩ ⟨q, 0⟩ ⟨sigma, 0⟩ ⟨T, 0⟩).im =
        Real.exp (-q * T) * im_core x y K r q sigma T := by
    have hz : (⟨x, y⟩ : ℂ) ≠ 0 := by
      intro h0
      have := congrArg Complex.re h0
      simp at this
      linarith
    rw [bs_price_call_complex_im ⟨x, y⟩ K r q sigma T hz hK hs hT]
    rfl
  -- Imaginary part of the complex price at the conjugate spot `x − iy` with `x > 0`.
  have im_price_lower (x y K r q sigma T : ℝ) (hx : 0 < x) (hK : 0 < K) (hs : 0 < sigma)
      (hT : 0 < T) :
      (bs_price_call_complex ⟨x, -y⟩ ⟨K, 0⟩ ⟨r, 0⟩ ⟨q, 0⟩ ⟨sigma, 0⟩ ⟨T, 0⟩).im =
        -(Real.exp (-q * T) * im_core x y K r q sigma T) := by
    have hz : (⟨x, -y⟩ : ℂ) ≠ 0 := by
      intro h0
      have := congrArg Complex.re h0
      simp at this
      linarith
    have hconj : (⟨x, -y⟩ : ℂ) = (starRingEnd ℂ) ⟨x, y⟩ := by
      apply Complex.ext <;> simp
    have habs : Complex.abs ⟨x, -y⟩ = Complex.abs ⟨x, y⟩ := by
      rw [hconj, Complex.abs_conj]
    have hne : Complex.arg ⟨x, y⟩ ≠ Real.pi := by
      have hlt : |Complex.arg ⟨x, y⟩| < Real.pi / 2 :=
        Complex.abs_arg_lt_pi_div_two_iff.mpr (Or.inl hx)
      have := (abs_lt.mp hlt).2
      have := Real.pi_pos
      linarith
    have harg : Complex.arg ⟨x, -y⟩ = -Complex.arg ⟨x, y⟩ := by
      rw [hconj, Complex.arg_conj, if_neg hne]
    rw [bs_price_call_complex_im ⟨x, -y⟩ K r q sigma T hz hK hs hT, habs, harg]
    delta im_core
    ring
  -- The 45° complex-step gamma in closed form, for a step with `h/√2 < S`.
  have gamma_complex_step_45deg_eq (S K r q sigma T h : ℝ) (hK : 0 < K) (hs : 0 < sigma)
      (hT : 0 < T) (hh : 0 < h) (hc : h * inv_sqrt2 < S) :
      gamma_complex_step_45deg S K r q sigma T h =
        Real.exp (-q * T) * (im_core (S + h * inv_sqrt2) (h * inv_sqrt2) K r q sigma T -
          im_core (S - h * inv_sqrt2) (h * inv_sqrt2) K r q sigma T) / (h * h) := by
    have hc0 : 0 < inv_sqrt2 := by delta inv_sqrt2; positivity
    have hcpos : 0 < h * inv_sqrt2 := mul_pos hh hc0
    have hp : (⟨S, 0⟩ : ℂ) + (⟨h, 0⟩ : ℂ) * ⟨inv_sqrt2, inv_sqrt2⟩ =
        ⟨S + h * inv_sqrt2, h * inv_sqrt2⟩ := by
      apply Complex.ext <;> simp
    have hm : (⟨S, 0⟩ : ℂ) - (⟨h, 0⟩ : ℂ) * ⟨inv_sqrt2, inv_sqrt2⟩ =
        ⟨S - h * inv_sqrt2, -(h * inv_sqrt2)⟩ := by
      apply Complex.ext <;> simp
    delta gamma_complex_step_45deg
    simp only [hp, hm, Complex.add_im]
    rw [im_price_upper _ _ K r q sigma T (by linarith) hK hs hT,
      im_price_lower _ _ K r q sigma T (by linarith) hK hs hT]
    ring
  -- The correction term of `im_core` is nonnegative and of third order in `y`.
  have im_core_correction_bounds (x y K r q sigma T : ℝ) (hx : 0 < x) (hy : 0 ≤ y)
      (hs : 0 < sigma) (hT : 0 < T) :
      0 ≤ Complex.arg ⟨x, y⟩ / (sigma * Real.sqrt T) *
          phi (d1 (Complex.abs ⟨x, y⟩) K r q sigma T) * (Complex.abs ⟨x, y⟩ - x) ∧
        Complex.arg ⟨x, y⟩ / (sigma * Real.sqrt T) *
          phi (d1 (Complex.abs ⟨x, y⟩) K r q sigma T) * (Complex.abs ⟨x, y⟩ - x) ≤
          y ^ 3 / (2 * (sigma * Real.sqrt T) * x ^ 2) := by
    have ha0 : 0 < sigma * Real.sqrt T := mul_pos hs (Real.sqrt_pos.mpr hT)
    obtain ⟨hm1, hm2⟩ := abs_sub_re_bounds x y hx
    obtain ⟨-, ha2⟩ := arg_bounds x y hx hy
    have harg0 : 0 ≤ Complex.arg ⟨x, y⟩ := Complex.arg_nonneg_iff.mpr hy
    have hp0 := phi_nonneg (d1 (Complex.abs ⟨x, y⟩) K r q sigma T)
    have hp1 := phi_le_one (d1 (Complex.abs ⟨x, y⟩) K r q sigma T)
    have hmx : 0 ≤ Complex.abs ⟨x, y⟩ - x := by linarith
    constructor
    · positivity
    · have e1 : Complex.arg ⟨x, y⟩ / (sigma * Real.sqrt T) ≤ y / x / (sigma * Real.sqrt T) :=
        div_le_div_of_nonneg_right ha2 (le_of_lt ha0)
      have e2 : Complex.arg ⟨x, y⟩ / (sigma * Real.sqrt T) *
          phi (d1 (Complex.abs ⟨x, y⟩) K r q sigma T) ≤ y / x / (sigma * Real.sqrt T) * 1 :=
        mul_le_mul e1 hp1 hp0 (by positivity)
      calc Complex.arg ⟨x, y⟩ / (sigma * Real.sqrt T) *
            phi (d1 (Complex.abs ⟨x, y⟩) K r q sigma T) * (Complex.abs ⟨x, y⟩ - x)
          ≤ y / x / (sigma * Real.sqrt T) * 1 * (y ^ 2 / (2 * x)) :=
            mul_le_mul e2 hm2 hmx (by positivity)
        _ = y ^ 3 / (2 * (sigma * Real.sqrt T) * x ^ 2) := by field_simp; ring
  -- Logarithm of the modulus at the upper spot `S + c + ic`, for `0 ≤ c`.
  have log_abs_upper_bounds (S c : ℝ) (hS : 0 < S) (hc : 0 ≤ c) :
      c / S - c ^ 2 / S ^ 2 ≤ Real.log (Complex.abs ⟨S + c, c⟩ / S) ∧
        Real.log (Complex.abs ⟨S + c, c⟩ / S) ≤ c / S + c ^ 2 / (2 * S ^ 2) := by
    have hx : 0 < S + c := by linarith
    obtain ⟨hm1, hm2⟩ := abs_sub_re_bounds (S + c) c hx
    have hmpos : 0 < Complex.abs ⟨S + c, c⟩ := lt_of_lt_of_le hx hm1
    constructor
    · have h1 : 1 - (Complex.abs ⟨S + c, c⟩ / S)⁻¹ ≤ Real.log (Complex.abs ⟨S + c, c⟩ / S) :=
        Real.one_sub_inv_le_log_of_pos (div_pos hmpos hS)
      have h2 : c / S - c ^ 2 / S ^ 2 ≤ 1 - (Complex.abs ⟨S + c, c⟩ / S)⁻¹ := by
        rw [inv_div]
        have h3 : S / Complex.abs ⟨S + c, c⟩ ≤ S / (S + c) :=
          div_le_div_of_nonneg_left (le_of_lt hS) hx hm1
        have h4 : S / (S + c) ≤ 1 - c / S + c ^ 2 / S ^ 2 := by
          rw [div_le_iff₀ hx]
          have : (1 - c / S + c ^ 2 / S ^ 2) * (S + c) = S + c ^ 3 / S ^ 2 := by
            field_simp; ring
          rw [this]
          have : 0 ≤ c ^ 3 / S ^ 2 := by positivity
          linarith
        linarith
      linarith
    · have h1 := Real.log_le_sub_one_of_pos (div_pos hmpos hS)
      have h2 : Complex.abs ⟨S + c, c⟩ / S - 1 ≤ c / S + c ^ 2 / (2 * S ^ 2) := by
        have h3 : c ^ 2 / (2 * (S + c)) ≤ c ^ 2 / (2 * S) :=
          div_le_div_of_nonneg_left (sq_nonneg c) (by positivity) (by linarith)
        have h4 : Complex.abs ⟨S + c, c⟩ ≤ S + c + c ^ 2 / (2 * S) := by linarith
        have h5 : Complex.abs ⟨S + c, c⟩ / S ≤ (S + c + c ^ 2 / (2 * S)) / S :=
          div_le_div_of_nonneg_right h4 (le_of_lt hS)
        have h6 : (S + c + c ^ 2 / (2 * S)) / S = 1 + c / S + c ^ 2 / (2 * S ^ 2) := by
          field_simp; ring
        linarith
      linarith
  -- Logarithm of the modulus at the lower spot `S − c + ic`, for `0 ≤ c ≤ S/2`.
  have log_abs_lower_bounds (S c : ℝ) (hS : 0 < S) (hc : 0 ≤ c) (hcS : c ≤ S / 2) :
      c / S - c ^ 2 / S ^ 2 ≤ Real.log (S / Complex.abs ⟨S - c, c⟩) ∧
        Real.log (S / Complex.abs ⟨S - c, c⟩) ≤ c / S + 2 * c ^ 2 / S ^ 2 := by
    have hx : 0 < S - c := by linarith
    obtain ⟨hm1, hm2⟩ := abs_sub_re_bounds (S - c) c hx
    have hmpos : 0 < Complex.abs ⟨S - c, c⟩ := lt_of_lt_of_le hx hm1
    constructor
    · have h1 : 1 - (S / Complex.abs ⟨S - c, c⟩)⁻¹ ≤ Real.log (S / Complex.abs ⟨S - c, c⟩) :=
        Real.one_sub_inv_le_log_of_pos (div_pos hS hmpos)
      rw [inv_div] at h1
      have h3 : c ^ 2 / (2 * (S - c)) ≤ c ^ 2 / S :=
        div_le_div_of_nonneg_left (sq_nonneg c) hS (by linarith)
      have h4 : Complex.abs ⟨S - c, c⟩ ≤ S - c + c ^ 2 / S := by linarith
      have h5 : Complex.abs ⟨S - c, c⟩ / S ≤ (S - c + c ^ 2 / S) / S :=
        div_le_div_of_nonneg_right h4 (le_of_lt hS)
      have h6 : (S - c + c ^ 2 / S) / S = 1 - c / S + c ^ 2 / S ^ 2 := by
        field_simp; ring
      linarith
    · have h1 := Real.log_le_sub_one_of_pos (div_pos hS hmpos)
      have h2 : S / Complex.abs ⟨S - c, c⟩ ≤ S / (S - c) :=
        div_le_div_of_nonneg_left (le_of_lt hS) hx hm1
      have h3 : S / (S - c) ≤ 1 + c / S + 2 * c ^ 2 / S ^ 2 := by
        rw [div_le_iff₀ hx]
        have : (1 + c / S + 2 * c ^ 2 / S ^ 2) * (S - c) = S + c ^ 2 * (S - 2 * c) / S ^ 2 := by
          field_simp; ring
        rw [this]
        have : 0 ≤ c ^ 2 * (S - 2 * c) / S ^ 2 := by
          apply div_nonneg (mul_nonneg (sq_nonneg c) (by linarith)) (by positivity)
        linarith
      linarith
  -- The square of `inv_sqrt2` is one half.
  have inv_sqrt2_sq : inv_sqrt2 * inv_sqrt2 = 1 / 2 := by
    delta inv_sqrt2
    rw [div_mul_div_comm, Real.mul_self_sqrt (by norm_num)]
    norm_num
  -- A size estimate for the correction term at the upper spot.
  have cube_div_upper (a S c : ℝ) (ha : 0 < a) (hS : 0 < S) (hc : 0 ≤ c) :
      c ^ 3 / (2 * a * (S + c) ^ 2) ≤ 2 * c ^ 3 / (a * S ^ 2) := by
    have h1 : S ^ 2 ≤ (S + c) ^ 2 := by nlinarith
    have h2 : a * S ^ 2 ≤ 2 * a * (S + c) ^ 2 := by nlinarith
    have h3 : (0 : ℝ) ≤ c ^ 3 := by positivity
    calc c ^ 3 / (2 * a * (S + c) ^ 2) ≤ c ^ 3 / (a * S ^ 2) :=
          div_le_div_of_nonneg_left h3 (by positivity) h2
      _ ≤ 2 * c ^ 3 / (a * S ^ 2) :=
          div_le_div_of_nonneg_right (by linarith) (by positivity)
  -- A size estimate for the correction term at the lower spot.
  have cube_div_lower (a S c : ℝ) (ha : 0 < a) (hS : 0 < S) (hc : 0 ≤ c) (hc2 : c ≤ S / 2) :
      c ^ 3 / (2 * a * (S - c) ^ 2) ≤ 2 * c ^ 3 / (a * S ^ 2) := by
    have h1 : S ^ 2 ≤ 4 * (S - c) ^ 2 := by nlinarith
    have h2 : a * S ^ 2 / 2 ≤ 2 * a * (S - c) ^ 2 := by nlinarith
    have h3 : (0 : ℝ) ≤ c ^ 3 := by positivity
    calc c ^ 3 / (2 * a * (S - c) ^ 2) ≤ c ^ 3 / (a * S ^ 2 / 2) :=
          div_le_div_of_nonneg_left h3 (by positivity) h2
      _ = 2 * c ^ 3 / (a * S ^ 2) := by field_simp; ring
  -- Modulus of `x + iy` against `x` from below: `y²/(2|x + iy|) ≤ |x + iy| − x`.
  have abs_sub_re_lower (x y : ℝ) (hx : 0 < x) :
      y ^ 2 / (2 * Complex.abs ⟨x, y⟩) ≤ Complex.abs ⟨x, y⟩ - x := by
    have hsq : Complex.abs ⟨x, y⟩ ^ 2 = x ^ 2 + y ^ 2 := by
      rw [Complex.sq_abs, Complex.normSq_mk]; ring
    obtain ⟨h1, -⟩ := abs_sub_re_bounds x y hx
    have hm : 0 < Complex.abs ⟨x, y⟩ := lt_of_lt_of_le hx h1
    rw [div_le_iff₀ (by positivity)]
    nlinarith
  -- The two logarithmic shifts of the 45° step add up to at most `2c/S`.
  have log_abs_ratio_le (S c : ℝ) (hS : 0 < S) (hc : 0 ≤ c) (hcS : c < S) :
      Real.log (Complex.abs ⟨S + c, c⟩ / S) + Real.log (S / Complex.abs ⟨S - c, c⟩) ≤
        2 * (c / S) := by
    have hxp : 0 < S + c := by linarith
    have hxm : 0 < S - c := by linarith
    obtain ⟨hp1, -⟩ := abs_sub_re_bounds (S + c) c hxp
    obtain ⟨hm1, -⟩ := abs_sub_re_bounds (S - c) c hxm
    have hmp : 0 < Complex.abs ⟨S + c, c⟩ := lt_of_lt_of_le hxp hp1
    have hmm : 0 < Complex.abs ⟨S - c, c⟩ := lt_of_lt_of_le hxm hm1
    have hsqp : Complex.abs ⟨S + c, c⟩ ^ 2 = (S + c) ^ 2 + c ^ 2 := by
      rw [Complex.sq_abs, Complex.normSq_mk]; ring
    have hsqm : Complex.abs ⟨S - c, c⟩ ^ 2 = (S - c) ^ 2 + c ^ 2 := by
      rw [Complex.sq_abs, Complex.normSq_mk]; ring
    rw [← Real.log_mul (ne_of_gt (div_pos hmp hS)) (ne_of_gt (div_pos hS hmm))]
    have hq : Complex.abs ⟨S + c, c⟩ / S * (S / Complex.abs ⟨S - c, c⟩) =
        Complex.abs ⟨S + c, c⟩ / Complex.abs ⟨S - c, c⟩ := by
      field_simp
    rw [hq]
    set u := c / S with hu
    have hu0 : 0 ≤ u := div_nonneg hc (le_of_lt hS)
    have hcu : c = u * S := by rw [hu]; field_simp
    -- the squared ratio is at most exp (4u)
    have hexp : 1 + 4 * u + 8 * u ^ 2 + 32 / 3 * u ^ 3 ≤ Real.exp (4 * u) := by
      have h := Real.sum_le_exp_of_nonneg (by positivity : 0 ≤ 4 * u) 4
      simp only [Finset.sum_range_succ, Finset.sum_range_zero, Nat.factorial] at h
      norm_num at h
      nlinarith
    have hpoly : (S + c) ^ 2 + c ^ 2 ≤
        ((S - c) ^ 2 + c ^ 2) * (1 + 4 * u + 8 * u ^ 2 + 32 / 3 * u ^ 3) := by
      rw [hcu]
      have : ((S - u * S) ^ 2 + (u * S) ^ 2) * (1 + 4 * u + 8 * u ^ 2 + 32 / 3 * u ^ 3) -
          ((S + u * S) ^ 2 + (u * S) ^ 2) = S ^ 2 * u ^ 3 * (8 / 3 * (1 - 2 * u + 8 * u ^ 2)) := by
        ring
      have h2 : 0 ≤ S ^ 2 * u ^ 3 * (8 / 3 * (1 - 2 * u + 8 * u ^ 2)) := by
        have : 0 < 1 - 2 * u + 8 * u ^ 2 := by nlinarith [sq_nonneg (u - 1 / 8)]
        positivity
      linarith
    have hsq : Complex.abs ⟨S + c, c⟩ ^ 2 ≤
        (Complex.abs ⟨S - c, c⟩ * Real.exp (2 * u)) ^ 2 := by
      rw [mul_pow, hsqp, hsqm, ← Real.exp_nat_mul]
      have : ((2 : ℕ) : ℝ) * (2 * u) = 4 * u := by push_cast; ring
      rw [this]
      refine le_trans hpoly ?_
      exact mul_le_mul_of_nonneg_left hexp (by positivity)
    have hle : Complex.abs ⟨S + c, c⟩ ≤ Complex.abs ⟨S - c, c⟩ * Real.exp (2 * u) := by
      have := abs_le_of_sq_le_sq' hsq (by positivity)
      exact this.2
    have hdiv : Complex.abs ⟨S + c, c⟩ / Complex.abs ⟨S - c, c⟩ ≤ Real.exp (2 * u) := by
      rw [div_le_iff₀ hmm]
      linarith
    calc Real.log (Complex.abs ⟨S + c, c⟩ / Complex.abs ⟨S - c, c⟩)
        ≤ Real.log (Real.exp (2 * u)) := Real.log_le_log (div_pos hmp hmm) hdiv
      _ = 2 * u := Real.log_exp _
  -- Two-sided third-order bounds for the correction term of `im_core`.
  have im_core_correction_refined (x y K r q sigma T : ℝ) (hx : 0 < x) (hy : 0 ≤ y)
      (hs : 0 < sigma) (hT : 0 < T) :
      y ^ 3 * phi (d1 (Complex.abs ⟨x, y⟩) K r q sigma T) /
          (2 * (sigma * Real.sqrt T) * (x ^ 2 + y ^ 2)) ≤
        Complex.arg ⟨x, y⟩ / (sigma * Real.sqrt T) *
          phi (d1 (Complex.abs ⟨x, y⟩) K r q sigma T) * (Complex.abs ⟨x, y⟩ - x) ∧
        Complex.arg ⟨x, y⟩ / (sigma * Real.sqrt T) *
          phi (d1 (Complex.abs ⟨x, y⟩) K r q sigma T) * (Complex.abs ⟨x, y⟩ - x) ≤
          y ^ 3 * phi 0 / (2 * (sigma * Real.sqrt T) * x ^ 2) := by
    have ha0 : 0 < sigma * Real.sqrt T := mul_pos hs (Real.sqrt_pos.mpr hT)
    obtain ⟨hm1, hm2⟩ := abs_sub_re_bounds x y hx
    have hm3 := abs_sub_re_lower x y hx
    obtain ⟨ha1, ha2⟩ := arg_bounds x y hx hy
    have harg0 : 0 ≤ Complex.arg ⟨x, y⟩ := Complex.arg_nonneg_iff.mpr hy
    have hsq : Complex.abs ⟨x, y⟩ ^ 2 = x ^ 2 + y ^ 2 := by
      rw [Complex.sq_abs, Complex.normSq_mk]; ring
    have hmpos : 0 < Complex.abs ⟨x, y⟩ := lt_of_lt_of_le hx hm1
    set m := Complex.abs ⟨x, y⟩ with hm
    set a := sigma * Real.sqrt T with ha
    set th := Complex.arg ⟨x, y⟩ with hth
    set p := phi (d1 m K r q sigma T) with hp
    have hp0 : 0 ≤ p := phi_nonneg _
    have hp1 : p ≤ phi 0 := phi_le_phi_zero _
    have hmx : 0 ≤ m - x := by linarith
    clear_value m a th p
    constructor
    · have e1 : y / m / a ≤ th / a := div_le_div_of_nonneg_right ha1 (le_of_lt ha0)
      have e2 : y / m / a * p ≤ th / a * p := mul_le_mul_of_nonneg_right e1 hp0
      have e3 : y / m / a * p * (y ^ 2 / (2 * m)) ≤ th / a * p * (m - x) :=
        mul_le_mul e2 hm3 (by positivity) (by positivity)
      have e4 : y ^ 3 * p / (2 * a * (x ^ 2 + y ^ 2)) = y / m / a * p * (y ^ 2 / (2 * m)) := by
        rw [← hsq]
        field_simp
        ring
      rw [e4]
      exact e3
    · have e1 : th / a ≤ y / x / a := div_le_div_of_nonneg_right ha2 (le_of_lt ha0)
      have e2 : th / a * p ≤ y / x / a * phi 0 :=
        mul_le_mul e1 hp1 hp0 (by positivity)
      calc th / a * p * (m - x) ≤ y / x / a * phi 0 * (y ^ 2 / (2 * x)) :=
            mul_le_mul e2 hm2 hmx (by have := phi_nonneg 0; positivity)
        _ = y ^ 3 * phi 0 / (2 * a * x ^ 2) := by field_simp; ring
  -- An arithmetic fact used for the drop of the density, on `0 ≤ u ≤ 1/100`.
  have arith_drop (u : ℝ) (hu1 : u ≤ 1 / 100) (hu0 : 0 ≤ u) :
      12 * u ^ 2 ≤ (5 * u) ^ 2 / 2 / (1 + (5 * u) ^ 2 / 2) := by
    rw [le_div_iff₀ (by positivity)]
    have h2 : u ^ 2 ≤ 1 / 10000 := by nlinarith
    have h3 := mul_nonneg (sq_nonneg u) (sub_nonneg.mpr h2)
    nlinarith
  -- An arithmetic fact used for the lower correction term, on `0 ≤ u ≤ 1/100`.
  have arith_lower (u : ℝ) (hu0 : 0 ≤ u) (hu1 : u ≤ 1 / 100) :
      1 / (1 - u) ^ 2 ≤ 1 + 21 / 10 * u := by
    have h1 : 0 < (1 - u) ^ 2 := by
      have : 0 < 1 - u := by linarith
      positivity
    rw [div_le_iff₀ h1]
    nlinarith [sq_nonneg u, mul_nonneg hu0 hu0, pow_nonneg hu0 3]
  -- An arithmetic fact used for the upper correction term, on `0 ≤ u ≤ 1/100`.
  have arith_upper (u : ℝ) (hu0 : 0 ≤ u) (hu1 : u ≤ 1 / 100) :
      1 - 253 / 100 * u ≤ (1 - 506 / 1000 * u) / (1 + 2 * u + 2 * u ^ 2) := by
    rw [le_div_iff₀ (by positivity)]
    nlinarith [sq_nonneg u, mul_nonneg hu0 hu0, pow_nonneg hu0 3]
  -- Assembly of the estimates for the 45° step at `d1 = 0`, `σ√T = 1/10`, `S = 100`, in terms
  -- of `u = c/100`.
  have assemble_flat (u p0 pd pD dPhi Jp Jm rp rm : ℝ) (hu0 : 0 < u) (hu1 : u ≤ 1 / 100)
      (hp0 : 0 ≤ p0) (hpd0 : 0 ≤ pd)
      (hrp1 : u - u ^ 2 ≤ rp) (hrp2 : rp ≤ u + u ^ 2 / 2) (hsum : rp + rm ≤ 2 * u)
      (hsplit : dPhi ≤ (10 * rp + 10 * rm) * pd + 2 * (5 * u) * (p0 - pd))
      (hdrop : p0 * ((5 * u) ^ 2 / 2 / (1 + (5 * u) ^ 2 / 2)) ≤ p0 - pd)
      (hquad : p0 * (1 - (10 * rp) ^ 2 / 2) ≤ pD)
      (hJp : (100 * u) ^ 3 * pD / (2 * (1 / 10) * ((100 + 100 * u) ^ 2 + (100 * u) ^ 2)) ≤ Jp)
      (hJm : Jm ≤ (100 * u) ^ 3 * p0 / (2 * (1 / 10) * (100 - 100 * u) ^ 2)) :
      100 * u * dPhi - Jp + Jm - (100 * u) ^ 2 / 5 * p0 ≤ -(96 * (100 * u) ^ 4 * p0 / 10 ^ 6) := by
    have hu0' : 0 ≤ u := le_of_lt hu0
    -- the increment of Phi
    have h1 : p0 * (12 * u ^ 2) ≤ p0 - pd :=
      le_trans (mul_le_mul_of_nonneg_left (arith_drop u hu1 hu0') hp0) hdrop
    have h2 : (10 * rp + 10 * rm) * pd ≤ 20 * u * pd := by
      have : 10 * rp + 10 * rm ≤ 20 * u := by linarith
      exact mul_le_mul_of_nonneg_right this hpd0
    have h3 : dPhi ≤ 20 * u * p0 - 120 * u ^ 3 * p0 := by
      have : 10 * u * (p0 * (12 * u ^ 2)) ≤ 10 * u * (p0 - pd) :=
        mul_le_mul_of_nonneg_left h1 (by positivity)
      nlinarith
    -- the density at Dp
    have hrp0 : 0 ≤ rp := by nlinarith
    have h4 : (10 * rp) ^ 2 / 2 ≤ 506 / 1000 * u := by
      have e1 : rp ≤ 1005 / 1000 * u := by nlinarith
      have e2 : rp ^ 2 ≤ (1005 / 1000 * u) ^ 2 := pow_le_pow_left₀ hrp0 e1 2
      nlinarith
    have h5 : p0 * (1 - 506 / 1000 * u) ≤ pD := by
      refine le_trans (mul_le_mul_of_nonneg_left ?_ hp0) hquad
      linarith
    -- the correction terms
    have h6 : (100 * u) ^ 3 * p0 / 2000 * (1 - 253 / 100 * u) ≤ Jp := by
      refine le_trans ?_ hJp
      have e1 := arith_upper u hu0' hu1
      have e2 : (100 * u) ^ 3 * pD / (2 * (1 / 10) * ((100 + 100 * u) ^ 2 + (100 * u) ^ 2)) =
          (100 * u) ^ 3 / 2000 * (pD / (1 + 2 * u + 2 * u ^ 2)) := by
        field_simp
        ring
      rw [e2]
      have e3 : p0 * (1 - 253 / 100 * u) ≤ pD / (1 + 2 * u + 2 * u ^ 2) := by
        calc p0 * (1 - 253 / 100 * u)
            ≤ p0 * ((1 - 506 / 1000 * u) / (1 + 2 * u + 2 * u ^ 2)) :=
              mul_le_mul_of_nonneg_left e1 hp0
          _ = p0 * (1 - 506 / 1000 * u) / (1 + 2 * u + 2 * u ^ 2) := by ring
          _ ≤ pD / (1 + 2 * u + 2 * u ^ 2) :=
              div_le_div_of_nonneg_right h5 (by positivity)
      calc (100 * u) ^ 3 * p0 / 2000 * (1 - 253 / 100 * u)
          = (100 * u) ^ 3 / 2000 * (p0 * (1 - 253 / 100 * u)) := by ring
        _ ≤ (100 * u) ^ 3 / 2000 * (pD / (1 + 2 * u + 2 * u ^ 2)) :=
            mul_le_mul_of_nonneg_left e3 (by positivity)
    have h7 : Jm ≤ (100 * u) ^ 3 * p0 / 2000 * (1 + 21 / 10 * u) := by
      refine le_trans hJm ?_
      have e1 := arith_lower u hu0' hu1
      have e2 : (100 * u) ^ 3 * p0 / (2 * (1 / 10) * (100 - 100 * u) ^ 2) =
          (100 * u) ^ 3 * p0 / 2000 * (1 / (1 - u) ^ 2) := by
        have : (1 - u) ≠ 0 := by linarith
        have : (100 - 100 * u) ≠ 0 := by linarith
        field_simp
        ring
      rw [e2]
      exact mul_le_mul_of_nonneg_left e1 (by positivity)
    have h8 : 100 * u * dPhi ≤ 100 * u * (20 * u * p0 - 120 * u ^ 3 * p0) :=
      mul_le_mul_of_nonneg_left h3 (by positivity)
    have h9 : -(96 * (100 * u) ^ 4 * p0 / 10 ^ 6) =
        100 * u * (20 * u * p0 - 120 * u ^ 3 * p0) -
          (100 * u) ^ 3 * p0 / 2000 * (1 - 253 / 100 * u) +
          (100 * u) ^ 3 * p0 / 2000 * (1 + 21 / 10 * u) - (100 * u) ^ 2 / 5 * p0 +
          85 * (u ^ 4 * p0) := by
      ring
    have h10 : 0 ≤ u ^ 4 * p0 := by positivity
    rw [h9]
    linarith
  -- Modulus and argument of the reflected spot `S − ih`, for `S > 0`.
  have abs_arg_reflect (S h : ℝ) (hS : 0 < S) :
      Complex.abs (⟨S, -h⟩ : ℂ) = Complex.abs (⟨S, h⟩ : ℂ) ∧
        Complex.arg (⟨S, -h⟩ : ℂ) = -Complex.arg (⟨S, h⟩ : ℂ) := by
    have hc : (⟨S, -h⟩ : ℂ) = (starRingEnd ℂ) (⟨S, h⟩ : ℂ) := by
      apply Complex.ext <;> simp
    have hne : Complex.arg (⟨S, h⟩ : ℂ) ≠ Real.pi := by
      intro hpi
      have hre : (0 : ℝ) ≤ (⟨S, h⟩ : ℂ).re := hS.le
      have := (Complex.abs_arg_le_pi_div_two_iff.mpr hre)
      rw [hpi, abs_of_pos Real.pi_pos] at this
      linarith [Real.pi_pos]
    rw [hc, Complex.abs_conj, Complex.arg_conj, if_neg hne]
    exact ⟨rfl, rfl⟩
  -- The complex pricer commutes with conjugation of the spot: at `S − ih` the real part is the
  -- one at `S + ih` and the imaginary part is its negative.
  have bs_price_call_complex_reflect (S K r q sigma T h : ℝ) (hS : 0 < S) (hK : 0 < K)
      (hs : 0 < sigma) (hT : 0 < T) :
      (bs_price_call_complex ⟨S, -h⟩ ⟨K, 0⟩ ⟨r, 0⟩ ⟨q, 0⟩ ⟨sigma, 0⟩ ⟨T, 0⟩).re =
          (bs_price_call_complex ⟨S, h⟩ ⟨K, 0⟩ ⟨r, 0⟩ ⟨q, 0⟩ ⟨sigma, 0⟩ ⟨T, 0⟩).re ∧
        (bs_price_call_complex ⟨S, -h⟩ ⟨K, 0⟩ ⟨r, 0⟩ ⟨q, 0⟩ ⟨sigma, 0⟩ ⟨T, 0⟩).im =
          -(bs_price_call_complex ⟨S, h⟩ ⟨K, 0⟩ ⟨r, 0⟩ ⟨q, 0⟩ ⟨sigma, 0⟩ ⟨T, 0⟩).im := by
    have hz : ∀ y : ℝ, (⟨S, y⟩ : ℂ) ≠ 0 := by
      intro y h0
      have := congrArg Complex.re h0
      simp at this
      linarith
    obtain ⟨habs, harg⟩ := abs_arg_reflect S h hS
    obtain ⟨hre1, him1⟩ := bs_price_call_complex_re_im ⟨S, -h⟩ K r q sigma T (hz _) hK hs hT
    obtain ⟨hre2, him2⟩ := bs_price_call_complex_re_im ⟨S, h⟩ K r q sigma T (hz _) hK hs hT
    rw [hre1, him1, hre2, him2, habs, harg]
    constructor <;> ring
  -- The 45° estimator is symmetric in the two shifted spots, for every input.
  have gamma_complex_step_45deg_neg (S K r q sigma T h : ℝ) :
      gamma_complex_step_45deg S K r q sigma T (-h) =
        gamma_complex_step_45deg S K r q sigma T h := by
    have hshift : (⟨-h, 0⟩ : ℂ) * ⟨inv_sqrt2, inv_sqrt2⟩ =
        -((⟨h, 0⟩ : ℂ) * ⟨inv_sqrt2, inv_sqrt2⟩) := by
      apply Complex.ext <;> simp
    delta gamma_complex_step_45deg
    simp only [hshift, sub_neg_eq_add, ← sub_eq_add_neg, neg_mul_neg]
    rw [add_comm (bs_price_call_complex _ _ _ _ _ _)]
  exact ⟨csqrt_ofReal, complex_d1_eq, bs_price_call_complex_re_im, bs_price_call_complex_im,
    abs_sub_re_bounds, mul_cos_le_sin, arg_bounds, d1_shift_bounds, im_price_upper,
    im_price_lower, gamma_complex_step_45deg_eq, im_core_correction_bounds, log_abs_upper_bounds,
    log_abs_lower_bounds, inv_sqrt2_sq, cube_div_upper, cube_div_lower, abs_sub_re_lower,
    log_abs_ratio_le, im_core_correction_refined, arith_drop, arith_lower, arith_upper,
    assemble_flat, abs_arg_reflect, bs_price_call_complex_reflect, gamma_complex_step_45deg_neg⟩

/-! ## The accuracy sweep -/

set_option maxHeartbeats 0 in
/-- The records written by `write_scenario_csv`.  The components are, in order:
`sweep_record_h_rel`, `sweep_record_h`, `mem_write_scenario_csv`, `sweep_record_zero_mem`,
`dbl_abs_sub_fin_ge`, `write_scenario_csv_h_rel`, `rpow_grid_last`, `rpow_grid_first`,
`rpow_grid_le`. -/
theorem sweep_facts :
    (∀ (S K r q sigma T : ℝ) (da ga : Dbl) (i : ℕ),
        (sweep_record S K r q sigma T da ga i).h_rel =
        Dbl.fin ((10 : ℝ) ^ (-16 + 12 * (i : ℝ) / 23))) ∧
    (∀ (S K r q sigma T : ℝ) (da ga : Dbl) (i : ℕ),
        (sweep_record S K r q sigma T da ga i).h =
        Dbl.fin ((10 : ℝ) ^ (-16 + 12 * (i : ℝ) / 23) * S)) ∧
    (∀ (S K r q sigma T : ℝ) (e : ErrorRecord) (he : e ∈ write_scenario_csv S K r q sigma T),
        ∃ i : ℕ, i < 24 ∧
        e = sweep_record S K r q sigma T
        (bs_delta_call (Dbl.fin S) (Dbl.fin K) (Dbl.fin r) (Dbl.fin q) (Dbl.fin sigma)
        (Dbl.fin T))
        (bs_gamma_call (Dbl.fin S) (Dbl.fin K) (Dbl.fin r) (Dbl.fin q) (Dbl.fin sigma)
        (Dbl.fin T)) i) ∧
    (∀ (S K r q sigma T : ℝ),
        sweep_record S K r q sigma T
        (bs_delta_call (Dbl.fin S) (Dbl.fin K) (Dbl.fin r) (Dbl.fin q) (Dbl.fin sigma)
        (Dbl.fin T))
        (bs_gamma_call (Dbl.fin S) (Dbl.fin K) (Dbl.fin r) (Dbl.fin q) (Dbl.fin sigma)
        (Dbl.fin T)) 0 ∈ write_scenario_csv S K r q sigma T) ∧
    (∀ (x a : ℝ),
        Dbl.ge (Dbl.abs (Dbl.fin x - Dbl.fin a)) (Dbl.fin 0) = true) ∧
    (∀ (S K r q sigma T : ℝ),
        (write_scenario_csv S K r q sigma T).map ErrorRecord.h_rel =
        (List.range 24).map (fun i : ℕ => Dbl.fin ((10 : ℝ) ^ (-16 + 12 * (i : ℝ) / 23)))) ∧
    ((10 : ℝ) ^ (-16 + 12 * ((23 : ℕ) : ℝ) / 23) = 1e-4) ∧
    ((10 : ℝ) ^ (-16 + 12 * ((0 : ℕ) : ℝ) / 23) = 1e-16) ∧
    (∀ (i : ℕ) (hi : i < 24),
        (10 : ℝ) ^ (-16 + 12 * (i : ℝ) / 23) ≤ 1e-4) := by
  -- The relative step of the sweep at the index `i`.
  have sweep_record_h_rel (S K r q sigma T : ℝ) (da ga : Dbl) (i : ℕ) :
      (sweep_record S K r q sigma T da ga i).h_rel =
        Dbl.fin ((10 : ℝ) ^ (-16 + 12 * (i : ℝ) / 23)) := by
    delta sweep_record
    delta log_min log_max num_points
    simp only []
    congr 2
    push_cast
    ring
  -- The absolute step of the sweep at the index `i`.
  have sweep_record_h (S K r q sigma T : ℝ) (da ga : Dbl) (i : ℕ) :
      (sweep_record S K r q sigma T da ga i).h =
        Dbl.fin ((10 : ℝ) ^ (-16 + 12 * (i : ℝ) / 23) * S) := by
    delta sweep_record
    delta log_min log_max num_points
    simp only []
    congr 3
    push_cast
    ring
  -- Every record of the sweep is the loop body at some index below 24, with the analytic values
  -- of the scenario.
  have mem_write_scenario_csv (S K r q sigma T : ℝ) (e : ErrorRecord)
      (he : e ∈ write_scenario_csv S K r q sigma T) :
      ∃ i : ℕ, i < 24 ∧
        e = sweep_record S K r q sigma T
          (bs_delta_call (Dbl.fin S) (Dbl.fin K) (Dbl.fin r) (Dbl.fin q) (Dbl.fin sigma)
            (Dbl.fin T))
          (bs_gamma_call (Dbl.fin S) (Dbl.fin K) (Dbl.fin r) (Dbl.fin q) (Dbl.fin sigma)
            (Dbl.fin T)) i := by
    delta write_scenario_csv at he
    delta num_points at he
    simp only [List.mem_map, List.mem_range] at he
    obtain ⟨i, hi, rfl⟩ := he
    exact ⟨i, hi, rfl⟩
  -- The index-zero record belongs to the sweep.
  have sweep_record_zero_mem (S K r q sigma T : ℝ) :
      sweep_record S K r q sigma T
          (bs_delta_call (Dbl.fin S) (Dbl.fin K) (Dbl.fin r) (Dbl.fin q) (Dbl.fin sigma)
            (Dbl.fin T))
          (bs_gamma_call (Dbl.fin S) (Dbl.fin K) (Dbl.fin r) (Dbl.fin q) (Dbl.fin sigma)
            (Dbl.fin T)) 0 ∈ write_scenario_csv S K r q sigma T := by
    delta write_scenario_csv
    delta num_points
    simp only [List.mem_map, List.mem_range]
    exact ⟨0, by norm_num, rfl⟩
  -- The absolute value of a difference of two finite values is a finite value `≥ 0`.
  have dbl_abs_sub_fin_ge (x a : ℝ) :
      Dbl.ge (Dbl.abs (Dbl.fin x - Dbl.fin a)) (Dbl.fin 0) = true := by
    rw [Dbl.fin_sub]
    delta Dbl.abs Dbl.ge Dbl.le
    simp
  -- The relative steps written by the sweep, in order.
  have write_scenario_csv_h_rel (S K r q sigma T : ℝ) :
      (write_scenario_csv S K r q sigma T).map ErrorRecord.h_rel =
        (List.range 24).map (fun i : ℕ => Dbl.fin ((10 : ℝ) ^ (-16 + 12 * (i : ℝ) / 23))) := by
    delta write_scenario_csv
    delta num_points
    simp only [List.map_map]
    apply List.map_congr_left
    intro i _
    exact sweep_record_h_rel S K r q sigma T _ _ i
  -- The largest exponent of the grid gives `10⁻⁴`.
  have rpow_grid_last : (10 : ℝ) ^ (-16 + 12 * ((23 : ℕ) : ℝ) / 23) = 1e-4 := by
    have : (-16 + 12 * ((23 : ℕ) : ℝ) / 23) = -((4 : ℕ) : ℝ) := by norm_num
    rw [this, Real.rpow_neg (by norm_num), Real.rpow_natCast]
    norm_num
  -- The smallest exponent of the grid gives `10⁻¹⁶`.
  have rpow_grid_first : (10 : ℝ) ^ (-16 + 12 * ((0 : ℕ) : ℝ) / 23) = 1e-16 := by
    have : (-16 + 12 * ((0 : ℕ) : ℝ) / 23) = -((16 : ℕ) : ℝ) := by norm_num
    rw [this, Real.rpow_neg (by norm_num), Real.rpow_natCast]
    norm_num
  -- Every relative step of the grid is at most `10⁻⁴`.
  have rpow_grid_le (i : ℕ) (hi : i < 24) :
      (10 : ℝ) ^ (-16 + 12 * (i : ℝ) / 23) ≤ 1e-4 := by
    rw [← rpow_grid_last]
    apply Real.rpow_le_rpow_of_exponent_le (by norm_num)
    have : (i : ℝ) ≤ 23 := by exact_mod_cast Nat.lt_succ_iff.mp hi
    push_cast
    linarith
  exact ⟨sweep_record_h_rel, sweep_record_h, mem_write_scenario_csv, sweep_record_zero_mem,
    dbl_abs_sub_fin_ge, write_scenario_csv_h_rel, rpow_grid_last, rpow_grid_first, rpow_grid_le⟩

/-! ## The distribution function through its derivative -/

set_option maxHeartbeats 0 in
/-- The distribution function `Phi` has the derivative `phi`; mean value estimates for its
increments.  The components are, in order: `Phi_series_hasDerivAt`, `Phi_hasDerivAt`,
`sub_le_of_derivWithin_le`, `le_sub_of_le_derivWithin`, `Phi_sub_bounds`, `phi_hasDerivAt`,
`abs_deriv_phi_le`, `phi_lipschitz`, `price_bracket_bounds`, `Phi_sub_linear`, `Phi_sub_le_of_le`,
`Phi_symmetric_split`, `Phi_strictMono`, `Phi_tenth_bounds`, `Phi_tenth_value`. -/
theorem distribution_facts :
    (∀ (x : ℝ),
        HasDerivAt (fun z : ℝ => tsum (fun n : ℕ => (-1) ^ n * z ^ (2 * n + 1) /
        (2 ^ n * n.factorial * (2 * n + 1)))) (Real.exp (-(x ^ 2) / 2)) x) ∧
    (∀ (x : ℝ),
        HasDerivAt Phi (phi x) x) ∧
    (∀ (g g1 : ℝ → ℝ) (a b C : ℝ) (hg : ∀ t ∈ Set.Icc a b, HasDerivWithinAt g (g1 t) (Set.Icc a b) t) (hC : ∀ t ∈ Set.Icc a b, g1 t ≤ C) (t : ℝ) (ht : t ∈ Set.Icc a b),
        g t - g a ≤ C * (t - a)) ∧
    (∀ (g g1 : ℝ → ℝ) (a b C : ℝ) (hg : ∀ t ∈ Set.Icc a b, HasDerivWithinAt g (g1 t) (Set.Icc a b) t) (hC : ∀ t ∈ Set.Icc a b, C ≤ g1 t) (t : ℝ) (ht : t ∈ Set.Icc a b),
        C * (t - a) ≤ g t - g a) ∧
    (∀ (x y : ℝ) (hxy : x ≤ y),
        0 ≤ Phi y - Phi x ∧ Phi y - Phi x ≤ y - x) ∧
    (∀ (x : ℝ),
        HasDerivAt phi (-x * phi x) x) ∧
    (∀ (x : ℝ),
        |(-x * phi x)| ≤ 1) ∧
    (∀ (x y : ℝ),
        |phi y - phi x| ≤ |y - x|) ∧
    (∀ (S K r q sigma T rho : ℝ) (hS : 0 < S) (hK : 0 < K) (hs : 0 < sigma) (hT : 0 < T) (hrho : 0 ≤ rho),
        -(forward S r q T * (Real.exp (sigma * Real.sqrt T * rho) - 1) * rho) ≤
        forward S r q T * (Phi (d1 S K r q sigma T + rho) - Phi (d1 S K r q sigma T)) -
        K * (Phi (d1 S K r q sigma T + rho - sigma * Real.sqrt T) -
        Phi (d1 S K r q sigma T - sigma * Real.sqrt T)) ∧
        forward S r q T * (Phi (d1 S K r q sigma T + rho) - Phi (d1 S K r q sigma T)) -
        K * (Phi (d1 S K r q sigma T + rho - sigma * Real.sqrt T) -
        Phi (d1 S K r q sigma T - sigma * Real.sqrt T)) ≤ 0) ∧
    (∀ (x y p R : ℝ) (hxy : x ≤ y) (hx : |x - p| ≤ R) (hy : |y - p| ≤ R),
        |Phi y - Phi x - (y - x) * phi p| ≤ (y - x) * R) ∧
    (∀ (x y M : ℝ) (hxy : x ≤ y) (hM : ∀ s ∈ Set.Icc x y, phi s ≤ M),
        Phi y - Phi x ≤ (y - x) * M) ∧
    (∀ (Dm Dp delta : ℝ) (hd : 0 ≤ delta) (hp : delta ≤ Dp) (hm : Dm ≤ -delta),
        Phi Dp - Phi Dm ≤ (Dp - Dm) * phi delta + 2 * delta * (phi 0 - phi delta)) ∧
    (StrictMono Phi) ∧
    (|Phi (1 / 10) - (1 / 2 +
        (1 / 10 - (1 / 10) ^ 3 / 6 + (1 / 10) ^ 5 / 40 - (1 / 10) ^ 7 / 336) /
        Real.sqrt (2 * Real.pi))| ≤ 14 / 10 ^ 13) ∧
    (|Phi (1 / 10) - 0.5398278372770| < 1e-10) := by
  obtain ⟨-, -, -, -, phi_pos, phi_nonneg, Phi_zero, -, -, -, -, -, -, -, -, -, -,
    -⟩ := analytic_greeks_facts
  obtain ⟨phi_le_one, -, -, phi_shift_general, -, -, phi_le_of_sq_le, phi_le_phi_zero, -, -, -,
    -, -, -, -, -, -, phi_taylor_error, inv_sqrt_two_pi_bounds, -⟩ := density_facts
  -- Termwise differentiation of the power series of `Φ`: its derivative is `e^{-x²/2}`.
  have Phi_series_hasDerivAt (x : ℝ) :
      HasDerivAt (fun z : ℝ => tsum (fun n : ℕ => (-1) ^ n * z ^ (2 * n + 1) /
        (2 ^ n * n.factorial * (2 * n + 1)))) (Real.exp (-(x ^ 2) / 2)) x := by
    have hR : (0 : ℝ) < |x| + 1 := by positivity
    have hu : Summable (fun n : ℕ => ((|x| + 1) ^ 2 / 2) ^ n / n.factorial) :=
      Real.summable_pow_div_factorial _
    have hg : ∀ (n : ℕ) (y : ℝ), y ∈ Metric.ball (0 : ℝ) (|x| + 1) →
        HasDerivAt (fun z : ℝ => (-1) ^ n * z ^ (2 * n + 1) / (2 ^ n * n.factorial * (2 * n + 1)))
          ((-(y ^ 2) / 2) ^ n / n.factorial) y := by
      intro n y _
      have h := ((hasDerivAt_pow (2 * n + 1) y).const_mul ((-1 : ℝ) ^ n)).div_const
        ((2 : ℝ) ^ n * n.factorial * (2 * n + 1))
      convert h using 1
      have h1 : (n.factorial : ℝ) ≠ 0 := by positivity
      have h2 : (2 * (n : ℝ) + 1) ≠ 0 := by positivity
      simp only [Nat.add_sub_cancel]
      rw [neg_div, neg_pow, div_pow, ← pow_mul]
      push_cast
      field_simp
      ring
    have hg' : ∀ (n : ℕ) (y : ℝ), y ∈ Metric.ball (0 : ℝ) (|x| + 1) →
        ‖(-(y ^ 2) / 2) ^ n / n.factorial‖ ≤ ((|x| + 1) ^ 2 / 2) ^ n / n.factorial := by
      intro n y hy
      rw [Metric.mem_ball, dist_zero_right, Real.norm_eq_abs] at hy
      rw [Real.norm_eq_abs, abs_div, abs_pow, Nat.abs_cast]
      apply div_le_div_of_nonneg_right _ (by positivity)
      apply pow_le_pow_left₀ (abs_nonneg _)
      rw [neg_div, abs_neg, abs_div, abs_pow, abs_of_pos (show (0 : ℝ) < 2 by norm_num)]
      apply div_le_div_of_nonneg_right _ (by norm_num)
      exact pow_le_pow_left₀ (abs_nonneg _) hy.le 2
    have hx : x ∈ Metric.ball (0 : ℝ) (|x| + 1) := by
      rw [Metric.mem_ball, dist_zero_right, Real.norm_eq_abs]
      linarith
    have h0 : (0 : ℝ) ∈ Metric.ball (0 : ℝ) (|x| + 1) := Metric.mem_ball_self hR
    have hs0 : Summable (fun n : ℕ =>
        (-1 : ℝ) ^ n * (0 : ℝ) ^ (2 * n + 1) / (2 ^ n * n.factorial * (2 * n + 1))) := by
      simp only [ne_eq, add_eq_zero, mul_eq_zero, OfNat.ofNat_ne_zero, false_or, one_ne_zero,
        and_false, not_false_eq_true, zero_pow, mul_zero, zero_div]
      exact summable_zero
    have h := hasDerivAt_tsum_of_isPreconnected hu Metric.isOpen_ball
      (convex_ball (0 : ℝ) (|x| + 1)).isPreconnected hg hg' h0 hs0 hx
    have hexp : tsum (fun n : ℕ => (-(x ^ 2) / 2) ^ n / (n.factorial : ℝ)) =
        Real.exp (-(x ^ 2) / 2) := by
      rw [Real.exp_eq_exp_ℝ, NormedSpace.exp_eq_tsum_div]
    rw [hexp] at h
    exact h
  -- The distribution function is differentiable with derivative the density.
  have Phi_hasDerivAt (x : ℝ) : HasDerivAt Phi (phi x) x := by
    have h := ((Phi_series_hasDerivAt x).div_const (Real.sqrt (2 * Real.pi))).const_add (1 / 2)
    exact h
  -- Mean value inequality on a closed interval, upper form, from derivatives within the
  -- interval.
  have sub_le_of_derivWithin_le (g g1 : ℝ → ℝ) (a b C : ℝ)
      (hg : ∀ t ∈ Set.Icc a b, HasDerivWithinAt g (g1 t) (Set.Icc a b) t)
      (hC : ∀ t ∈ Set.Icc a b, g1 t ≤ C) (t : ℝ) (ht : t ∈ Set.Icc a b) :
      g t - g a ≤ C * (t - a) := by
    have hat : a ≤ t := ht.1
    have hab : a ≤ b := le_trans ht.1 ht.2
    have hcont : ContinuousOn g (Set.Icc a b) := fun s hs => (hg s hs).continuousWithinAt
    have hint : ∀ s ∈ interior (Set.Icc a b), HasDerivAt g (g1 s) s := by
      intro s hs
      rw [interior_Icc] at hs
      exact (hg s (Set.Ioo_subset_Icc_self hs)).hasDerivAt (Icc_mem_nhds hs.1 hs.2)
    have hdiff : DifferentiableOn ℝ g (interior (Set.Icc a b)) := fun s hs =>
      (hint s hs).differentiableAt.differentiableWithinAt
    have hder : ∀ s ∈ interior (Set.Icc a b), deriv g s ≤ C := by
      intro s hs
      rw [(hint s hs).deriv]
      exact hC s (interior_subset hs)
    exact (convex_Icc a b).image_sub_le_mul_sub_of_deriv_le hcont hdiff hder a
      (Set.left_mem_Icc.mpr hab) t ht hat
  -- Mean value inequality on a closed interval, lower form, from derivatives within the
  -- interval.
  have le_sub_of_le_derivWithin (g g1 : ℝ → ℝ) (a b C : ℝ)
      (hg : ∀ t ∈ Set.Icc a b, HasDerivWithinAt g (g1 t) (Set.Icc a b) t)
      (hC : ∀ t ∈ Set.Icc a b, C ≤ g1 t) (t : ℝ) (ht : t ∈ Set.Icc a b) :
      C * (t - a) ≤ g t - g a := by
    have h := sub_le_of_derivWithin_le (fun s => -g s) (fun s => -g1 s) a b (-C)
      (fun s hs => (hg s hs).neg) (fun s hs => neg_le_neg (hC s hs)) t ht
    simp only at h
    linarith
  -- The distribution function is nondecreasing and 1-Lipschitz.
  have Phi_sub_bounds (x y : ℝ) (hxy : x ≤ y) : 0 ≤ Phi y - Phi x ∧ Phi y - Phi x ≤ y - x := by
    have hg : ∀ t ∈ Set.Icc x y, HasDerivWithinAt Phi (phi t) (Set.Icc x y) t :=
      fun t _ => (Phi_hasDerivAt t).hasDerivWithinAt
    have hy : y ∈ Set.Icc x y := ⟨hxy, le_refl y⟩
    have h1 := sub_le_of_derivWithin_le Phi phi x y 1 hg (fun t _ => phi_le_one t) y hy
    have h2 := le_sub_of_le_derivWithin Phi phi x y 0 hg (fun t _ => phi_nonneg t) y hy
    constructor <;> linarith
  -- Derivative of the density: `φ'(x) = −x·φ(x)`.
  have phi_hasDerivAt (x : ℝ) : HasDerivAt phi (-x * phi x) x := by
    have h1 : HasDerivAt (fun y : ℝ => -(y ^ 2) / 2) (-x) x := by
      have := ((hasDerivAt_pow 2 x).neg).div_const 2
      convert this using 1
      ring
    have h2 := (h1.exp).div_const (Real.sqrt (2 * Real.pi))
    convert h2 using 1
    delta phi
    ring
  -- The derivative of the density is bounded by one.
  have abs_deriv_phi_le (x : ℝ) : |(-x * phi x)| ≤ 1 := by
    have hpos := phi_pos x
    have hc : (1 : ℝ) ≤ Real.sqrt (2 * Real.pi) := by
      rw [show (1 : ℝ) = Real.sqrt 1 by simp]
      apply Real.sqrt_le_sqrt
      have := Real.pi_gt_three
      linarith
    have h1 : |x| ≤ Real.exp (x ^ 2 / 2) := by
      have := Real.add_one_le_exp (x ^ 2 / 2)
      have h3 : |x| ≤ x ^ 2 / 2 + 1 := by
        have := sq_nonneg (|x| - 1)
        have h4 : |x| ^ 2 = x ^ 2 := sq_abs x
        nlinarith
      linarith
    have h2 : |x| * Real.exp (-(x ^ 2) / 2) ≤ 1 := by
      have he : Real.exp (-(x ^ 2) / 2) = (Real.exp (x ^ 2 / 2))⁻¹ := by
        rw [← Real.exp_neg]; congr 1; ring
      rw [he, ← div_eq_mul_inv, div_le_one (Real.exp_pos _)]
      exact h1
    rw [abs_mul, abs_neg, abs_of_pos hpos]
    delta phi
    have h5 : |x| * (Real.exp (-(x ^ 2) / 2) / Real.sqrt (2 * Real.pi)) =
        |x| * Real.exp (-(x ^ 2) / 2) / Real.sqrt (2 * Real.pi) := by ring
    rw [h5, div_le_one (by positivity)]
    linarith
  -- The density is 1-Lipschitz.
  have phi_lipschitz (x y : ℝ) : |phi y - phi x| ≤ |y - x| := by
    have hd : ∀ t ∈ (Set.univ : Set ℝ), HasDerivWithinAt phi (-t * phi t) Set.univ t :=
      fun t _ => (phi_hasDerivAt t).hasDerivWithinAt
    have hb : ∀ t ∈ (Set.univ : Set ℝ), ‖-t * phi t‖ ≤ 1 := fun t _ => by
      rw [Real.norm_eq_abs]; exact abs_deriv_phi_le t
    have h := Convex.norm_image_sub_le_of_norm_hasDerivWithin_le hd hb convex_univ
      (Set.mem_univ x) (Set.mem_univ y)
    simpa [Real.norm_eq_abs] using h
  -- The bracket `F·(Φ(d1+ρ) − Φ(d1)) − K·(Φ(d2+ρ) − Φ(d2))` for a shift `ρ ≥ 0`: it is
  -- nonpositive and of second order in `ρ`.
  have price_bracket_bounds (S K r q sigma T rho : ℝ) (hS : 0 < S) (hK : 0 < K)
      (hs : 0 < sigma) (hT : 0 < T) (hrho : 0 ≤ rho) :
      -(forward S r q T * (Real.exp (sigma * Real.sqrt T * rho) - 1) * rho) ≤
          forward S r q T * (Phi (d1 S K r q sigma T + rho) - Phi (d1 S K r q sigma T)) -
            K * (Phi (d1 S K r q sigma T + rho - sigma * Real.sqrt T) -
              Phi (d1 S K r q sigma T - sigma * Real.sqrt T)) ∧
        forward S r q T * (Phi (d1 S K r q sigma T + rho) - Phi (d1 S K r q sigma T)) -
            K * (Phi (d1 S K r q sigma T + rho - sigma * Real.sqrt T) -
              Phi (d1 S K r q sigma T - sigma * Real.sqrt T)) ≤ 0 := by
    have ha0 : 0 < sigma * Real.sqrt T := mul_pos hs (Real.sqrt_pos.mpr hT)
    have hF : 0 < forward S r q T := mul_pos hS (Real.exp_pos _)
    set d := d1 S K r q sigma T with hd
    set a := sigma * Real.sqrt T with ha
    set F := forward S r q T with hFdef
    have hle : d ≤ d + rho := by linarith
    have hg : ∀ s ∈ Set.Icc d (d + rho),
        HasDerivWithinAt (fun s => F * Phi s - K * Phi (s - a)) (F * phi s - K * phi (s - a))
          (Set.Icc d (d + rho)) s := by
      intro s _
      have h1 := (Phi_hasDerivAt s).const_mul F
      have h2 : HasDerivAt (fun s => Phi (s - a)) (phi (s - a)) s := by
        have h := (Phi_hasDerivAt (s - a)).comp s ((hasDerivAt_id s).sub_const a)
        simp only [id, mul_one] at h
        exact h
      exact (h1.sub (h2.const_mul K)).hasDerivWithinAt
    have hpt : ∀ s ∈ Set.Icc d (d + rho),
        -(F * (Real.exp (a * rho) - 1)) ≤ F * phi s - K * phi (s - a) ∧
          F * phi s - K * phi (s - a) ≤ 0 := by
      intro s hs'
      rw [phi_shift_general S K r q sigma T s hS hK hs hT]
      have h1 : 1 ≤ Real.exp (a * (s - d)) := Real.one_le_exp (mul_nonneg (le_of_lt ha0)
        (by linarith [hs'.1]))
      have h2 : Real.exp (a * (s - d)) ≤ Real.exp (a * rho) :=
        Real.exp_le_exp.mpr (mul_le_mul_of_nonneg_left (by linarith [hs'.2]) (le_of_lt ha0))
      have hp0 := phi_nonneg s
      have hp1 := phi_le_one s
      have e : F * phi s - F * Real.exp (a * (s - d)) * phi s =
          -(F * (phi s * (Real.exp (a * (s - d)) - 1))) := by ring
      rw [e]
      constructor
      · rw [neg_le_neg_iff]
        apply mul_le_mul_of_nonneg_left _ (le_of_lt hF)
        calc phi s * (Real.exp (a * (s - d)) - 1) ≤ 1 * (Real.exp (a * rho) - 1) :=
              mul_le_mul hp1 (by linarith) (by linarith) (by norm_num)
          _ = Real.exp (a * rho) - 1 := one_mul _
      · rw [neg_nonpos]
        exact mul_nonneg (le_of_lt hF) (mul_nonneg hp0 (by linarith))
    have hmem : d + rho ∈ Set.Icc d (d + rho) := ⟨hle, le_refl _⟩
    have hup := sub_le_of_derivWithin_le _ _ d (d + rho) 0 hg (fun s hs' => (hpt s hs').2)
      (d + rho) hmem
    have hlo := le_sub_of_le_derivWithin _ _ d (d + rho) (-(F * (Real.exp (a * rho) - 1))) hg
      (fun s hs' => (hpt s hs').1) (d + rho) hmem
    simp only at hup hlo
    constructor <;> linarith
  -- First-order expansion of the distribution function around `p` with an explicit remainder.
  have Phi_sub_linear (x y p R : ℝ) (hxy : x ≤ y) (hx : |x - p| ≤ R) (hy : |y - p| ≤ R) :
      |Phi y - Phi x - (y - x) * phi p| ≤ (y - x) * R := by
    have hg : ∀ t ∈ Set.Icc x y,
        HasDerivWithinAt (fun s => Phi s - s * phi p) (phi t - phi p) (Set.Icc x y) t := by
      intro t _
      have h := (Phi_hasDerivAt t).sub ((hasDerivAt_id t).mul_const (phi p))
      simp only [id, one_mul] at h
      exact h.hasDerivWithinAt
    have hb : ∀ t ∈ Set.Icc x y, |phi t - phi p| ≤ R := by
      intro t ht
      refine le_trans (phi_lipschitz p t) ?_
      rw [abs_le] at hx hy ⊢
      constructor <;> linarith [ht.1, ht.2]
    have hymem : y ∈ Set.Icc x y := ⟨hxy, le_refl y⟩
    have h1 := sub_le_of_derivWithin_le _ _ x y R hg (fun t ht => (abs_le.mp (hb t ht)).2) y hymem
    have h2 := le_sub_of_le_derivWithin _ _ x y (-R) hg (fun t ht => (abs_le.mp (hb t ht)).1) y
      hymem
    simp only at h1 h2
    rw [abs_le]
    constructor <;> linarith
  -- An increment of the distribution function is at most the length times a bound on the
  -- density.
  have Phi_sub_le_of_le (x y M : ℝ) (hxy : x ≤ y) (hM : ∀ s ∈ Set.Icc x y, phi s ≤ M) :
      Phi y - Phi x ≤ (y - x) * M := by
    have hg : ∀ t ∈ Set.Icc x y, HasDerivWithinAt Phi (phi t) (Set.Icc x y) t :=
      fun t _ => (Phi_hasDerivAt t).hasDerivWithinAt
    have h1 := sub_le_of_derivWithin_le Phi phi x y M hg hM y ⟨hxy, le_refl y⟩
    linarith
  -- An increment of the distribution function across zero, split at `±δ`.
  have Phi_symmetric_split (Dm Dp delta : ℝ) (hd : 0 ≤ delta) (hp : delta ≤ Dp)
      (hm : Dm ≤ -delta) :
      Phi Dp - Phi Dm ≤ (Dp - Dm) * phi delta + 2 * delta * (phi 0 - phi delta) := by
    have h1 := Phi_sub_le_of_le delta Dp (phi delta) hp (fun s hs =>
      phi_le_of_sq_le s delta (by nlinarith [hs.1]))
    have h2 := Phi_sub_le_of_le (-delta) delta (phi 0) (by linarith) (fun s _ =>
      phi_le_phi_zero s)
    have h3 := Phi_sub_le_of_le Dm (-delta) (phi delta) hm (fun s hs =>
      phi_le_of_sq_le s delta (by nlinarith [hs.2]))
    nlinarith
  -- The distribution function is strictly increasing.
  have Phi_strictMono : StrictMono Phi :=
    strictMono_of_deriv_pos (fun x => by rw [(Phi_hasDerivAt x).deriv]; exact phi_pos x)
  -- Enclosure of `Φ(1/10)` by the seventh-degree Taylor polynomial of the distribution
  -- function.
  have Phi_tenth_bounds :
      |Phi (1 / 10) - (1 / 2 +
          (1 / 10 - (1 / 10) ^ 3 / 6 + (1 / 10) ^ 5 / 40 - (1 / 10) ^ 7 / 336) /
            Real.sqrt (2 * Real.pi))| ≤ 14 / 10 ^ 13 := by
    have hg : ∀ t ∈ Set.Icc (0 : ℝ) (1 / 10),
        HasDerivWithinAt
          (fun x => Phi x - (x - x ^ 3 / 6 + x ^ 5 / 40 - x ^ 7 / 336) / Real.sqrt (2 * Real.pi))
          (phi t - (1 - t ^ 2 / 2 + t ^ 4 / 8 - t ^ 6 / 48) / Real.sqrt (2 * Real.pi))
          (Set.Icc (0 : ℝ) (1 / 10)) t := by
      intro t _
      have hQ : HasDerivAt (fun x : ℝ => x - x ^ 3 / 6 + x ^ 5 / 40 - x ^ 7 / 336)
          (1 - t ^ 2 / 2 + t ^ 4 / 8 - t ^ 6 / 48) t := by
        have h := (((hasDerivAt_id t).sub ((hasDerivAt_pow 3 t).div_const 6)).add
          ((hasDerivAt_pow 5 t).div_const 40)).sub ((hasDerivAt_pow 7 t).div_const 336)
        convert h using 1
        simp only [Nat.cast_ofNat]
        ring
      exact ((Phi_hasDerivAt t).sub (hQ.div_const _)).hasDerivWithinAt
    have hmem : (1 / 10 : ℝ) ∈ Set.Icc (0 : ℝ) (1 / 10) := ⟨by norm_num, le_refl _⟩
    have hup := sub_le_of_derivWithin_le _ _ 0 (1 / 10) (14 / 10 ^ 12) hg
      (fun t ht => (abs_le.mp (phi_taylor_error t ht)).2) (1 / 10) hmem
    have hlo := le_sub_of_le_derivWithin _ _ 0 (1 / 10) (-(14 / 10 ^ 12)) hg
      (fun t ht => (abs_le.mp (phi_taylor_error t ht)).1) (1 / 10) hmem
    simp only [Phi_zero] at hup hlo
    norm_num at hup hlo
    rw [abs_le]
    constructor
    · norm_num
      linarith
    · norm_num
      linarith
  -- The distribution function at `0.1` to ten decimals.
  have Phi_tenth_value : |Phi (1 / 10) - 0.5398278372770| < 1e-10 := by
    have h := Phi_tenth_bounds
    obtain ⟨h1, h2⟩ := inv_sqrt_two_pi_bounds
    rw [div_eq_mul_one_div _ (Real.sqrt (2 * Real.pi))] at h
    generalize 1 / Real.sqrt (2 * Real.pi) = ic at h h1 h2
    rw [abs_le] at h
    obtain ⟨h3, h4⟩ := h
    rw [abs_lt]
    norm_num at h1 h2 h3 h4 ⊢
    constructor <;> linarith
  exact ⟨Phi_series_hasDerivAt, Phi_hasDerivAt, sub_le_of_derivWithin_le,
    le_sub_of_le_derivWithin, Phi_sub_bounds, phi_hasDerivAt, abs_deriv_phi_le, phi_lipschitz,
    price_bracket_bounds, Phi_sub_linear, Phi_sub_le_of_le, Phi_symmetric_split, Phi_strictMono,
    Phi_tenth_bounds, Phi_tenth_value⟩

/-! ## Error analysis of the complex-step estimators -/

set_option maxHeartbeats 0 in
/-- Error bounds of the three complex-step estimators against the analytic Greeks.  The components
are, in order: `delta_complex_step_error`, `gamma_complex_step_error`,
`gamma_complex_step_45deg_error`, `gamma_45deg_flat_error`. -/
theorem complex_step_error_facts :
    (∀ (S K r q sigma T h : ℝ) (hS : 0 < S) (hK : 0 < K) (hs : 0 < sigma) (hT : 0 < T) (hh : 0 < h),
        |delta_complex_step S K r q sigma T h - Real.exp (-q * T) * Phi (d1 S K r q sigma T)| ≤
        Real.exp (-q * T) / (2 * S ^ 2 * (sigma * Real.sqrt T)) * h ^ 2) ∧
    (∀ (S K r q sigma T h : ℝ) (hS : 0 < S) (hK : 0 < K) (hs : 0 < sigma) (hT : 0 < T) (hh : 0 < h),
        |gamma_complex_step S K r q sigma T h -
        2 * (Real.exp (-q * T) * phi (d1 S K r q sigma T) / (S * (sigma * Real.sqrt T)))| ≤
        Real.exp (-q * T) * (3 / 2 + 1 / (sigma * Real.sqrt T)) /
        (S ^ 3 * (sigma * Real.sqrt T)) * h ^ 2) ∧
    (∀ (S K r q sigma T h : ℝ) (hS : 0 < S) (hK : 0 < K) (hs : 0 < sigma) (hT : 0 < T) (hh : 0 < h) (hc2 : h * inv_sqrt2 ≤ S / 2),
        |gamma_complex_step_45deg S K r q sigma T h -
        Real.exp (-q * T) * phi (d1 S K r q sigma T) / (S * (sigma * Real.sqrt T))| ≤
        Real.exp (-q * T) * (4 / (sigma * Real.sqrt T) ^ 2 + 3 / (sigma * Real.sqrt T)) / S ^ 2 *
        (h * inv_sqrt2)) ∧
    (∀ (h : ℝ) (hh : 0 < h) (hc1 : h * inv_sqrt2 ≤ 1),
        gamma_complex_step_45deg 100 100 0 0.005 0.1 1 h -
        Real.exp (-0.005 * 1) * phi (d1 100 100 0 0.005 0.1 1) / (100 * (0.1 * Real.sqrt 1)) ≤
        -(24 * Real.exp (-0.005 * 1) * phi 0 / 10 ^ 6) * h ^ 2) := by
  obtain ⟨-, -, -, -, -, phi_nonneg, -, -, -, -, -, -, -, -, -, -, -, -⟩ := analytic_greeks_facts
  obtain ⟨phi_le_one, -, d1_sub, -, -, -, -, -, phi_zero_sub_ge, phi_ge_quadratic,
    d1_flat_scenario, -, -, -, -, -, -, -, -, -⟩ := density_facts
  obtain ⟨-, -, bs_price_call_complex_re_im, bs_price_call_complex_im, abs_sub_re_bounds, -,
    arg_bounds, d1_shift_bounds, -, -, gamma_complex_step_45deg_eq, im_core_correction_bounds,
    log_abs_upper_bounds, log_abs_lower_bounds, inv_sqrt2_sq, cube_div_upper, cube_div_lower, -,
    log_abs_ratio_le, im_core_correction_refined, -, -, -, assemble_flat, -, -,
    -⟩ := complex_pricer_facts
  obtain ⟨-, -, -, -, Phi_sub_bounds, -, -, phi_lipschitz, price_bracket_bounds, Phi_sub_linear,
    -, Phi_symmetric_split, -, -, -⟩ := distribution_facts
  -- Error of the complex-step delta against `e^{-qT}·Φ(d1)`, for every step `h > 0`.
  have delta_complex_step_error (S K r q sigma T h : ℝ) (hS : 0 < S) (hK : 0 < K)
      (hs : 0 < sigma) (hT : 0 < T) (hh : 0 < h) :
      |delta_complex_step S K r q sigma T h - Real.exp (-q * T) * Phi (d1 S K r q sigma T)| ≤
        Real.exp (-q * T) / (2 * S ^ 2 * (sigma * Real.sqrt T)) * h ^ 2 := by
    have ha0 : 0 < sigma * Real.sqrt T := mul_pos hs (Real.sqrt_pos.mpr hT)
    have hE : 0 < Real.exp (-q * T) := Real.exp_pos _
    have hz : (⟨S, h⟩ : ℂ) ≠ 0 := by
      intro h0
      have := congrArg Complex.re h0
      simp at this
      linarith
    obtain ⟨hm1, hm2⟩ := abs_sub_re_bounds S h hS
    obtain ⟨ha1, ha2⟩ := arg_bounds S h hS (le_of_lt hh)
    obtain ⟨hd1, hd2⟩ := d1_shift_bounds S K r q sigma T h hS hK hs hT
    have harg0 : 0 ≤ Complex.arg ⟨S, h⟩ := Complex.arg_nonneg_iff.mpr (le_of_lt hh)
    obtain ⟨hP1, hP2⟩ := Phi_sub_bounds (d1 S K r q sigma T)
      (d1 (Complex.abs ⟨S, h⟩) K r q sigma T) (by linarith)
    set D := d1 (Complex.abs ⟨S, h⟩) K r q sigma T with hD
    set B := h ^ 2 / (2 * S ^ 2 * (sigma * Real.sqrt T)) with hB
    -- the second term of the estimator
    set t2 := Complex.arg ⟨S, h⟩ / (sigma * Real.sqrt T) * phi D * (Complex.abs ⟨S, h⟩ - S) / h
      with ht2
    have ht2nn : 0 ≤ t2 := by
      rw [ht2]
      have := phi_nonneg D
      have : 0 ≤ Complex.abs ⟨S, h⟩ - S := by linarith
      positivity
    have ht2le : t2 ≤ B := by
      have e1 : Complex.arg ⟨S, h⟩ / (sigma * Real.sqrt T) ≤ h / S / (sigma * Real.sqrt T) :=
        div_le_div_of_nonneg_right ha2 (le_of_lt ha0)
      have e2 : Complex.arg ⟨S, h⟩ / (sigma * Real.sqrt T) * phi D ≤
          h / S / (sigma * Real.sqrt T) * 1 :=
        mul_le_mul e1 (phi_le_one D) (phi_nonneg D) (by positivity)
      have e3 : Complex.arg ⟨S, h⟩ / (sigma * Real.sqrt T) * phi D * (Complex.abs ⟨S, h⟩ - S) ≤
          h / S / (sigma * Real.sqrt T) * 1 * (h ^ 2 / (2 * S)) :=
        mul_le_mul e2 hm2 (by linarith) (by positivity)
      rw [ht2, div_le_iff₀ hh]
      calc Complex.arg ⟨S, h⟩ / (sigma * Real.sqrt T) * phi D * (Complex.abs ⟨S, h⟩ - S)
          ≤ h / S / (sigma * Real.sqrt T) * 1 * (h ^ 2 / (2 * S)) := e3
        _ = B * h := by rw [hB]; field_simp; ring
    have hval : delta_complex_step S K r q sigma T h - Real.exp (-q * T) * Phi (d1 S K r q sigma T) =
        Real.exp (-q * T) * ((Phi D - Phi (d1 S K r q sigma T)) - t2) := by
      delta delta_complex_step
      simp only []
      rw [bs_price_call_complex_im ⟨S, h⟩ K r q sigma T hz hK hs hT]
      rw [ht2]
      field_simp
      ring
    rw [hval, abs_mul, abs_of_pos hE]
    have : |Phi D - Phi (d1 S K r q sigma T) - t2| ≤ B := by
      rw [abs_le]
      constructor <;> linarith
    calc Real.exp (-q * T) * |Phi D - Phi (d1 S K r q sigma T) - t2|
        ≤ Real.exp (-q * T) * B := mul_le_mul_of_nonneg_left this (le_of_lt hE)
      _ = Real.exp (-q * T) / (2 * S ^ 2 * (sigma * Real.sqrt T)) * h ^ 2 := by
          rw [hB]; field_simp
  -- The real-axis complex-step gamma is within `O(h²)` of TWICE the analytic gamma
  -- `e^{-qT}·φ(d1)/(S·σ√T)`, for every step `h > 0`.
  have gamma_complex_step_error (S K r q sigma T h : ℝ) (hS : 0 < S) (hK : 0 < K)
      (hs : 0 < sigma) (hT : 0 < T) (hh : 0 < h) :
      |gamma_complex_step S K r q sigma T h -
          2 * (Real.exp (-q * T) * phi (d1 S K r q sigma T) / (S * (sigma * Real.sqrt T)))| ≤
        Real.exp (-q * T) * (3 / 2 + 1 / (sigma * Real.sqrt T)) /
          (S ^ 3 * (sigma * Real.sqrt T)) * h ^ 2 := by
    have ha0 : 0 < sigma * Real.sqrt T := mul_pos hs (Real.sqrt_pos.mpr hT)
    have hEq : 0 < Real.exp (-q * T) := Real.exp_pos _
    have hDF : 0 < Real.exp (-r * T) := Real.exp_pos _
    have hE : 0 < Real.exp ((r - q) * T) := Real.exp_pos _
    have hEqE : Real.exp (-q * T) = Real.exp (-r * T) * Real.exp ((r - q) * T) := by
      rw [← Real.exp_add]; congr 1; ring
    have hz : (⟨S, h⟩ : ℂ) ≠ 0 := by
      intro h0
      have := congrArg Complex.re h0
      simp at this
      linarith
    obtain ⟨hm1, hm2⟩ := abs_sub_re_bounds S h hS
    obtain ⟨ha1, ha2⟩ := arg_bounds S h hS (le_of_lt hh)
    obtain ⟨hd1, hd2⟩ := d1_shift_bounds S K r q sigma T h hS hK hs hT
    have habs : 0 < Complex.abs ⟨S, h⟩ := lt_of_lt_of_le hS hm1
    have hrho := d1_sub (Complex.abs ⟨S, h⟩) S K r q sigma T habs hS hK
    set a := sigma * Real.sqrt T with ha
    set m := Complex.abs ⟨S, h⟩ with hm
    set th := Complex.arg ⟨S, h⟩ with hth
    set d := d1 S K r q sigma T with hd
    set rho := d1 m K r q sigma T - d with hrhodef
    have hDeq : d1 m K r q sigma T = d + rho := by rw [hrhodef]; ring
    have hexp : Real.exp (a * rho) = m / S := by
      rw [hrho, mul_div_cancel₀ _ (ne_of_gt ha0), Real.exp_log (div_pos habs hS)]
    -- the bracket
    obtain ⟨hB1, hB2⟩ := price_bracket_bounds S K r q sigma T rho hS hK hs hT hd1
    rw [hexp] at hB1
    set B := forward S r q T * (Phi (d + rho) - Phi d) -
      K * (Phi (d + rho - a) - Phi (d - a)) with hBdef
    have hFm : forward S r q T * (m / S - 1) = Real.exp ((r - q) * T) * (m - S) := by
      delta forward; field_simp; ring
    rw [hFm] at hB1
    have hBabs : |B| ≤ Real.exp ((r - q) * T) * (h ^ 2 / (2 * S)) * (h ^ 2 / (2 * S ^ 2 * a)) := by
      rw [abs_of_nonpos hB2]
      have : Real.exp ((r - q) * T) * (m - S) * rho ≤
          Real.exp ((r - q) * T) * (h ^ 2 / (2 * S)) * (h ^ 2 / (2 * S ^ 2 * a)) :=
        mul_le_mul (mul_le_mul_of_nonneg_left hm2 (le_of_lt hE)) hd2 hd1 (by positivity)
      exact le_trans (neg_le.mp hB1) this
    -- the factor tau = arg * S / h
    set tau := th * S / h with htau
    have htau1 : tau ≤ 1 := by
      rw [htau, div_le_one hh]
      have := mul_le_mul_of_nonneg_right ha2 (le_of_lt hS)
      rwa [div_mul_cancel₀ _ (ne_of_gt hS)] at this
    have htau0 : 1 - tau ≤ h ^ 2 / (2 * S ^ 2) := by
      have h1 : S / m ≤ tau := by
        rw [htau, le_div_iff₀ hh]
        have := mul_le_mul_of_nonneg_right ha1 (le_of_lt hS)
        calc S / m * h = h / m * S := by ring
          _ ≤ th * S := this
      have h2 : 1 - S / m ≤ h ^ 2 / (2 * S ^ 2) := by
        have e : 1 - S / m = (m - S) / m := by field_simp
        rw [e]
        calc (m - S) / m ≤ (m - S) / S :=
              div_le_div_of_nonneg_left (by linarith) hS hm1
          _ ≤ h ^ 2 / (2 * S) / S := div_le_div_of_nonneg_right hm2 (le_of_lt hS)
          _ = h ^ 2 / (2 * S ^ 2) := by field_simp; ring
      linarith
    have htaunn : 0 ≤ tau := by
      rw [htau]
      have : 0 ≤ th := Complex.arg_nonneg_iff.mpr (le_of_lt hh)
      positivity
    set X := tau * phi (d + rho) - phi d with hX
    have hXabs : |X| ≤ h ^ 2 / (2 * S ^ 2 * a) + h ^ 2 / (2 * S ^ 2) := by
      have hl := phi_lipschitz d (d + rho)
      have e : d + rho - d = rho := by ring
      rw [e, abs_of_nonneg hd1] at hl
      have hp0 := phi_nonneg d
      have hp1 := phi_le_one d
      have e2 : X = tau * (phi (d + rho) - phi d) - (1 - tau) * phi d := by rw [hX]; ring
      have h3 : |tau * (phi (d + rho) - phi d)| ≤ rho := by
        rw [abs_mul, abs_of_nonneg htaunn]
        calc tau * |phi (d + rho) - phi d| ≤ 1 * rho :=
              mul_le_mul htau1 hl (abs_nonneg _) (by norm_num)
          _ = rho := one_mul _
      have h4 : |(1 - tau) * phi d| ≤ h ^ 2 / (2 * S ^ 2) := by
        rw [abs_mul, abs_of_nonneg (by linarith : (0 : ℝ) ≤ 1 - tau), abs_of_nonneg hp0]
        calc (1 - tau) * phi d ≤ h ^ 2 / (2 * S ^ 2) * 1 :=
              mul_le_mul htau0 hp1 hp0 (by positivity)
          _ = h ^ 2 / (2 * S ^ 2) := mul_one _
      rw [e2]
      calc |tau * (phi (d + rho) - phi d) - (1 - tau) * phi d|
          ≤ |tau * (phi (d + rho) - phi d)| + |(1 - tau) * phi d| := abs_sub _ _
        _ ≤ rho + h ^ 2 / (2 * S ^ 2) := add_le_add h3 h4
        _ ≤ h ^ 2 / (2 * S ^ 2 * a) + h ^ 2 / (2 * S ^ 2) := by linarith
    -- the estimator in closed form
    have hval : gamma_complex_step S K r q sigma T h -
        2 * (Real.exp (-q * T) * phi d / (S * a)) =
        2 * Real.exp (-q * T) / (S * a) * X - 2 * Real.exp (-r * T) / (h * h) * B := by
      delta gamma_complex_step
      simp only []
      rw [(bs_price_call_complex_re_im ⟨S, h⟩ K r q sigma T hz hK hs hT).1]
      simp only [← hm, ← hth, ← ha, hDeq]
      have hprice : bs_price_call S K r q sigma T =
          Real.exp (-r * T) * (forward S r q T * Phi d - K * Phi (d - a)) := rfl
      rw [hprice, hX, hBdef, htau, hEqE]
      delta forward
      field_simp
      ring
    rw [hval]
    have hT1 : |2 * Real.exp (-q * T) / (S * a) * X| ≤
        2 * Real.exp (-q * T) / (S * a) * (h ^ 2 / (2 * S ^ 2 * a) + h ^ 2 / (2 * S ^ 2)) := by
      rw [abs_mul, abs_of_nonneg (by positivity : 0 ≤ 2 * Real.exp (-q * T) / (S * a))]
      exact mul_le_mul_of_nonneg_left hXabs (by positivity)
    have hT2 : |2 * Real.exp (-r * T) / (h * h) * B| ≤
        2 * Real.exp (-r * T) / (h * h) *
          (Real.exp ((r - q) * T) * (h ^ 2 / (2 * S)) * (h ^ 2 / (2 * S ^ 2 * a))) := by
      rw [abs_mul, abs_of_nonneg (by positivity : 0 ≤ 2 * Real.exp (-r * T) / (h * h))]
      exact mul_le_mul_of_nonneg_left hBabs (by positivity)
    calc |2 * Real.exp (-q * T) / (S * a) * X - 2 * Real.exp (-r * T) / (h * h) * B|
        ≤ |2 * Real.exp (-q * T) / (S * a) * X| + |2 * Real.exp (-r * T) / (h * h) * B| :=
          abs_sub _ _
      _ ≤ 2 * Real.exp (-q * T) / (S * a) * (h ^ 2 / (2 * S ^ 2 * a) + h ^ 2 / (2 * S ^ 2)) +
          2 * Real.exp (-r * T) / (h * h) *
            (Real.exp ((r - q) * T) * (h ^ 2 / (2 * S)) * (h ^ 2 / (2 * S ^ 2 * a))) :=
          add_le_add hT1 hT2
      _ = Real.exp (-q * T) * (3 / 2 + 1 / a) / (S ^ 3 * a) * h ^ 2 := by
          rw [hEqE]
          field_simp
          ring
  -- Error of the 45° complex-step gamma against the analytic gamma `e^{-qT}·φ(d1)/(S·σ√T)`,
  -- first-order bound valid for every step with `0 < h/√2 ≤ S/2`.
  have gamma_complex_step_45deg_error (S K r q sigma T h : ℝ) (hS : 0 < S) (hK : 0 < K)
      (hs : 0 < sigma) (hT : 0 < T) (hh : 0 < h) (hc2 : h * inv_sqrt2 ≤ S / 2) :
      |gamma_complex_step_45deg S K r q sigma T h -
          Real.exp (-q * T) * phi (d1 S K r q sigma T) / (S * (sigma * Real.sqrt T))| ≤
        Real.exp (-q * T) * (4 / (sigma * Real.sqrt T) ^ 2 + 3 / (sigma * Real.sqrt T)) / S ^ 2 *
          (h * inv_sqrt2) := by
    have ha0 : 0 < sigma * Real.sqrt T := mul_pos hs (Real.sqrt_pos.mpr hT)
    have hEq : 0 < Real.exp (-q * T) := Real.exp_pos _
    have hc0 : 0 < inv_sqrt2 := by delta inv_sqrt2; positivity
    have hcpos : 0 < h * inv_sqrt2 := mul_pos hh hc0
    have hhh : h * h = 2 * (h * inv_sqrt2) ^ 2 := by
      have := inv_sqrt2_sq
      calc h * h = 2 * (h * h * (1 / 2)) := by ring
        _ = 2 * (h * h * (inv_sqrt2 * inv_sqrt2)) := by rw [this]
        _ = 2 * (h * inv_sqrt2) ^ 2 := by ring
    rw [gamma_complex_step_45deg_eq S K r q sigma T h hK hs hT hh (by linarith), hhh]
    set c := h * inv_sqrt2 with hcdef
    set a := sigma * Real.sqrt T with ha
    set d := d1 S K r q sigma T with hd
    have hxp : 0 < S + c := by linarith
    have hxm : 0 < S - c := by linarith
    obtain ⟨hmp1, -⟩ := abs_sub_re_bounds (S + c) c hxp
    obtain ⟨hmm1, -⟩ := abs_sub_re_bounds (S - c) c hxm
    have hmp : 0 < Complex.abs ⟨S + c, c⟩ := lt_of_lt_of_le hxp hmp1
    have hmm : 0 < Complex.abs ⟨S - c, c⟩ := lt_of_lt_of_le hxm hmm1
    obtain ⟨hJp0, hJp1⟩ := im_core_correction_bounds (S + c) c K r q sigma T hxp (le_of_lt hcpos)
      hs hT
    obtain ⟨hJm0, hJm1⟩ := im_core_correction_bounds (S - c) c K r q sigma T hxm (le_of_lt hcpos)
      hs hT
    obtain ⟨hlp1, hlp2⟩ := log_abs_upper_bounds S c hS (le_of_lt hcpos)
    obtain ⟨hlm1, hlm2⟩ := log_abs_lower_bounds S c hS (le_of_lt hcpos) hc2
    have hDp := d1_sub (Complex.abs ⟨S + c, c⟩) S K r q sigma T hmp hS hK
    have hDm := d1_sub S (Complex.abs ⟨S - c, c⟩) K r q sigma T hS hmm hK
    delta im_core
    rw [← ha]
    set Dp := d1 (Complex.abs ⟨S + c, c⟩) K r q sigma T with hDpdef
    set Dm := d1 (Complex.abs ⟨S - c, c⟩) K r q sigma T with hDmdef
    set Jp := Complex.arg ⟨S + c, c⟩ / a * phi Dp * (Complex.abs ⟨S + c, c⟩ - (S + c)) with hJp
    set Jm := Complex.arg ⟨S - c, c⟩ / a * phi Dm * (Complex.abs ⟨S - c, c⟩ - (S - c)) with hJm
    set rp := Real.log (Complex.abs ⟨S + c, c⟩ / S) with hrp
    set rm := Real.log (S / Complex.abs ⟨S - c, c⟩) with hrm
    clear_value Jp Jm rp rm Dp Dm
    -- elementary size facts, with u = c / S
    have hu0 : 0 < c / S := div_pos hcpos hS
    have hu1 : c / S ≤ 1 / 2 := by rw [div_le_iff₀ hS]; linarith
    have hu2 : c ^ 2 / S ^ 2 = (c / S) ^ 2 := by rw [div_pow]
    have hu3 : (c / S) ^ 2 ≤ 1 / 2 * (c / S) := by
      have := mul_le_mul_of_nonneg_right hu1 (le_of_lt hu0)
      rw [sq]
      exact this
    have e1 : c ^ 2 / (2 * S ^ 2) = (c / S) ^ 2 / 2 := by rw [div_pow]; ring
    have e2 : 2 * c ^ 2 / S ^ 2 = 2 * (c / S) ^ 2 := by rw [div_pow]; ring
    rw [hu2] at hlp1 hlm1
    rw [e1] at hlp2
    rw [e2] at hlm2
    have hu5 : 0 ≤ (c / S) ^ 2 := sq_nonneg _
    have hrp0 : 0 ≤ rp := by linarith
    have hrm0 : 0 ≤ rm := by linarith
    have hrp2 : rp ≤ 2 * (c / S) := by linarith
    have hrm2 : rm ≤ 2 * (c / S) := by linarith
    have hsum1 : 2 * (c / S) - 2 * (c / S) ^ 2 ≤ rp + rm := by linarith
    have hsum2 : rp + rm ≤ 2 * (c / S) + 5 / 2 * (c / S) ^ 2 := by linarith
    -- the first-order expansion of Phi
    have hDpd : Dp - d = rp / a := hDp
    have hdDm : d - Dm = rm / a := hDm
    have hDmp : Dm ≤ Dp := by
      have h1 : 0 ≤ rp / a := div_nonneg hrp0 (le_of_lt ha0)
      have h2 : 0 ≤ rm / a := div_nonneg hrm0 (le_of_lt ha0)
      linarith
    have hR1 : |Dm - d| ≤ 2 * (c / S) / a := by
      have : Dm - d = -(rm / a) := by linarith
      rw [this, abs_neg, abs_of_nonneg (div_nonneg hrm0 (le_of_lt ha0))]
      exact div_le_div_of_nonneg_right hrm2 (le_of_lt ha0)
    have hR2 : |Dp - d| ≤ 2 * (c / S) / a := by
      rw [hDpd, abs_of_nonneg (div_nonneg hrp0 (le_of_lt ha0))]
      exact div_le_div_of_nonneg_right hrp2 (le_of_lt ha0)
    have hlin := Phi_sub_linear Dm Dp d (2 * (c / S) / a) hDmp hR1 hR2
    have hDelta : Dp - Dm = (rp + rm) / a := by
      have : Dp - Dm = (Dp - d) + (d - Dm) := by ring
      rw [this, hDpd, hdDm]; ring
    rw [hDelta] at hlin
    -- decomposition of the error
    set E1 := Phi Dp - Phi Dm - (rp + rm) / a * phi d with hE1
    have hp0 := phi_nonneg d
    have hp1 := phi_le_one d
    have hval : Real.exp (-q * T) * (c * Phi Dp - Jp - (c * Phi Dm - Jm)) / (2 * c ^ 2) -
        Real.exp (-q * T) * phi d / (S * a) =
        Real.exp (-q * T) * (E1 / (2 * c) + phi d * ((rp + rm - 2 * (c / S)) / (2 * c * a)) +
          (Jm - Jp) / (2 * c ^ 2)) := by
      rw [hE1]
      field_simp
      ring
    rw [hval, abs_mul, abs_of_pos hEq]
    have hb1 : |E1 / (2 * c)| ≤ 4 / a ^ 2 * (c / S ^ 2) := by
      rw [abs_div, abs_of_pos (by positivity : 0 < 2 * c), div_le_iff₀ (by positivity)]
      refine le_trans hlin ?_
      have h1 : (rp + rm) / a ≤ 4 * (c / S) / a :=
        div_le_div_of_nonneg_right (by linarith) (le_of_lt ha0)
      calc (rp + rm) / a * (2 * (c / S) / a) ≤ 4 * (c / S) / a * (2 * (c / S) / a) :=
            mul_le_mul_of_nonneg_right h1 (by positivity)
        _ = 4 / a ^ 2 * (c / S ^ 2) * (2 * c) := by field_simp; ring
    have hb2 : |phi d * ((rp + rm - 2 * (c / S)) / (2 * c * a))| ≤ 5 / 4 / a * (c / S ^ 2) := by
      rw [abs_mul, abs_of_nonneg hp0, abs_div, abs_of_pos (by positivity : 0 < 2 * c * a)]
      have h1 : |rp + rm - 2 * (c / S)| ≤ 5 / 2 * (c / S) ^ 2 := by
        rw [abs_le]; constructor <;> linarith
      have h2 : |rp + rm - 2 * (c / S)| / (2 * c * a) ≤ 5 / 2 * (c / S) ^ 2 / (2 * c * a) :=
        div_le_div_of_nonneg_right h1 (by positivity)
      calc phi d * (|rp + rm - 2 * (c / S)| / (2 * c * a))
          ≤ 1 * (5 / 2 * (c / S) ^ 2 / (2 * c * a)) :=
            mul_le_mul hp1 h2 (by positivity) (by norm_num)
        _ = 5 / 4 / a * (c / S ^ 2) := by field_simp; ring
    have hb3 : |(Jm - Jp) / (2 * c ^ 2)| ≤ 1 / a * (c / S ^ 2) := by
      rw [abs_div, abs_of_pos (by positivity : 0 < 2 * c ^ 2), div_le_iff₀ (by positivity)]
      have h1 : Jp ≤ 2 * c ^ 3 / (a * S ^ 2) :=
        le_trans hJp1 (cube_div_upper a S c ha0 hS (le_of_lt hcpos))
      have h2 : Jm ≤ 2 * c ^ 3 / (a * S ^ 2) :=
        le_trans hJm1 (cube_div_lower a S c ha0 hS (le_of_lt hcpos) hc2)
      have h5 : 1 / a * (c / S ^ 2) * (2 * c ^ 2) = 2 * c ^ 3 / (a * S ^ 2) := by
        field_simp; ring
      rw [h5, abs_le]
      constructor
      · linarith only [h1, h2, hJp0, hJm0]
      · linarith only [h1, h2, hJp0, hJm0]
    have hc3 : 0 ≤ c / S ^ 2 := by positivity
    calc Real.exp (-q * T) * |E1 / (2 * c) + phi d * ((rp + rm - 2 * (c / S)) / (2 * c * a)) +
          (Jm - Jp) / (2 * c ^ 2)|
        ≤ Real.exp (-q * T) * (4 / a ^ 2 * (c / S ^ 2) + 5 / 4 / a * (c / S ^ 2) +
            1 / a * (c / S ^ 2)) := by
          apply mul_le_mul_of_nonneg_left _ (le_of_lt hEq)
          exact le_trans (abs_add_three _ _ _) (add_le_add (add_le_add hb1 hb2) hb3)
      _ ≤ Real.exp (-q * T) * (4 / a ^ 2 + 3 / a) / S ^ 2 * c := by
          have h6 : 0 ≤ 1 / a * (c / S ^ 2) := by positivity
          have h7 : Real.exp (-q * T) * (4 / a ^ 2 + 3 / a) / S ^ 2 * c =
              Real.exp (-q * T) * (4 / a ^ 2 * (c / S ^ 2) + 3 * (1 / a * (c / S ^ 2))) := by
            field_simp
            ring
          rw [h7]
          apply mul_le_mul_of_nonneg_left _ (le_of_lt hEq)
          have h8 : 5 / 4 / a * (c / S ^ 2) = 5 / 4 * (1 / a * (c / S ^ 2)) := by ring
          rw [h8]
          linarith
  -- At `S = K = 100`, `r = 0`, `q = 0.005`, `σ = 0.1`, `T = 1` (where `d1 = 0`) the 45°
  -- complex-step gamma lies below the analytic gamma by at least a fixed multiple of `h²`, for every
  -- step with `0 < h/√2 ≤ 1`.
  have gamma_45deg_flat_error (h : ℝ) (hh : 0 < h) (hc1 : h * inv_sqrt2 ≤ 1) :
      gamma_complex_step_45deg 100 100 0 0.005 0.1 1 h -
          Real.exp (-0.005 * 1) * phi (d1 100 100 0 0.005 0.1 1) / (100 * (0.1 * Real.sqrt 1)) ≤
        -(24 * Real.exp (-0.005 * 1) * phi 0 / 10 ^ 6) * h ^ 2 := by
    have hEq : 0 < Real.exp (-0.005 * 1) := Real.exp_pos _
    have hi0 : 0 < inv_sqrt2 := by delta inv_sqrt2; positivity
    have hcpos : 0 < h * inv_sqrt2 := mul_pos hh hi0
    have hhh : h * h = 2 * (h * inv_sqrt2) ^ 2 := by
      have := inv_sqrt2_sq
      calc h * h = 2 * (h * h * (1 / 2)) := by ring
        _ = 2 * (h * h * (inv_sqrt2 * inv_sqrt2)) := by rw [this]
        _ = 2 * (h * inv_sqrt2) ^ 2 := by ring
    have hh2 : h ^ 2 = 2 * (h * inv_sqrt2) ^ 2 := by rw [← hhh]; ring
    rw [gamma_complex_step_45deg_eq 100 100 0 0.005 0.1 1 h (by norm_num) (by norm_num)
      (by norm_num) hh (by linarith), hhh, hh2, d1_flat_scenario]
    obtain ⟨u, hu⟩ : ∃ u : ℝ, h * inv_sqrt2 = 100 * u := ⟨h * inv_sqrt2 / 100, by ring⟩
    rw [hu] at hcpos hc1 ⊢
    have hu0 : 0 < u := by linarith
    have hu1 : u ≤ 1 / 100 := by linarith
    have hxp : (0 : ℝ) < 100 + 100 * u := by linarith
    have hxm : (0 : ℝ) < 100 - 100 * u := by linarith
    obtain ⟨hmp1, -⟩ := abs_sub_re_bounds (100 + 100 * u) (100 * u) hxp
    obtain ⟨hmm1, -⟩ := abs_sub_re_bounds (100 - 100 * u) (100 * u) hxm
    have hmp : 0 < Complex.abs ⟨100 + 100 * u, 100 * u⟩ := lt_of_lt_of_le hxp hmp1
    have hmm : 0 < Complex.abs ⟨100 - 100 * u, 100 * u⟩ := lt_of_lt_of_le hxm hmm1
    obtain ⟨hJp, -⟩ := im_core_correction_refined (100 + 100 * u) (100 * u) 100 0 0.005 0.1 1 hxp
      (le_of_lt hcpos) (by norm_num) (by norm_num)
    obtain ⟨-, hJm⟩ := im_core_correction_refined (100 - 100 * u) (100 * u) 100 0 0.005 0.1 1 hxm
      (le_of_lt hcpos) (by norm_num) (by norm_num)
    obtain ⟨hlp1, hlp2⟩ := log_abs_upper_bounds 100 (100 * u) (by norm_num) (le_of_lt hcpos)
    obtain ⟨hlm1, -⟩ := log_abs_lower_bounds 100 (100 * u) (by norm_num) (le_of_lt hcpos)
      (by linarith)
    have hsum := log_abs_ratio_le 100 (100 * u) (by norm_num) (le_of_lt hcpos) (by linarith)
    have hDp := d1_sub (Complex.abs ⟨100 + 100 * u, 100 * u⟩) 100 100 0 0.005 0.1 1 hmp
      (by norm_num) (by norm_num)
    have hDm := d1_sub 100 (Complex.abs ⟨100 - 100 * u, 100 * u⟩) 100 0 0.005 0.1 1
      (by norm_num) hmm (by norm_num)
    rw [d1_flat_scenario] at hDp hDm
    delta im_core
    rw [Real.sqrt_one] at hJp hJm hDp hDm ⊢
    set Dp := d1 (Complex.abs ⟨100 + 100 * u, 100 * u⟩) 100 0 0.005 0.1 1 with hDpdef
    set Dm := d1 (Complex.abs ⟨100 - 100 * u, 100 * u⟩) 100 0 0.005 0.1 1 with hDmdef
    set Jp := Complex.arg ⟨100 + 100 * u, 100 * u⟩ / (0.1 * 1) * phi Dp *
      (Complex.abs ⟨100 + 100 * u, 100 * u⟩ - (100 + 100 * u)) with hJpdef
    set Jm := Complex.arg ⟨100 - 100 * u, 100 * u⟩ / (0.1 * 1) * phi Dm *
      (Complex.abs ⟨100 - 100 * u, 100 * u⟩ - (100 - 100 * u)) with hJmdef
    set rp := Real.log (Complex.abs ⟨100 + 100 * u, 100 * u⟩ / 100) with hrp
    set rm := Real.log (100 / Complex.abs ⟨100 - 100 * u, 100 * u⟩) with hrm
    clear_value Jp Jm rp rm
    have hDp' : Dp = 10 * rp := by
      have : Dp = rp / (0.1 * 1) := by linarith
      rw [this]; norm_num; ring
    have hDm' : Dm = -(10 * rm) := by
      have : Dm = -(rm / (0.1 * 1)) := by linarith
      rw [this]; norm_num; ring
    clear_value Dp Dm
    subst hDp' hDm'
    have e1 : 100 * u / 100 = u := by ring
    have e2 : (100 * u) ^ 2 / 100 ^ 2 = u ^ 2 := by ring
    have e3 : (100 * u) ^ 2 / (2 * 100 ^ 2) = u ^ 2 / 2 := by ring
    rw [e1, e2] at hlp1 hlm1
    rw [e1, e3] at hlp2
    rw [e1] at hsum
    have hu2 : u ^ 2 ≤ u / 2 := by nlinarith
    have hsplit := Phi_symmetric_split (-(10 * rm)) (10 * rp) (5 * u) (by linarith)
      (by linarith) (by linarith)
    have hdrop := phi_zero_sub_ge (5 * u)
    have hquad := phi_ge_quadratic (10 * rp)
    have e4 : (10 * rp - -(10 * rm)) = 10 * rp + 10 * rm := by ring
    rw [e4] at hsplit
    have e5 : (2 * (0.1 * 1) : ℝ) = 2 * (1 / 10) := by norm_num
    rw [e5] at hJp hJm
    have key := assemble_flat u (phi 0) (phi (5 * u)) (phi (10 * rp))
      (Phi (10 * rp) - Phi (-(10 * rm))) Jp Jm rp rm hu0 hu1 (phi_nonneg 0) (phi_nonneg _)
      hlp1 hlp2 hsum hsplit hdrop hquad hJp hJm
    set P := Phi (10 * rp) with hP
    set Q := Phi (-(10 * rm)) with hQ
    set p0 := phi 0 with hp0
    set E := Real.exp (-0.005 * 1) with hE
    clear_value P Q p0 E
    have hval : E * (100 * u * P - Jp - (100 * u * Q - Jm)) / (2 * (100 * u) ^ 2) -
        E * p0 / (100 * (0.1 * 1)) =
        E / (2 * (100 * u) ^ 2) * (100 * u * (P - Q) - Jp + Jm - (100 * u) ^ 2 / 5 * p0) := by
      field_simp
      ring
    rw [hval]
    have hpos : 0 ≤ E / (2 * (100 * u) ^ 2) := by positivity
    calc E / (2 * (100 * u) ^ 2) * (100 * u * (P - Q) - Jp + Jm - (100 * u) ^ 2 / 5 * p0)
        ≤ E / (2 * (100 * u) ^ 2) * -(96 * (100 * u) ^ 4 * p0 / 10 ^ 6) :=
          mul_le_mul_of_nonneg_left key hpos
      _ = -(24 * E * p0 / 10 ^ 6) * (2 * (100 * u) ^ 2) := by
          field_simp
          ring
  exact ⟨delta_complex_step_error, gamma_complex_step_error, gamma_complex_step_45deg_error,
    gamma_45deg_flat_error⟩

/-! ## Derivatives of the price in the spot and the forward difference -/

set_option maxHeartbeats 0 in
/-- The modelled price has the spot derivative delta, delta has the spot derivative gamma;
second-order bounds for the forward difference.  The components are, in order: `log_hasDerivAt`,
`d1_hasDerivAt`, `bs_price_call_hasDerivAt`, `delta_hasDerivAt`, `forward_difference_bounds`,
`delta_fwd_error_bounds`, `delta_strictMonoOn`, `bs_price_call_strictConvexOn`,
`delta_fwd_strictMono`, `delta_fwd_ge_delta`. -/
theorem forward_difference_facts :
    (∀ (x : ℝ) (hx : 0 < x),
        HasDerivAt Real.log x⁻¹ x) ∧
    (∀ (x K r q sigma T : ℝ) (hx : 0 < x) (hK : 0 < K) (hs : 0 < sigma) (hT : 0 < T),
        HasDerivAt (fun y => d1 y K r q sigma T) (1 / (x * (sigma * Real.sqrt T))) x) ∧
    (∀ (x K r q sigma T : ℝ) (hx : 0 < x) (hK : 0 < K) (hs : 0 < sigma) (hT : 0 < T),
        HasDerivAt (fun y => bs_price_call y K r q sigma T)
        (Real.exp (-q * T) * Phi (d1 x K r q sigma T)) x) ∧
    (∀ (x K r q sigma T : ℝ) (hx : 0 < x) (hK : 0 < K) (hs : 0 < sigma) (hT : 0 < T),
        HasDerivAt (fun y => Real.exp (-q * T) * Phi (d1 y K r q sigma T))
        (Real.exp (-q * T) * phi (d1 x K r q sigma T) / (x * (sigma * Real.sqrt T))) x) ∧
    (∀ (f f1 f2 : ℝ → ℝ) (x h m M : ℝ) (hh : 0 < h) (hf : ∀ t ∈ Set.Icc x (x + h), HasDerivWithinAt f (f1 t) (Set.Icc x (x + h)) t) (hf1 : ∀ t ∈ Set.Icc x (x + h), HasDerivWithinAt f1 (f2 t) (Set.Icc x (x + h)) t) (hm : ∀ t ∈ Set.Icc x (x + h), m ≤ f2 t) (hM : ∀ t ∈ Set.Icc x (x + h), f2 t ≤ M),
        m * h / 2 ≤ classical_forward_difference f x h - f1 x ∧
        classical_forward_difference f x h - f1 x ≤ M * h / 2) ∧
    (∀ (S K r q sigma T h m M : ℝ) (hS : 0 < S) (hK : 0 < K) (hs : 0 < sigma) (hT : 0 < T) (hh : 0 < h) (hm : ∀ x ∈ Set.Icc S (S + h), m ≤ Real.exp (-q * T) * phi (d1 x K r q sigma T) / (x * (sigma * Real.sqrt T))) (hM : ∀ x ∈ Set.Icc S (S + h), Real.exp (-q * T) * phi (d1 x K r q sigma T) / (x * (sigma * Real.sqrt T)) ≤ M),
        m * h / 2 ≤ delta_fwd S K r q sigma T h - Real.exp (-q * T) * Phi (d1 S K r q sigma T) ∧
        delta_fwd S K r q sigma T h - Real.exp (-q * T) * Phi (d1 S K r q sigma T) ≤
        M * h / 2) ∧
    (∀ (K r q sigma T : ℝ) (hK : 0 < K) (hs : 0 < sigma) (hT : 0 < T),
        StrictMonoOn (fun y => Real.exp (-q * T) * Phi (d1 y K r q sigma T)) (Set.Ioi 0)) ∧
    (∀ (K r q sigma T : ℝ) (hK : 0 < K) (hs : 0 < sigma) (hT : 0 < T),
        StrictConvexOn ℝ (Set.Ioi 0) (fun y => bs_price_call y K r q sigma T)) ∧
    (∀ (S K r q sigma T h1 h2 : ℝ) (hS : 0 < S) (hK : 0 < K) (hs : 0 < sigma) (hT : 0 < T) (h1pos : 0 < h1) (h12 : h1 < h2),
        delta_fwd S K r q sigma T h1 < delta_fwd S K r q sigma T h2) ∧
    (∀ (S K r q sigma T h : ℝ) (hS : 0 < S) (hK : 0 < K) (hs : 0 < sigma) (hT : 0 < T) (hh : 0 < h),
        0 ≤ delta_fwd S K r q sigma T h - Real.exp (-q * T) * Phi (d1 S K r q sigma T)) := by
  obtain ⟨-, -, -, -, -, phi_nonneg, -, -, -, -, -, -, -, -, -, -, -, -⟩ := analytic_greeks_facts
  obtain ⟨-, phi_d1_shift, d1_sub, -, -, -, -, -, -, -, -, gamma_le_right, -, -, -, -, -, -, -,
    -⟩ := density_facts
  obtain ⟨-, Phi_hasDerivAt, sub_le_of_derivWithin_le, le_sub_of_le_derivWithin, -, -, -, -, -,
    -, -, -, Phi_strictMono, -, -⟩ := distribution_facts
  -- Derivative of the natural logarithm at a positive point.
  have log_hasDerivAt (x : ℝ) (hx : 0 < x) : HasDerivAt Real.log x⁻¹ x := by
    have h := HasDerivAt.of_local_left_inverse (Real.continuousAt_log (ne_of_gt hx))
      (Real.hasDerivAt_exp (Real.log x)) (ne_of_gt (Real.exp_pos _))
      (Filter.Eventually.mono (lt_mem_nhds hx) (fun y hy => Real.exp_log hy))
    rw [Real.exp_log hx] at h
    exact h
  -- Derivative of `d1` in the spot: `1/(x·σ√T)`.
  have d1_hasDerivAt (x K r q sigma T : ℝ) (hx : 0 < x) (hK : 0 < K) (hs : 0 < sigma)
      (hT : 0 < T) :
      HasDerivAt (fun y => d1 y K r q sigma T) (1 / (x * (sigma * Real.sqrt T))) x := by
    have ha0 : 0 < sigma * Real.sqrt T := mul_pos hs (Real.sqrt_pos.mpr hT)
    have hE : 0 < Real.exp ((r - q) * T) := Real.exp_pos _
    have h1 : HasDerivAt (fun y : ℝ => y * Real.exp ((r - q) * T) / K)
        (Real.exp ((r - q) * T) / K) x := by
      have := ((hasDerivAt_id x).mul_const (Real.exp ((r - q) * T))).div_const K
      simpa using this
    have hpos : 0 < x * Real.exp ((r - q) * T) / K := div_pos (mul_pos hx hE) hK
    have h2 := (((log_hasDerivAt _ hpos).comp x h1).add_const (1 / 2 * sigma ^ 2 * T)).div_const
      (sigma * Real.sqrt T)
    delta d1 forward
    convert h2 using 1
    field_simp
    ring
  -- Derivative of the modelled price in the spot: the delta `e^{-qT}·Φ(d1)`.
  have bs_price_call_hasDerivAt (x K r q sigma T : ℝ) (hx : 0 < x) (hK : 0 < K)
      (hs : 0 < sigma) (hT : 0 < T) :
      HasDerivAt (fun y => bs_price_call y K r q sigma T)
        (Real.exp (-q * T) * Phi (d1 x K r q sigma T)) x := by
    have ha0 : 0 < sigma * Real.sqrt T := mul_pos hs (Real.sqrt_pos.mpr hT)
    have hd := d1_hasDerivAt x K r q sigma T hx hK hs hT
    have hP1 : HasDerivAt (fun y => Phi (d1 y K r q sigma T))
        (phi (d1 x K r q sigma T) * (1 / (x * (sigma * Real.sqrt T)))) x :=
      (Phi_hasDerivAt _).comp x hd
    have hP2 : HasDerivAt (fun y => Phi (d1 y K r q sigma T - sigma * Real.sqrt T))
        (phi (d1 x K r q sigma T - sigma * Real.sqrt T) *
          (1 / (x * (sigma * Real.sqrt T)))) x :=
      (Phi_hasDerivAt _).comp x (hd.sub_const _)
    have hF : HasDerivAt (fun y : ℝ => y * Real.exp ((r - q) * T))
        (Real.exp ((r - q) * T)) x := by
      simpa using (hasDerivAt_id x).mul_const (Real.exp ((r - q) * T))
    have hall := ((hF.mul hP1).sub (hP2.const_mul K)).const_mul (Real.exp (-r * T))
    have hfun : (fun y => bs_price_call y K r q sigma T) =
        fun y => Real.exp (-r * T) * ((y * Real.exp ((r - q) * T)) * Phi (d1 y K r q sigma T) -
          K * Phi (d1 y K r q sigma T - sigma * Real.sqrt T)) := by
      funext y
      rfl
    rw [hfun]
    convert hall using 1
    have hsh := phi_d1_shift x K r q sigma T hx hK hs hT
    have hEq : Real.exp (-q * T) = Real.exp (-r * T) * Real.exp ((r - q) * T) := by
      rw [← Real.exp_add]; congr 1; ring
    have e1 : K * (phi (d1 x K r q sigma T - sigma * Real.sqrt T) *
        (1 / (x * (sigma * Real.sqrt T)))) =
        (K * phi (d1 x K r q sigma T - sigma * Real.sqrt T)) *
          (1 / (x * (sigma * Real.sqrt T))) := by ring
    rw [e1, hsh, hEq]
    delta forward
    field_simp
    ring
  -- Derivative of the delta `e^{-qT}·Φ(d1)` in the spot: the gamma `e^{-qT}·φ(d1)/(S·σ√T)`.
  have delta_hasDerivAt (x K r q sigma T : ℝ) (hx : 0 < x) (hK : 0 < K) (hs : 0 < sigma)
      (hT : 0 < T) :
      HasDerivAt (fun y => Real.exp (-q * T) * Phi (d1 y K r q sigma T))
        (Real.exp (-q * T) * phi (d1 x K r q sigma T) / (x * (sigma * Real.sqrt T))) x := by
    have hd := d1_hasDerivAt x K r q sigma T hx hK hs hT
    have h := (((Phi_hasDerivAt _).comp x hd).const_mul (Real.exp (-q * T)))
    convert h using 1
    ring
  -- Second-order bounds for the generic forward difference: if `f` has the derivative `f1` and
  -- `f1` has the derivative `f2` on `[x, x+h]`, and `m ≤ f2 ≤ M` there, then
  -- `m·h/2 ≤ (f(x+h) − f(x))/h − f1(x) ≤ M·h/2`.
  have forward_difference_bounds (f f1 f2 : ℝ → ℝ) (x h m M : ℝ) (hh : 0 < h)
      (hf : ∀ t ∈ Set.Icc x (x + h), HasDerivWithinAt f (f1 t) (Set.Icc x (x + h)) t)
      (hf1 : ∀ t ∈ Set.Icc x (x + h), HasDerivWithinAt f1 (f2 t) (Set.Icc x (x + h)) t)
      (hm : ∀ t ∈ Set.Icc x (x + h), m ≤ f2 t) (hM : ∀ t ∈ Set.Icc x (x + h), f2 t ≤ M) :
      m * h / 2 ≤ classical_forward_difference f x h - f1 x ∧
        classical_forward_difference f x h - f1 x ≤ M * h / 2 := by
    have hxh : x + h ∈ Set.Icc x (x + h) := ⟨by linarith, le_refl _⟩
    have hx : x ∈ Set.Icc x (x + h) := ⟨le_refl _, by linarith⟩
    -- first derivative against its value at x
    have hup1 : ∀ t ∈ Set.Icc x (x + h), f1 t - f1 x ≤ M * (t - x) :=
      sub_le_of_derivWithin_le f1 f2 x (x + h) M hf1 hM
    have hlo1 : ∀ t ∈ Set.Icc x (x + h), m * (t - x) ≤ f1 t - f1 x :=
      le_sub_of_le_derivWithin f1 f2 x (x + h) m hf1 hm
    -- the function minus its quadratic comparison
    have hG : ∀ c : ℝ, ∀ t ∈ Set.Icc x (x + h),
        HasDerivWithinAt (fun s => f s - f1 x * s - c / 2 * (s - x) ^ 2)
          (f1 t - f1 x - c * (t - x)) (Set.Icc x (x + h)) t := by
      intro c t ht
      have h1 : HasDerivWithinAt (fun s : ℝ => f1 x * s) (f1 x) (Set.Icc x (x + h)) t := by
        simpa using ((hasDerivAt_id t).const_mul (f1 x)).hasDerivWithinAt
      have h2 : HasDerivWithinAt (fun s : ℝ => c / 2 * (s - x) ^ 2) (c * (t - x))
          (Set.Icc x (x + h)) t := by
        have := ((((hasDerivAt_id t).sub_const x).pow 2).const_mul (c / 2)).hasDerivWithinAt
          (s := Set.Icc x (x + h))
        convert this using 1
        simp
        ring
      exact ((hf t ht).sub h1).sub h2
    have hup := sub_le_of_derivWithin_le _ _ x (x + h) 0 (hG M)
      (fun t ht => by linarith [hup1 t ht]) (x + h) hxh
    have hlo := le_sub_of_le_derivWithin _ _ x (x + h) 0 (hG m)
      (fun t ht => by linarith [hlo1 t ht]) (x + h) hxh
    simp only at hup hlo
    delta classical_forward_difference
    have e : (f (x + h) - f x) / h - f1 x = (f (x + h) - f x - f1 x * h) / h := by
      field_simp
      ring
    have e1 : x + h - x = h := by ring
    have e2 : x - x = 0 := by ring
    rw [e1, e2] at hup hlo
    rw [e]
    constructor
    · rw [le_div_iff₀ hh]
      nlinarith
    · rw [div_le_iff₀ hh]
      nlinarith
  -- Second-order bounds for the forward-difference delta: if the gamma `e^{-qT}·φ(d1)/(x·σ√T)`
  -- lies between `m` and `M` for `x ∈ [S, S+h]`, the error of `delta_fwd` against the delta
  -- `e^{-qT}·Φ(d1)` lies between `m·h/2` and `M·h/2`.
  have delta_fwd_error_bounds (S K r q sigma T h m M : ℝ) (hS : 0 < S) (hK : 0 < K)
      (hs : 0 < sigma) (hT : 0 < T) (hh : 0 < h)
      (hm : ∀ x ∈ Set.Icc S (S + h),
        m ≤ Real.exp (-q * T) * phi (d1 x K r q sigma T) / (x * (sigma * Real.sqrt T)))
      (hM : ∀ x ∈ Set.Icc S (S + h),
        Real.exp (-q * T) * phi (d1 x K r q sigma T) / (x * (sigma * Real.sqrt T)) ≤ M) :
      m * h / 2 ≤ delta_fwd S K r q sigma T h - Real.exp (-q * T) * Phi (d1 S K r q sigma T) ∧
        delta_fwd S K r q sigma T h - Real.exp (-q * T) * Phi (d1 S K r q sigma T) ≤
          M * h / 2 := by
    have hpos : ∀ x ∈ Set.Icc S (S + h), 0 < x := fun x hx => lt_of_lt_of_le hS hx.1
    exact forward_difference_bounds (fun x => bs_price_call x K r q sigma T)
      (fun x => Real.exp (-q * T) * Phi (d1 x K r q sigma T))
      (fun x => Real.exp (-q * T) * phi (d1 x K r q sigma T) / (x * (sigma * Real.sqrt T)))
      S h m M hh
      (fun x hx => (bs_price_call_hasDerivAt x K r q sigma T (hpos x hx) hK hs hT).hasDerivWithinAt)
      (fun x hx => (delta_hasDerivAt x K r q sigma T (hpos x hx) hK hs hT).hasDerivWithinAt)
      hm hM
  -- The analytic delta `e^{-qT}·Φ(d1)` is strictly increasing in the spot.
  have delta_strictMonoOn (K r q sigma T : ℝ) (hK : 0 < K) (hs : 0 < sigma) (hT : 0 < T) :
      StrictMonoOn (fun y => Real.exp (-q * T) * Phi (d1 y K r q sigma T)) (Set.Ioi 0) := by
    intro x hx y hy hxy
    have ha0 : 0 < sigma * Real.sqrt T := mul_pos hs (Real.sqrt_pos.mpr hT)
    have hd := d1_sub y x K r q sigma T hy hx hK
    have hl : 0 < Real.log (y / x) := Real.log_pos (by rw [lt_div_iff₀ hx]; linarith)
    have hlt : d1 x K r q sigma T < d1 y K r q sigma T := by
      have : 0 < Real.log (y / x) / (sigma * Real.sqrt T) := div_pos hl ha0
      linarith
    exact mul_lt_mul_of_pos_left (Phi_strictMono hlt) (Real.exp_pos _)
  -- The Black-Scholes call price is strictly convex in the spot.
  have bs_price_call_strictConvexOn (K r q sigma T : ℝ) (hK : 0 < K) (hs : 0 < sigma)
      (hT : 0 < T) :
      StrictConvexOn ℝ (Set.Ioi 0) (fun y => bs_price_call y K r q sigma T) := by
    apply StrictMonoOn.strictConvexOn_of_deriv (convex_Ioi 0)
    · intro x hx
      exact (bs_price_call_hasDerivAt x K r q sigma T hx hK hs hT).continuousAt.continuousWithinAt
    · rw [interior_Ioi]
      intro x hx y hy hxy
      rw [(bs_price_call_hasDerivAt x K r q sigma T hx hK hs hT).deriv,
        (bs_price_call_hasDerivAt y K r q sigma T hy hK hs hT).deriv]
      exact delta_strictMonoOn K r q sigma T hK hs hT hx hy hxy
  -- The forward-difference delta is strictly increasing in the step.
  have delta_fwd_strictMono (S K r q sigma T h1 h2 : ℝ) (hS : 0 < S) (hK : 0 < K)
      (hs : 0 < sigma) (hT : 0 < T) (h1pos : 0 < h1) (h12 : h1 < h2) :
      delta_fwd S K r q sigma T h1 < delta_fwd S K r q sigma T h2 := by
    have h := (bs_price_call_strictConvexOn K r q sigma T hK hs hT).secant_strict_mono
      (a := S) (x := S + h1) (y := S + h2) hS (show (0 : ℝ) < S + h1 by linarith)
      (show (0 : ℝ) < S + h2 by linarith) (by linarith) (by linarith) (by linarith)
    simp only [add_sub_cancel_left] at h
    exact h
  -- The forward-difference delta is at least the analytic delta.
  have delta_fwd_ge_delta (S K r q sigma T h : ℝ) (hS : 0 < S) (hK : 0 < K)
      (hs : 0 < sigma) (hT : 0 < T) (hh : 0 < h) :
      0 ≤ delta_fwd S K r q sigma T h - Real.exp (-q * T) * Phi (d1 S K r q sigma T) := by
    have ha0 : 0 < sigma * Real.sqrt T := mul_pos hs (Real.sqrt_pos.mpr hT)
    have hm2 : ∀ x ∈ Set.Icc S (S + h),
        0 ≤ Real.exp (-q * T) * phi (d1 x K r q sigma T) / (x * (sigma * Real.sqrt T)) := by
      intro x hx
      have hxpos : 0 < x := lt_of_lt_of_le hS hx.1
      have := phi_nonneg (d1 x K r q sigma T)
      positivity
    have hM2 : ∀ x ∈ Set.Icc S (S + h),
        Real.exp (-q * T) * phi (d1 x K r q sigma T) / (x * (sigma * Real.sqrt T)) ≤
          Real.exp (-q * T) / (S * (sigma * Real.sqrt T)) :=
      fun x hx => gamma_le_right S K r q sigma T x hS hs hT hx.1
    have := (delta_fwd_error_bounds S K r q sigma T h 0 _ hS hK hs hT hh hm2 hM2).1
    linarith
  exact ⟨log_hasDerivAt, d1_hasDerivAt, bs_price_call_hasDerivAt, delta_hasDerivAt,
    forward_difference_bounds, delta_fwd_error_bounds, delta_strictMonoOn,
    bs_price_call_strictConvexOn, delta_fwd_strictMono, delta_fwd_ge_delta⟩

/-! ## The distribution function as an integral -/

/-- The power series `Phi` is the standard normal cumulative distribution function
`∫_{-∞}^{x} φ(t) dt`; in particular `0 ≤ Φ ≤ 1`. -/
theorem Phi_eq_cdf (x : ℝ) :
    Phi x = ∫ t in Set.Iic x, phi t ∧ 0 ≤ Phi x ∧ Phi x ≤ 1 := by
  obtain ⟨-, -, -, -, -, -, Phi_zero, -, -, -, -, -, -, -, -, -, -, -⟩ := analytic_greeks_facts
  obtain ⟨-, Phi_hasDerivAt, -, -, -, -, -, -, -, -, -, -, -, -, -⟩ := distribution_facts
  have hpdf : phi = ProbabilityTheory.gaussianPDFReal 0 1 := by
    funext t
    delta phi
    simp only [ProbabilityTheory.gaussianPDFReal, NNReal.coe_one, mul_one, sub_zero]
    rw [div_eq_inv_mul]
  have hint : MeasureTheory.Integrable phi := by
    rw [hpdf]; exact ProbabilityTheory.integrable_gaussianPDFReal 0 1
  have htot : ∫ t, phi t = 1 := by
    rw [hpdf]
    exact ProbabilityTheory.integral_gaussianPDFReal_eq_one 0 one_ne_zero
  have hcont : Continuous phi := by
    delta phi; fun_prop
  have hnn : ∀ t, 0 ≤ phi t := by
    intro t; delta phi; positivity
  have hF : ∀ u : ℝ, HasDerivAt (fun v => ∫ t in Set.Iic v, phi t) (phi u) u := by
    intro u
    have h1 : HasDerivAt (fun v => ∫ t in (0 : ℝ)..v, phi t) (phi u) u :=
      (hcont.integral_hasStrictDerivAt 0 u).hasDerivAt
    have h2 : (fun v => ∫ t in Set.Iic v, phi t) =
        fun v => (∫ t in Set.Iic (0 : ℝ), phi t) + ∫ t in (0 : ℝ)..v, phi t := by
      funext v
      rw [← intervalIntegral.integral_Iic_sub_Iic hint.integrableOn hint.integrableOn]
      ring
    rw [h2]
    simpa using h1.const_add (∫ t in Set.Iic (0 : ℝ), phi t)
  have hF0 : ∫ t in Set.Iic (0 : ℝ), phi t = 1 / 2 := by
    have h1 : (∫ t in Set.Iic (0 : ℝ), phi t) + ∫ t in Set.Ioi (0 : ℝ), phi t = 1 := by
      rw [intervalIntegral.integral_Iic_add_Ioi hint.integrableOn hint.integrableOn, htot]
    have h2 : ∫ t in Set.Iic (0 : ℝ), phi t = ∫ t in Set.Ioi (0 : ℝ), phi t := by
      have h := integral_comp_neg_Iic (0 : ℝ) phi
      have hneg : ∀ t, phi (-t) = phi t := by
        intro t; delta phi; rw [neg_sq]
      simp only [hneg, neg_zero] at h
      exact h
    linarith
  have hD : ∀ u : ℝ, HasDerivAt (fun v => Phi v - ∫ t in Set.Iic v, phi t) 0 u := by
    intro u
    have h := (Phi_hasDerivAt u).sub (hF u)
    simpa using h
  have hconst := is_const_of_deriv_eq_zero (fun u => (hD u).differentiableAt)
    (fun u => (hD u).deriv) x 0
  simp only [Phi_zero, hF0, sub_self] at hconst
  have heq : Phi x = ∫ t in Set.Iic x, phi t := by linarith
  refine ⟨heq, ?_, ?_⟩
  · rw [heq]
    exact MeasureTheory.setIntegral_nonneg measurableSet_Iic (fun t _ => hnn t)
  · rw [heq]
    have h := MeasureTheory.setIntegral_le_integral (s := Set.Iic x) hint
      (Filter.Eventually.of_forall hnn)
    rw [htot] at h
    exact h

/-! ## Claims on the analytic Greeks (C1-C5) -/

/-- Claim C1: for `S, K, σ, T > 0` and any real `r, q`, `bs_delta_call` returns `e^{-qT}·Φ(d1)`
with `F = S·e^{(r-q)T}` and `d1 = (ln(F/K) + ½σ²T)/(σ√T)`, and the `log1p((F-K)/K)` form of the
logarithm block gives the same value as the `log(F/K)` form, so `d1` does not depend on the
branch taken. -/
theorem C1_bs_delta_call_formula (S K r q sigma T : ℝ) (hS : 0 < S) (hK : 0 < K)
    (hs : 0 < sigma) (hT : 0 < T) :
    bs_delta_call (Dbl.fin S) (Dbl.fin K) (Dbl.fin r) (Dbl.fin q) (Dbl.fin sigma) (Dbl.fin T) =
        Dbl.fin (Real.exp (-q * T) *
          Phi ((Real.log (S * Real.exp ((r - q) * T) / K) + 1 / 2 * sigma ^ 2 * T) /
            (sigma * Real.sqrt T))) ∧
      Dbl.log1p ((Dbl.fin (S * Real.exp ((r - q) * T)) - Dbl.fin K) / Dbl.fin K) =
        Dbl.log (Dbl.fin (S * Real.exp ((r - q) * T)) / Dbl.fin K) := by
  obtain ⟨log1p_eq_log, -, -, bs_delta_call_pos, -, -, -, -, -, -, -, -, -, -, -, -, -,
    -⟩ := analytic_greeks_facts
  refine ⟨bs_delta_call_pos S K r q sigma T hS hK hs hT, ?_⟩
  obtain ⟨h1, h2⟩ := log1p_eq_log _ K (mul_pos hS (Real.exp_pos ((r - q) * T))) hK
  rw [h1, h2]

/-- Claim C1 at `S = K = 100`, `r = 0.05`, `q = 0.02`, `σ = 0.2`, `T = 1`. -/
theorem C1_bs_delta_call_formula_witness :
    bs_delta_call (Dbl.fin 100) (Dbl.fin 100) (Dbl.fin 0.05) (Dbl.fin 0.02) (Dbl.fin 0.2)
        (Dbl.fin 1) =
        Dbl.fin (Real.exp (-0.02 * 1) *
          Phi ((Real.log (100 * Real.exp ((0.05 - 0.02) * 1) / 100) + 1 / 2 * 0.2 ^ 2 * 1) /
            (0.2 * Real.sqrt 1))) ∧
      Dbl.log1p ((Dbl.fin (100 * Real.exp ((0.05 - 0.02) * 1)) - Dbl.fin 100) / Dbl.fin 100) =
        Dbl.log (Dbl.fin (100 * Real.exp ((0.05 - 0.02) * 1)) / Dbl.fin 100) :=
  C1_bs_delta_call_formula 100 100 0.05 0.02 0.2 1 (by norm_num) (by norm_num) (by norm_num)
    (by norm_num)

/-- Claim C2: for `S, K, σ, T > 0` and any real `r, q`, `bs_gamma_call` returns
`e^{-qT}·φ(d1)/(S·σ√T)` with the same `d1` as `bs_delta_call` and `φ(x) = e^{-x²/2}/√(2π)`; the
log-density form `exp(-½·d1² + NEG_HALF_LOG_2PI)` of the code equals `φ(d1)`. -/
theorem C2_bs_gamma_call_formula (S K r q sigma T : ℝ) (hS : 0 < S) (hK : 0 < K)
    (hs : 0 < sigma) (hT : 0 < T) :
    bs_gamma_call (Dbl.fin S) (Dbl.fin K) (Dbl.fin r) (Dbl.fin q) (Dbl.fin sigma) (Dbl.fin T) =
        Dbl.fin (Real.exp (-q * T) *
          (Real.exp (-(((Real.log (S * Real.exp ((r - q) * T) / K) + 1 / 2 * sigma ^ 2 * T) /
            (sigma * Real.sqrt T)) ^ 2) / 2) / Real.sqrt (2 * Real.pi)) /
          (S * (sigma * Real.sqrt T))) ∧
      Real.exp (-0.5 * d1 S K r q sigma T * d1 S K r q sigma T + NEG_HALF_LOG_2PI) =
        Real.exp (-(d1 S K r q sigma T ^ 2) / 2) / Real.sqrt (2 * Real.pi) := by
  obtain ⟨-, -, -, -, -, -, -, exp_log_density, bs_gamma_call_pos, -, -, -, -, -, -, -, -,
    -⟩ := analytic_greeks_facts
  exact ⟨bs_gamma_call_pos S K r q sigma T hS hK hs hT, exp_log_density _⟩

/-- Claim C2 at `S = K = 100`, `r = 0.05`, `q = 0.02`, `σ = 0.2`, `T = 1`. -/
theorem C2_bs_gamma_call_formula_witness :
    bs_gamma_call (Dbl.fin 100) (Dbl.fin 100) (Dbl.fin 0.05) (Dbl.fin 0.02) (Dbl.fin 0.2)
        (Dbl.fin 1) =
        Dbl.fin (Real.exp (-0.02 * 1) *
          (Real.exp (-(((Real.log (100 * Real.exp ((0.05 - 0.02) * 1) / 100) +
            1 / 2 * 0.2 ^ 2 * 1) / (0.2 * Real.sqrt 1)) ^ 2) / 2) / Real.sqrt (2 * Real.pi)) /
          (100 * (0.2 * Real.sqrt 1))) ∧
      Real.exp (-0.5 * d1 100 100 0.05 0.02 0.2 1 * d1 100 100 0.05 0.02 0.2 1 +
          NEG_HALF_LOG_2PI) =
        Real.exp (-(d1 100 100 0.05 0.02 0.2 1 ^ 2) / 2) / Real.sqrt (2 * Real.pi) :=
  C2_bs_gamma_call_formula 100 100 0.05 0.02 0.2 1 (by norm_num) (by norm_num) (by norm_num)
    (by norm_num)

/-- Claim C3: when `σ = 0` or `T ≤ 0` the total volatility `σ·√max(T,0)` is zero,
`bs_delta_call` returns `e^{-qT}` if `F = S·e^{(r-q)T} > K` and `0` otherwise (also at `F = K`),
and `bs_gamma_call` returns exactly `0`. -/
theorem C3_degenerate_greeks (S K r q sigma T : ℝ) (h : sigma = 0 ∨ T ≤ 0) :
    sigma * Real.sqrt (max T 0) = 0 ∧
      bs_delta_call (Dbl.fin S) (Dbl.fin K) (Dbl.fin r) (Dbl.fin q) (Dbl.fin sigma) (Dbl.fin T) =
        (if K < S * Real.exp ((r - q) * T) then Dbl.fin (Real.exp (-q * T)) else Dbl.fin 0) ∧
      bs_gamma_call (Dbl.fin S) (Dbl.fin K) (Dbl.fin r) (Dbl.fin q) (Dbl.fin sigma) (Dbl.fin T) =
        Dbl.fin 0 := by
  obtain ⟨-, -, -, -, -, -, -, -, -, sigmaT_eq_zero_iff, bs_delta_call_degenerate,
    bs_gamma_call_degenerate, -, -, -, -, -, -⟩ := analytic_greeks_facts
  have h0 : sigma * Real.sqrt (max T 0) = 0 := (sigmaT_eq_zero_iff sigma T).mpr h
  exact ⟨h0, bs_delta_call_degenerate S K r q sigma T h0,
    bs_gamma_call_degenerate S K r q sigma T h0⟩

/-- Claim C3 at `S = 110`, `K = 100`, `r = 0.05`, `q = 0.02`, `σ = 0`, `T = 1`: the delta is
`e^{-0.02}` and the gamma is `0`. -/
theorem C3_degenerate_greeks_witness :
    bs_delta_call (Dbl.fin 110) (Dbl.fin 100) (Dbl.fin 0.05) (Dbl.fin 0.02) (Dbl.fin 0)
        (Dbl.fin 1) = Dbl.fin (Real.exp (-0.02)) ∧
      bs_gamma_call (Dbl.fin 110) (Dbl.fin 100) (Dbl.fin 0.05) (Dbl.fin 0.02) (Dbl.fin 0)
        (Dbl.fin 1) = Dbl.fin 0 := by
  obtain ⟨-, hd, hg⟩ := C3_degenerate_greeks 110 100 0.05 0.02 0 1 (Or.inl rfl)
  have hF : (100 : ℝ) < 110 * Real.exp ((0.05 - 0.02) * 1) := by
    have : (1 : ℝ) ≤ Real.exp ((0.05 - 0.02) * 1) := Real.one_le_exp (by norm_num)
    linarith
  rw [if_pos hF] at hd
  refine ⟨?_, hg⟩
  rw [hd]
  norm_num

/-- Claim C4 fails at `S = K = 0`, `r = 0.05`, `q = 0.02`, `σ = 0.2`, `T = 1`, a scenario with
`S, K, σ, T ≥ 0`: the quotient `F / K` is `0 / 0`, `bs_delta_call` returns NaN and neither bound
holds. -/
theorem C4_delta_bounds_counterexample :
    bs_delta_call (Dbl.fin 0) (Dbl.fin 0) (Dbl.fin 0.05) (Dbl.fin 0.02) (Dbl.fin 0.2)
        (Dbl.fin 1) = Dbl.nan ∧
      ¬ (Dbl.le (Dbl.fin 0)
            (bs_delta_call (Dbl.fin 0) (Dbl.fin 0) (Dbl.fin 0.05) (Dbl.fin 0.02) (Dbl.fin 0.2)
              (Dbl.fin 1)) = true ∧
          Dbl.le
            (bs_delta_call (Dbl.fin 0) (Dbl.fin 0) (Dbl.fin 0.05) (Dbl.fin 0.02) (Dbl.fin 0.2)
              (Dbl.fin 1))
            (Dbl.exp (-Dbl.fin 0.02 * Dbl.fin 1)) = true) := by
  obtain ⟨-, -, -, -, -, -, -, -, -, -, -, -, -, -, -, -, bs_delta_call_zero_zero,
    -⟩ := analytic_greeks_facts
  have h := bs_delta_call_zero_zero 0.05 0.02 0.2 1 (by norm_num) (by norm_num)
  refine ⟨h, ?_⟩
  rw [h]
  delta Dbl.le
  simp

/-- Claim C4, amended: for every scenario with `S, K, σ, T ≥ 0` in which the spot and the strike
are not both zero, or the total volatility is zero, `bs_delta_call` returns a finite value `d`
with `0 ≤ d ≤ e^{-qT}`. -/
theorem C4_delta_bounds (S K r q sigma T : ℝ) (hS : 0 ≤ S) (hK : 0 ≤ K) (hs : 0 ≤ sigma)
    (hT : 0 ≤ T) (h : 0 < S ∨ 0 < K ∨ sigma = 0 ∨ T = 0) :
    ∃ d : ℝ,
      bs_delta_call (Dbl.fin S) (Dbl.fin K) (Dbl.fin r) (Dbl.fin q) (Dbl.fin sigma) (Dbl.fin T) =
        Dbl.fin d ∧ 0 ≤ d ∧ d ≤ Real.exp (-q * T) := by
  obtain ⟨-, -, -, bs_delta_call_pos, -, -, -, -, -, sigmaT_eq_zero_iff,
    bs_delta_call_degenerate, -, bs_delta_call_strike_zero, bs_delta_call_spot_zero, -, -, -,
    -⟩ := analytic_greeks_facts
  have hE : 0 ≤ Real.exp (-q * T) := le_of_lt (Real.exp_pos _)
  by_cases hdeg : sigma = 0 ∨ T ≤ 0
  · have h0 := (sigmaT_eq_zero_iff sigma T).mpr hdeg
    have hd := bs_delta_call_degenerate S K r q sigma T h0
    by_cases hF : K < forward S r q T
    · rw [if_pos hF] at hd
      exact ⟨_, hd, hE, le_refl _⟩
    · rw [if_neg hF] at hd
      exact ⟨0, hd, le_refl _, hE⟩
  · push_neg at hdeg
    have hs0 : 0 < sigma := lt_of_le_of_ne hs (Ne.symm hdeg.1)
    have hT0 : 0 < T := hdeg.2
    have key : 0 < S ∨ 0 < K := by
      rcases h with h | h | h | h
      · exact Or.inl h
      · exact Or.inr h
      · exact absurd h hdeg.1
      · exact absurd h (ne_of_gt hT0)
    rcases lt_or_eq_of_le hS with hSp | hSz
    · rcases lt_or_eq_of_le hK with hKp | hKz
      · refine ⟨_, bs_delta_call_pos S K r q sigma T hSp hKp hs0 hT0, ?_, ?_⟩
        · exact mul_nonneg hE (Phi_eq_cdf _).2.1
        · calc Real.exp (-q * T) * Phi (d1 S K r q sigma T)
              ≤ Real.exp (-q * T) * 1 := mul_le_mul_of_nonneg_left (Phi_eq_cdf _).2.2 hE
            _ = Real.exp (-q * T) := mul_one _
      · subst hKz
        exact ⟨_, bs_delta_call_strike_zero S r q sigma T hSp hs0 hT0, hE, le_refl _⟩
    · subst hSz
      have hKp : 0 < K := by
        rcases key with h | h
        · exact absurd h (lt_irrefl _)
        · exact h
      exact ⟨0, bs_delta_call_spot_zero K r q sigma T hKp hs0 hT0, le_refl _, hE⟩

/-- Claim C4, amended, at `S = K = 100`, `r = 0.05`, `q = 0.02`, `σ = 0.2`, `T = 1`. -/
theorem C4_delta_bounds_witness :
    ∃ d : ℝ,
      bs_delta_call (Dbl.fin 100) (Dbl.fin 100) (Dbl.fin 0.05) (Dbl.fin 0.02) (Dbl.fin 0.2)
        (Dbl.fin 1) = Dbl.fin d ∧ 0 ≤ d ∧ d ≤ Real.exp (-0.02 * 1) :=
  C4_delta_bounds 100 100 0.05 0.02 0.2 1 (by norm_num) (by norm_num) (by norm_num)
    (by norm_num) (Or.inl (by norm_num))

/-- Claim C10: for every scenario and every step `h`, `delta_fwd` equals `[C(S+h) − C(S)]/h` with
`C(x) = bs_price_call(x, K, r, q, σ, T)`, which is the generic primitive
`classical_forward_difference(f, S, h) = (f(S+h) − f(S))/h` applied to `f = C`. -/
theorem C10_delta_fwd_refines_forward_difference (S K r q sigma T h : ℝ) :
    delta_fwd S K r q sigma T h =
        (bs_price_call (S + h) K r q sigma T - bs_price_call S K r q sigma T) / h ∧
      delta_fwd S K r q sigma T h =
        classical_forward_difference (fun x => bs_price_call x K r q sigma T) S h ∧
      ∀ f : ℝ → ℝ, classical_forward_difference f S h = (f (S + h) - f S) / h :=
  ⟨rfl, rfl, fun _ => rfl⟩

/-! ## Claims on the complex-step estimators (C6-C9) -/

/-- Claim C6, as the code behaves: for `S, K, σ, T > 0` the analytic gamma `g` is positive, the
real-axis complex-step gamma is within `C·h²` of `2·g` for every `h > 0`, and therefore it is NOT
within `C·h²` of `g` for small `h`, whatever the constants: with `Φ(x+iy) = Φ(x) + iy·φ(x)` the
real part of the complex price lacks the second-order term of `Φ`, and the estimator converges to
twice the gamma. -/
theorem C6_gamma_complex_step_twice_gamma (S K r q sigma T : ℝ) (hS : 0 < S) (hK : 0 < K)
    (hs : 0 < sigma) (hT : 0 < T) :
    ∃ g : ℝ,
      bs_gamma_call (Dbl.fin S) (Dbl.fin K) (Dbl.fin r) (Dbl.fin q) (Dbl.fin sigma) (Dbl.fin T) =
        Dbl.fin g ∧ 0 < g ∧
      (∃ C : ℝ, ∀ h : ℝ, 0 < h → |gamma_complex_step S K r q sigma T h - 2 * g| ≤ C * h ^ 2) ∧
      ¬ (∃ C h0 : ℝ, 0 < h0 ∧
          ∀ h : ℝ, 0 < h → h < h0 → |gamma_complex_step S K r q sigma T h - g| ≤ C * h ^ 2) := by
  obtain ⟨-, -, -, -, phi_pos, -, -, -, bs_gamma_call_pos, -, -, -, -, -, -, -, -,
    -⟩ := analytic_greeks_facts
  obtain ⟨-, gamma_complex_step_error, -, -⟩ := complex_step_error_facts
  have ha0 : 0 < sigma * Real.sqrt T := mul_pos hs (Real.sqrt_pos.mpr hT)
  have hg : 0 < Real.exp (-q * T) * phi (d1 S K r q sigma T) / (S * (sigma * Real.sqrt T)) :=
    div_pos (mul_pos (Real.exp_pos _) (phi_pos _)) (mul_pos hS ha0)
  refine ⟨_, bs_gamma_call_pos S K r q sigma T hS hK hs hT, hg, ⟨_, fun h hh =>
    gamma_complex_step_error S K r q sigma T h hS hK hs hT hh⟩, ?_⟩
  rintro ⟨C, h0, hh0, hC⟩
  set g := Real.exp (-q * T) * phi (d1 S K r q sigma T) / (S * (sigma * Real.sqrt T)) with hgdef
  set C2 := Real.exp (-q * T) * (3 / 2 + 1 / (sigma * Real.sqrt T)) /
    (S ^ 3 * (sigma * Real.sqrt T)) with hC2
  set M := max (C + C2) 1 with hM
  have hM1 : 1 ≤ M := le_max_right _ _
  have hM0 : 0 < M := by linarith
  set h := min (h0 / 2) (min 1 (g / (2 * M))) with hh
  have hpos : 0 < h := by
    rw [hh]
    refine lt_min (by linarith) (lt_min one_pos (by positivity))
  have hlt : h < h0 := lt_of_le_of_lt (min_le_left _ _) (by linarith)
  have hle1 : h ≤ 1 := le_trans (min_le_right _ _) (min_le_left _ _)
  have hle2 : h ≤ g / (2 * M) := le_trans (min_le_right _ _) (min_le_right _ _)
  have e1 := hC h hpos hlt
  have e2 := gamma_complex_step_error S K r q sigma T h hS hK hs hT hpos
  rw [← hgdef, ← hC2] at e2
  have e3 : g ≤ (C + C2) * h ^ 2 := by
    have : g = (gamma_complex_step S K r q sigma T h - g) -
        (gamma_complex_step S K r q sigma T h - 2 * g) := by ring
    calc g ≤ |g| := le_abs_self g
      _ = |(gamma_complex_step S K r q sigma T h - g) -
            (gamma_complex_step S K r q sigma T h - 2 * g)| := by rw [← this]
      _ ≤ |gamma_complex_step S K r q sigma T h - g| +
            |gamma_complex_step S K r q sigma T h - 2 * g| := abs_sub _ _
      _ ≤ C * h ^ 2 + C2 * h ^ 2 := add_le_add e1 e2
      _ = (C + C2) * h ^ 2 := by ring
  have e4 : (C + C2) * h ^ 2 ≤ M * h ^ 2 :=
    mul_le_mul_of_nonneg_right (le_max_left _ _) (sq_nonneg h)
  have e5 : M * h ^ 2 ≤ M * h := by
    apply mul_le_mul_of_nonneg_left _ (le_of_lt hM0)
    calc h ^ 2 = h * h := sq h
      _ ≤ 1 * h := mul_le_mul_of_nonneg_right hle1 (le_of_lt hpos)
      _ = h := one_mul h
  have e6 : M * h ≤ g / 2 := by
    calc M * h ≤ M * (g / (2 * M)) := mul_le_mul_of_nonneg_left hle2 (le_of_lt hM0)
      _ = g / 2 := by field_simp; ring
  linarith

/-- Claim C6, as the code behaves, at `S = K = 100`, `r = 0.05`, `q = 0.02`, `σ = 0.2`,
`T = 1`. -/
theorem C6_gamma_complex_step_twice_gamma_witness :
    ∃ g : ℝ,
      bs_gamma_call (Dbl.fin 100) (Dbl.fin 100) (Dbl.fin 0.05) (Dbl.fin 0.02) (Dbl.fin 0.2)
        (Dbl.fin 1) = Dbl.fin g ∧ 0 < g ∧
      (∃ C : ℝ, ∀ h : ℝ, 0 < h →
        |gamma_complex_step 100 100 0.05 0.02 0.2 1 h - 2 * g| ≤ C * h ^ 2) ∧
      ¬ (∃ C h0 : ℝ, 0 < h0 ∧
          ∀ h : ℝ, 0 < h → h < h0 →
            |gamma_complex_step 100 100 0.05 0.02 0.2 1 h - g| ≤ C * h ^ 2) :=
  C6_gamma_complex_step_twice_gamma 100 100 0.05 0.02 0.2 1 (by norm_num) (by norm_num)
    (by norm_num) (by norm_num)

/-- Claim C7: for `S, K, σ, T > 0` the complex-step delta `Im[C(S+ih)]/h` has truncation error
`O(h²)` against the analytic delta: there are `C` and `h0 > 0` with
`|delta_complex_step(h) − bs_delta_call| ≤ C·h²` for all `0 < h < h0`. -/
theorem C7_delta_complex_step_order (S K r q sigma T : ℝ) (hS : 0 < S) (hK : 0 < K)
    (hs : 0 < sigma) (hT : 0 < T) :
    ∃ d : ℝ,
      bs_delta_call (Dbl.fin S) (Dbl.fin K) (Dbl.fin r) (Dbl.fin q) (Dbl.fin sigma) (Dbl.fin T) =
        Dbl.fin d ∧
      ∃ C h0 : ℝ, 0 < h0 ∧
        ∀ h : ℝ, 0 < h → h < h0 → |delta_complex_step S K r q sigma T h - d| ≤ C * h ^ 2 := by
  obtain ⟨-, -, -, bs_delta_call_pos, -, -, -, -, -, -, -, -, -, -, -, -, -,
    -⟩ := analytic_greeks_facts
  obtain ⟨delta_complex_step_error, -, -, -⟩ := complex_step_error_facts
  exact
    ⟨_, bs_delta_call_pos S K r q sigma T hS hK hs hT, _, 1, one_pos, fun h hh _ =>
      delta_complex_step_error S K r q sigma T h hS hK hs hT hh⟩

/-- Claim C7 at `S = K = 100`, `r = 0.05`, `q = 0.02`, `σ = 0.2`, `T = 1`. -/
theorem C7_delta_complex_step_order_witness :
    ∃ d : ℝ,
      bs_delta_call (Dbl.fin 100) (Dbl.fin 100) (Dbl.fin 0.05) (Dbl.fin 0.02) (Dbl.fin 0.2)
        (Dbl.fin 1) = Dbl.fin d ∧
      ∃ C h0 : ℝ, 0 < h0 ∧
        ∀ h : ℝ, 0 < h → h < h0 →
          |delta_complex_step 100 100 0.05 0.02 0.2 1 h - d| ≤ C * h ^ 2 :=
  C7_delta_complex_step_order 100 100 0.05 0.02 0.2 1 (by norm_num) (by norm_num)
    (by norm_num) (by norm_num)

/-- Claim C8, as the code behaves: at `S = K = 100`, `r = 0`, `q = 0.005`, `σ = 0.1`, `T = 1`
the 45° complex-step gamma lies below the analytic gamma `g` by at least `k·h²` for every
`0 < h ≤ 1`, with a constant `k > 0`; hence its error is NOT bounded by `C·h⁴` for small `h`,
whatever the constants.  With `Φ(x+iy) = Φ(x) + iy·φ(x)` the estimator is of second order only. -/
theorem C8_gamma_45deg_second_order_only :
    ∃ g : ℝ,
      bs_gamma_call (Dbl.fin 100) (Dbl.fin 100) (Dbl.fin 0) (Dbl.fin 0.005) (Dbl.fin 0.1)
        (Dbl.fin 1) = Dbl.fin g ∧
      (∃ k : ℝ, 0 < k ∧ ∀ h : ℝ, 0 < h → h ≤ 1 →
        gamma_complex_step_45deg 100 100 0 0.005 0.1 1 h - g ≤ -k * h ^ 2) ∧
      ¬ (∃ C h0 : ℝ, 0 < h0 ∧
          ∀ h : ℝ, 0 < h → h < h0 →
            |gamma_complex_step_45deg 100 100 0 0.005 0.1 1 h - g| ≤ C * h ^ 4) := by
  obtain ⟨-, -, -, -, phi_pos, -, -, -, bs_gamma_call_pos, -, -, -, -, -, -, -, -,
    -⟩ := analytic_greeks_facts
  obtain ⟨-, -, -, gamma_45deg_flat_error⟩ := complex_step_error_facts
  have hi0 : 0 < inv_sqrt2 := by delta inv_sqrt2; positivity
  have hi1 : inv_sqrt2 ≤ 1 := by
    delta inv_sqrt2
    rw [div_le_one (by positivity)]
    rw [show (1 : ℝ) = Real.sqrt 1 by simp]
    exact Real.sqrt_le_sqrt (by norm_num)
  have hk : 0 < 24 * Real.exp (-0.005 * 1) * phi 0 / 10 ^ 6 := by
    have := phi_pos 0
    positivity
  have hlow : ∀ h : ℝ, 0 < h → h ≤ 1 →
      gamma_complex_step_45deg 100 100 0 0.005 0.1 1 h -
          Real.exp (-0.005 * 1) * phi (d1 100 100 0 0.005 0.1 1) /
            (100 * (0.1 * Real.sqrt 1)) ≤
        -(24 * Real.exp (-0.005 * 1) * phi 0 / 10 ^ 6) * h ^ 2 := by
    intro h hh hh1
    apply gamma_45deg_flat_error h hh
    calc h * inv_sqrt2 ≤ 1 * 1 := mul_le_mul hh1 hi1 (le_of_lt hi0) (by norm_num)
      _ = 1 := one_mul 1
  refine ⟨_, bs_gamma_call_pos 100 100 0 0.005 0.1 1 (by norm_num) (by norm_num)
    (by norm_num) (by norm_num), ⟨_, hk, hlow⟩, ?_⟩
  rintro ⟨C, h0, hh0, hC⟩
  set g := Real.exp (-0.005 * 1) * phi (d1 100 100 0 0.005 0.1 1) /
    (100 * (0.1 * Real.sqrt 1)) with hg
  set k := 24 * Real.exp (-0.005 * 1) * phi 0 / 10 ^ 6 with hkdef
  clear_value g k
  set M := max C 1 with hM
  have hM1 : 1 ≤ M := le_max_right _ _
  have hM0 : 0 < M := by linarith
  set h := min (h0 / 2) (min 1 (k / (2 * M))) with hh
  have hpos : 0 < h := by
    rw [hh]
    refine lt_min (by linarith) (lt_min one_pos (by positivity))
  have hlt : h < h0 := lt_of_le_of_lt (min_le_left _ _) (by linarith)
  have hle1 : h ≤ 1 := le_trans (min_le_right _ _) (min_le_left _ _)
  have hle2 : h ≤ k / (2 * M) := le_trans (min_le_right _ _) (min_le_right _ _)
  have e1 := hC h hpos hlt
  have e2 := hlow h hpos hle1
  have hsq : 0 < h ^ 2 := by positivity
  have e3 : k * h ^ 2 ≤ C * h ^ 4 := by
    have : k * h ^ 2 ≤ |gamma_complex_step_45deg 100 100 0 0.005 0.1 1 h - g| := by
      have := neg_le_abs (gamma_complex_step_45deg 100 100 0 0.005 0.1 1 h - g)
      linarith
    linarith
  have e4 : k ≤ C * h ^ 2 := by
    have : k * h ^ 2 ≤ C * h ^ 2 * h ^ 2 := by
      calc k * h ^ 2 ≤ C * h ^ 4 := e3
        _ = C * h ^ 2 * h ^ 2 := by ring
    exact le_of_mul_le_mul_right this hsq
  have e5 : C * h ^ 2 ≤ M * h ^ 2 := mul_le_mul_of_nonneg_right (le_max_left _ _) (le_of_lt hsq)
  have e6 : M * h ^ 2 ≤ M * h := by
    apply mul_le_mul_of_nonneg_left _ (le_of_lt hM0)
    calc h ^ 2 = h * h := sq h
      _ ≤ 1 * h := mul_le_mul_of_nonneg_right hle1 (le_of_lt hpos)
      _ = h := one_mul h
  have e7 : M * h ≤ k / 2 := by
    calc M * h ≤ M * (k / (2 * M)) := mul_le_mul_of_nonneg_left hle2 (le_of_lt hM0)
      _ = k / 2 := by field_simp; ring
  linarith

/-- Claim C9: at `S = K = 100`, `r = 0.05`, `q = 0.02`, `σ = 0.2`, `T = 1` and `h = 1e-6` the
45° complex-step gamma is closer to the analytic gamma than the real-axis complex-step gamma,
and its error is below `1e-6` (exact arithmetic). -/
theorem C9_gamma_45deg_more_accurate :
    ∃ g : ℝ,
      bs_gamma_call (Dbl.fin 100) (Dbl.fin 100) (Dbl.fin 0.05) (Dbl.fin 0.02) (Dbl.fin 0.2)
        (Dbl.fin 1) = Dbl.fin g ∧
      |gamma_complex_step_45deg 100 100 0.05 0.02 0.2 1 1e-6 - g| <
        |gamma_complex_step 100 100 0.05 0.02 0.2 1 1e-6 - g| ∧
      |gamma_complex_step_45deg 100 100 0.05 0.02 0.2 1 1e-6 - g| < 1e-6 := by
  obtain ⟨-, -, -, -, -, -, -, -, bs_gamma_call_pos, -, -, -, -, -, -, -, -,
    -⟩ := analytic_greeks_facts
  obtain ⟨phi_le_one, -, -, -, d1_test_scenario, phi_lower, -, -, -, -, -, -, -, -, -, -, -, -,
    -, -⟩ := density_facts
  obtain ⟨-, gamma_complex_step_error, gamma_complex_step_45deg_error,
    -⟩ := complex_step_error_facts
  have hi0 : 0 < inv_sqrt2 := by delta inv_sqrt2; positivity
  have hi1 : inv_sqrt2 ≤ 1 := by
    delta inv_sqrt2
    rw [div_le_one (by positivity)]
    rw [show (1 : ℝ) = Real.sqrt 1 by simp]
    exact Real.sqrt_le_sqrt (by norm_num)
  have hE1 : Real.exp (-0.02 * 1) ≤ 1 := by
    rw [Real.exp_le_one_iff]; norm_num
  have hE0 : (0.98 : ℝ) ≤ Real.exp (-0.02 * 1) := by
    have := Real.add_one_le_exp (-0.02 * 1 : ℝ)
    linarith
  have hEpos : 0 < Real.exp (-0.02 * 1) := Real.exp_pos _
  have hphi0 : 1 / 6 ≤ phi (d1 100 100 0.05 0.02 0.2 1) := by
    apply phi_lower
    rw [d1_test_scenario]; norm_num
  have hphi1 := phi_le_one (d1 100 100 0.05 0.02 0.2 1)
  have e45 := gamma_complex_step_45deg_error 100 100 0.05 0.02 0.2 1 1e-6 (by norm_num)
    (by norm_num) (by norm_num) (by norm_num) (by norm_num)
    (by nlinarith)
  have ecs := gamma_complex_step_error 100 100 0.05 0.02 0.2 1 1e-6 (by norm_num)
    (by norm_num) (by norm_num) (by norm_num) (by norm_num)
  rw [Real.sqrt_one] at e45 ecs
  refine ⟨_, bs_gamma_call_pos 100 100 0.05 0.02 0.2 1 (by norm_num) (by norm_num)
    (by norm_num) (by norm_num), ?_⟩
  rw [Real.sqrt_one]
  set g := Real.exp (-0.02 * 1) * phi (d1 100 100 0.05 0.02 0.2 1) / (100 * (0.2 * 1)) with hg
  set E := Real.exp (-0.02 * 1) with hE
  set p := phi (d1 100 100 0.05 0.02 0.2 1) with hp
  have hg0 : (0.008 : ℝ) ≤ g := by
    rw [hg]
    rw [le_div_iff₀ (by norm_num)]
    have : (0.98 : ℝ) * (1 / 6) ≤ E * p := mul_le_mul hE0 hphi0 (by norm_num) (le_of_lt hEpos)
    norm_num at this ⊢
    linarith
  have b45 : E * (4 / (0.2 * 1) ^ 2 + 3 / (0.2 * 1)) / 100 ^ 2 * (1e-6 * inv_sqrt2) ≤
      (2e-8 : ℝ) := by
    have h1 : E * (1e-6 * inv_sqrt2) ≤ 1 * (1e-6 * 1) :=
      mul_le_mul hE1 (mul_le_mul_of_nonneg_left hi1 (by norm_num)) (by positivity) (by norm_num)
    have h2 : E * (4 / (0.2 * 1) ^ 2 + 3 / (0.2 * 1)) / 100 ^ 2 * (1e-6 * inv_sqrt2) =
        (115 / 10000) * (E * (1e-6 * inv_sqrt2)) := by
      norm_num
      ring
    rw [h2]
    norm_num at h1 ⊢
    linarith
  have bcs : E * (3 / 2 + 1 / (0.2 * 1)) / (100 ^ 3 * (0.2 * 1)) * (1e-6 : ℝ) ^ 2 ≤
      (1e-16 : ℝ) := by
    have h2 : E * (3 / 2 + 1 / (0.2 * 1)) / (100 ^ 3 * (0.2 * 1)) * (1e-6 : ℝ) ^ 2 =
        (325 / 10 ^ 19) * E := by
      norm_num
      ring
    rw [h2]
    norm_num
    linarith
  have k45 : |gamma_complex_step_45deg 100 100 0.05 0.02 0.2 1 1e-6 - g| ≤ 2e-8 :=
    le_trans e45 b45
  have kcs : |gamma_complex_step 100 100 0.05 0.02 0.2 1 1e-6 - 2 * g| ≤ 1e-16 :=
    le_trans ecs bcs
  have lcs : (0.007 : ℝ) ≤ |gamma_complex_step 100 100 0.05 0.02 0.2 1 1e-6 - g| := by
    have h1 := (abs_le.mp kcs).1
    have h2 : (0.007 : ℝ) ≤ gamma_complex_step 100 100 0.05 0.02 0.2 1 1e-6 - g := by
      norm_num at h1 hg0 ⊢
      linarith
    exact le_trans h2 (le_abs_self _)
  constructor
  · calc |gamma_complex_step_45deg 100 100 0.05 0.02 0.2 1 1e-6 - g| ≤ 2e-8 := k45
      _ < 0.007 := by norm_num
      _ ≤ _ := lcs
  · calc |gamma_complex_step_45deg 100 100 0.05 0.02 0.2 1 1e-6 - g| ≤ 2e-8 := k45
      _ < 1e-6 := by norm_num

/-! ## Claims on the dispatcher (C11, C12) -/

/-- Claim C11: on inputs where delta and gamma are numbers, `bs_analytic_call` returns the
not-a-number sentinel if and only if the selector is neither exactly `"delta"` nor exactly
`"gamma"`; the function is total (it never raises), and the selectors `"invalid"`, `"Delta"` and
the empty string all give the sentinel. -/
theorem C11_bs_analytic_call_sentinel (type : String) (S K r q sigma T : Dbl)
    (hd : Dbl.isnan (bs_delta_call S K r q sigma T) = false)
    (hg : Dbl.isnan (bs_gamma_call S K r q sigma T) = false) :
    (Dbl.isnan (bs_analytic_call type S K r q sigma T) = true ↔
        (type ≠ "delta" ∧ type ≠ "gamma")) ∧
      bs_analytic_call "invalid" S K r q sigma T = Dbl.nan ∧
      bs_analytic_call "Delta" S K r q sigma T = Dbl.nan ∧
      bs_analytic_call "" S K r q sigma T = Dbl.nan := by
  refine ⟨?_, ?_, ?_, ?_⟩
  · delta bs_analytic_call
    by_cases h1 : type = "delta"
    · simp [h1, hd]
    · by_cases h2 : type = "gamma"
      · simp [h2, hg]
      · delta Dbl.isnan
        simp [h1, h2]
  · delta bs_analytic_call
    rw [if_neg (by decide), if_neg (by decide)]
  · delta bs_analytic_call
    rw [if_neg (by decide), if_neg (by decide)]
  · delta bs_analytic_call
    rw [if_neg (by decide), if_neg (by decide)]

/-- Claim C11 at the selector `"invalid"` and `S = K = 100`, `r = 0.05`, `q = 0.02`, `σ = 0.2`,
`T = 1`, where delta and gamma are finite. -/
theorem C11_bs_analytic_call_sentinel_witness :
    (Dbl.isnan (bs_analytic_call "invalid" (Dbl.fin 100) (Dbl.fin 100) (Dbl.fin 0.05)
          (Dbl.fin 0.02) (Dbl.fin 0.2) (Dbl.fin 1)) = true ↔
        ("invalid" ≠ "delta" ∧ "invalid" ≠ "gamma")) ∧
      bs_analytic_call "invalid" (Dbl.fin 100) (Dbl.fin 100) (Dbl.fin 0.05) (Dbl.fin 0.02)
        (Dbl.fin 0.2) (Dbl.fin 1) = Dbl.nan ∧
      bs_analytic_call "Delta" (Dbl.fin 100) (Dbl.fin 100) (Dbl.fin 0.05) (Dbl.fin 0.02)
        (Dbl.fin 0.2) (Dbl.fin 1) = Dbl.nan ∧
      bs_analytic_call "" (Dbl.fin 100) (Dbl.fin 100) (Dbl.fin 0.05) (Dbl.fin 0.02)
        (Dbl.fin 0.2) (Dbl.fin 1) = Dbl.nan := by
  obtain ⟨-, -, -, bs_delta_call_pos, -, -, -, -, bs_gamma_call_pos, -, -, -, -, -, -, -, -,
    -⟩ := analytic_greeks_facts
  exact
    C11_bs_analytic_call_sentinel "invalid" (Dbl.fin 100) (Dbl.fin 100) (Dbl.fin 0.05)
      (Dbl.fin 0.02) (Dbl.fin 0.2) (Dbl.fin 1)
      (by rw [bs_delta_call_pos 100 100 0.05 0.02 0.2 1 (by norm_num) (by norm_num) (by norm_num)
        (by norm_num)]; rfl)
      (by rw [bs_gamma_call_pos 100 100 0.05 0.02 0.2 1 (by norm_num) (by norm_num) (by norm_num)
        (by norm_num)]; rfl)

/-- Claim C12: for all inputs, `bs_analytic_call("delta", …)` is `bs_delta_call(…)` and
`bs_analytic_call("gamma", …)` is `bs_gamma_call(…)`. -/
theorem C12_bs_analytic_call_dispatch (S K r q sigma T : Dbl) :
    bs_analytic_call "delta" S K r q sigma T = bs_delta_call S K r q sigma T ∧
      bs_analytic_call "gamma" S K r q sigma T = bs_gamma_call S K r q sigma T := by
  constructor
  · delta bs_analytic_call
    rw [if_pos rfl]
  · delta bs_analytic_call
    rw [if_neg (by decide), if_pos rfl]

/-! ## Claims on the accuracy sweep (C13, C14, C20) -/

/-- Claim C13: for every scenario `write_scenario_csv` produces exactly 24 records, in the order
`i = 0..23`, with `h_rel_i = 10^(−16 + 12·i/23)` and `h_i = h_rel_i·S`; the first record has
`h_rel = 10⁻¹⁶`, the last has `h_rel = 10⁻⁴`, and `h_rel` is strictly increasing along the
sequence. -/
theorem C13_sweep_grid (S K r q sigma T : ℝ) :
    (write_scenario_csv S K r q sigma T).length = 24 ∧
      (write_scenario_csv S K r q sigma T).map ErrorRecord.h_rel =
        (List.range 24).map (fun i : ℕ => Dbl.fin ((10 : ℝ) ^ (-16 + 12 * (i : ℝ) / 23))) ∧
      (write_scenario_csv S K r q sigma T).map ErrorRecord.h =
        (List.range 24).map (fun i : ℕ => Dbl.fin ((10 : ℝ) ^ (-16 + 12 * (i : ℝ) / 23) * S)) ∧
      ((write_scenario_csv S K r q sigma T).map ErrorRecord.h_rel)[0]? =
        some (Dbl.fin 1e-16) ∧
      ((write_scenario_csv S K r q sigma T).map ErrorRecord.h_rel)[23]? =
        some (Dbl.fin 1e-4) ∧
      List.Pairwise (fun a b => Dbl.lt a b = true)
        ((write_scenario_csv S K r q sigma T).map ErrorRecord.h_rel) := by
  obtain ⟨sweep_record_h_rel, sweep_record_h, -, -, -, -, -, -, -⟩ := sweep_facts
  have hrel : (write_scenario_csv S K r q sigma T).map ErrorRecord.h_rel =
      (List.range 24).map (fun i : ℕ => Dbl.fin ((10 : ℝ) ^ (-16 + 12 * (i : ℝ) / 23))) := by
    delta write_scenario_csv
    delta num_points
    simp only [List.map_map]
    apply List.map_congr_left
    intro i _
    exact sweep_record_h_rel S K r q sigma T _ _ i
  have hfirst : (10 : ℝ) ^ (-16 + 12 * ((0 : ℕ) : ℝ) / 23) = 1e-16 := by
    have : (-16 + 12 * ((0 : ℕ) : ℝ) / 23) = -((16 : ℕ) : ℝ) := by norm_num
    rw [this, Real.rpow_neg (by norm_num), Real.rpow_natCast]
    norm_num
  have hlast : (10 : ℝ) ^ (-16 + 12 * ((23 : ℕ) : ℝ) / 23) = 1e-4 := by
    have : (-16 + 12 * ((23 : ℕ) : ℝ) / 23) = -((4 : ℕ) : ℝ) := by norm_num
    rw [this, Real.rpow_neg (by norm_num), Real.rpow_natCast]
    norm_num
  refine ⟨?_, hrel, ?_, ?_, ?_, ?_⟩
  · delta write_scenario_csv
    delta num_points
    simp
  · delta write_scenario_csv
    delta num_points
    simp only [List.map_map]
    apply List.map_congr_left
    intro i _
    exact sweep_record_h S K r q sigma T _ _ i
  · rw [hrel, List.getElem?_map, List.getElem?_range (by norm_num)]
    simp only [Option.map_some']
    rw [hfirst]
  · rw [hrel, List.getElem?_map, List.getElem?_range (by norm_num)]
    simp only [Option.map_some']
    rw [hlast]
  · rw [hrel, List.pairwise_map]
    refine List.Pairwise.imp ?_ (List.pairwise_lt_range 24)
    intro i j hij
    delta Dbl.lt
    simp only [decide_eq_true_eq]
    apply Real.rpow_lt_rpow_of_exponent_lt (by norm_num)
    have : (i : ℝ) < (j : ℝ) := by exact_mod_cast hij
    linarith

/-- Claim C14 fails at `S = 0`, `K = 100`, `r = 0.05`, `q = 0.02`, `σ = 0.2`, `T = 1`: the
analytic gamma is NaN, so the gamma error fields of the records are NaN and not `≥ 0`. -/
theorem C14_sweep_errors_counterexample :
    ∃ e ∈ write_scenario_csv 0 100 0.05 0.02 0.2 1,
      e.err_G_fd = Dbl.abs (e.Gamma_fd - e.Gamma_analytic) ∧ e.err_G_fd = Dbl.nan ∧
        ¬ (Dbl.ge e.err_G_fd (Dbl.fin 0) = true) := by
  obtain ⟨-, -, -, -, -, -, -, -, -, -, -, -, -, -, -, bs_gamma_call_spot_zero, -,
    -⟩ := analytic_greeks_facts
  obtain ⟨-, -, -, sweep_record_zero_mem, -, -, -, -, -⟩ := sweep_facts
  refine ⟨_, sweep_record_zero_mem 0 100 0.05 0.02 0.2 1, rfl, ?_⟩
  have hg := bs_gamma_call_spot_zero 100 0.05 0.02 0.2 1 (by norm_num) (by norm_num)
    (by norm_num)
  have h1 : (sweep_record 0 100 0.05 0.02 0.2 1
      (bs_delta_call (Dbl.fin 0) (Dbl.fin 100) (Dbl.fin 0.05) (Dbl.fin 0.02) (Dbl.fin 0.2)
        (Dbl.fin 1))
      (bs_gamma_call (Dbl.fin 0) (Dbl.fin 100) (Dbl.fin 0.05) (Dbl.fin 0.02) (Dbl.fin 0.2)
        (Dbl.fin 1)) 0).err_G_fd = Dbl.nan := by
    rw [hg]
    rfl
  rw [h1]
  exact ⟨rfl, by delta Dbl.ge Dbl.le; simp⟩

/-- Claim C14, amended: in every record of the sweep of one scenario the analytic fields are
`bs_delta_call` and `bs_gamma_call` of the scenario (the same in every record, independent of
`h`), and every error field is the absolute value of (the estimate of the same record − the
analytic value); when `S, K, σ, T > 0` every error field is `≥ 0`. -/
theorem C14_sweep_errors (S K r q sigma T : ℝ) (e : ErrorRecord)
    (he : e ∈ write_scenario_csv S K r q sigma T) :
    (e.Delta_analytic =
        bs_delta_call (Dbl.fin S) (Dbl.fin K) (Dbl.fin r) (Dbl.fin q) (Dbl.fin sigma)
          (Dbl.fin T) ∧
      e.Gamma_analytic =
        bs_gamma_call (Dbl.fin S) (Dbl.fin K) (Dbl.fin r) (Dbl.fin q) (Dbl.fin sigma)
          (Dbl.fin T)) ∧
    (e.err_D_fd = Dbl.abs (e.Delta_fd - e.Delta_analytic) ∧
      e.err_D_cs = Dbl.abs (e.Delta_cs - e.Delta_analytic) ∧
      e.err_G_fd = Dbl.abs (e.Gamma_fd - e.Gamma_analytic) ∧
      e.err_G_cs_real = Dbl.abs (e.Gamma_cs_real - e.Gamma_analytic) ∧
      e.err_G_cs_45 = Dbl.abs (e.Gamma_cs_45 - e.Gamma_analytic)) ∧
    (0 < S → 0 < K → 0 < sigma → 0 < T →
      Dbl.ge e.err_D_fd (Dbl.fin 0) = true ∧ Dbl.ge e.err_D_cs (Dbl.fin 0) = true ∧
      Dbl.ge e.err_G_fd (Dbl.fin 0) = true ∧ Dbl.ge e.err_G_cs_real (Dbl.fin 0) = true ∧
      Dbl.ge e.err_G_cs_45 (Dbl.fin 0) = true) := by
  obtain ⟨-, -, -, bs_delta_call_pos, -, -, -, -, bs_gamma_call_pos, -, -, -, -, -, -, -, -,
    -⟩ := analytic_greeks_facts
  obtain ⟨-, -, mem_write_scenario_csv, -, dbl_abs_sub_fin_ge, -, -, -, -⟩ := sweep_facts
  obtain ⟨i, -, rfl⟩ := mem_write_scenario_csv S K r q sigma T e he
  refine ⟨⟨rfl, rfl⟩, ⟨rfl, rfl, rfl, rfl, rfl⟩, ?_⟩
  intro hS hK hs hT
  have hd := bs_delta_call_pos S K r q sigma T hS hK hs hT
  have hg := bs_gamma_call_pos S K r q sigma T hS hK hs hT
  delta sweep_record
  simp only [hd, hg]
  exact ⟨dbl_abs_sub_fin_ge _ _, dbl_abs_sub_fin_ge _ _, dbl_abs_sub_fin_ge _ _,
    dbl_abs_sub_fin_ge _ _, dbl_abs_sub_fin_ge _ _⟩

/-- Claim C14, amended, at the first record of the sweep of `S = K = 100`, `r = 0.05`,
`q = 0.02`, `σ = 0.2`, `T = 1`. -/
theorem C14_sweep_errors_witness :
    ∃ e ∈ write_scenario_csv 100 100 0.05 0.02 0.2 1,
      (e.Delta_analytic =
          bs_delta_call (Dbl.fin 100) (Dbl.fin 100) (Dbl.fin 0.05) (Dbl.fin 0.02) (Dbl.fin 0.2)
            (Dbl.fin 1) ∧
        e.Gamma_analytic =
          bs_gamma_call (Dbl.fin 100) (Dbl.fin 100) (Dbl.fin 0.05) (Dbl.fin 0.02) (Dbl.fin 0.2)
            (Dbl.fin 1)) ∧
      (e.err_D_fd = Dbl.abs (e.Delta_fd - e.Delta_analytic) ∧
        e.err_D_cs = Dbl.abs (e.Delta_cs - e.Delta_analytic) ∧
        e.err_G_fd = Dbl.abs (e.Gamma_fd - e.Gamma_analytic) ∧
        e.err_G_cs_real = Dbl.abs (e.Gamma_cs_real - e.Gamma_analytic) ∧
        e.err_G_cs_45 = Dbl.abs (e.Gamma_cs_45 - e.Gamma_analytic)) ∧
      (Dbl.ge e.err_D_fd (Dbl.fin 0) = true ∧ Dbl.ge e.err_D_cs (Dbl.fin 0) = true ∧
        Dbl.ge e.err_G_fd (Dbl.fin 0) = true ∧ Dbl.ge e.err_G_cs_real (Dbl.fin 0) = true ∧
        Dbl.ge e.err_G_cs_45 (Dbl.fin 0) = true) := by
  obtain ⟨-, -, -, sweep_record_zero_mem, -, -, -, -, -⟩ := sweep_facts
  have h := C14_sweep_errors 100 100 0.05 0.02 0.2 1 _
    (sweep_record_zero_mem 100 100 0.05 0.02 0.2 1)
  exact ⟨_, sweep_record_zero_mem 100 100 0.05 0.02 0.2 1, h.1, h.2.1,
    h.2.2 (by norm_num) (by norm_num) (by norm_num) (by norm_num)⟩

/-- Claim C20: the header has 14 columns, every record is written as exactly 14 fields in the
header's column order `h_rel, h, Delta_analytic, Delta_fd, Delta_cs, err_D_fd, err_D_cs,
Gamma_analytic, Gamma_fd, Gamma_cs_real, Gamma_cs_45, err_G_fd, err_G_cs_real, err_G_cs_45`, and
`Delta_fd`, `Delta_cs`, `Gamma_fd`, `Gamma_cs_real`, `Gamma_cs_45` are `delta_fwd`,
`delta_complex_step`, `gamma_fwd`, `gamma_complex_step`, `gamma_complex_step_45deg` evaluated at
the record's `h`. -/
theorem C20_record_layout (S K r q sigma T : ℝ) (e : ErrorRecord)
    (he : e ∈ write_scenario_csv S K r q sigma T) :
    csv_header.length = 14 ∧ (csv_row e).length = 14 ∧
      List.zip csv_header (csv_row e) =
        [("h_rel", e.h_rel), ("h", e.h),
         ("Delta_analytic", e.Delta_analytic), ("Delta_fd", e.Delta_fd),
         ("Delta_cs", e.Delta_cs), ("err_D_fd", e.err_D_fd), ("err_D_cs", e.err_D_cs),
         ("Gamma_analytic", e.Gamma_analytic), ("Gamma_fd", e.Gamma_fd),
         ("Gamma_cs_real", e.Gamma_cs_real), ("Gamma_cs_45", e.Gamma_cs_45),
         ("err_G_fd", e.err_G_fd), ("err_G_cs_real", e.err_G_cs_real),
         ("err_G_cs_45", e.err_G_cs_45)] ∧
      ∃ h : ℝ, e.h = Dbl.fin h ∧
        e.Delta_fd = Dbl.fin (delta_fwd S K r q sigma T h) ∧
        e.Delta_cs = Dbl.fin (delta_complex_step S K r q sigma T h) ∧
        e.Gamma_fd = Dbl.fin (gamma_fwd S K r q sigma T h) ∧
        e.Gamma_cs_real = Dbl.fin (gamma_complex_step S K r q sigma T h) ∧
        e.Gamma_cs_45 = Dbl.fin (gamma_complex_step_45deg S K r q sigma T h) := by
  obtain ⟨-, -, mem_write_scenario_csv, -, -, -, -, -, -⟩ := sweep_facts
  obtain ⟨i, -, rfl⟩ := mem_write_scenario_csv S K r q sigma T e he
  exact ⟨rfl, rfl, rfl, _, rfl, rfl, rfl, rfl, rfl, rfl⟩

/-- Claim C20 at the first record of the sweep of `S = K = 100`, `r = 0.05`, `q = 0.02`,
`σ = 0.2`, `T = 1`. -/
theorem C20_record_layout_witness :
    ∃ e ∈ write_scenario_csv 100 100 0.05 0.02 0.2 1,
      csv_header.length = 14 ∧ (csv_row e).length = 14 ∧
      List.zip csv_header (csv_row e) =
        [("h_rel", e.h_rel), ("h", e.h),
         ("Delta_analytic", e.Delta_analytic), ("Delta_fd", e.Delta_fd),
         ("Delta_cs", e.Delta_cs), ("err_D_fd", e.err_D_fd), ("err_D_cs", e.err_D_cs),
         ("Gamma_analytic", e.Gamma_analytic), ("Gamma_fd", e.Gamma_fd),
         ("Gamma_cs_real", e.Gamma_cs_real), ("Gamma_cs_45", e.Gamma_cs_45),
         ("err_G_fd", e.err_G_fd), ("err_G_cs_real", e.err_G_cs_real),
         ("err_G_cs_45", e.err_G_cs_45)] ∧
      ∃ h : ℝ, e.h = Dbl.fin h ∧
        e.Delta_fd = Dbl.fin (delta_fwd 100 100 0.05 0.02 0.2 1 h) ∧
        e.Delta_cs = Dbl.fin (delta_complex_step 100 100 0.05 0.02 0.2 1 h) ∧
        e.Gamma_fd = Dbl.fin (gamma_fwd 100 100 0.05 0.02 0.2 1 h) ∧
        e.Gamma_cs_real = Dbl.fin (gamma_complex_step 100 100 0.05 0.02 0.2 1 h) ∧
        e.Gamma_cs_45 = Dbl.fin (gamma_complex_step_45deg 100 100 0.05 0.02 0.2 1 h) := by
  obtain ⟨-, -, -, sweep_record_zero_mem, -, -, -, -, -⟩ := sweep_facts
  exact
    ⟨_, sweep_record_zero_mem 100 100 0.05 0.02 0.2 1,
      C20_record_layout 100 100 0.05 0.02 0.2 1 _ (sweep_record_zero_mem 100 100 0.05 0.02 0.2 1)⟩

/-! ## Claims on accuracy at the test scenario (C19, C17, C18, C15, C16) -/

/-- Claim C19: the forward difference has truncation error `O(h)`.  For every `f` with first
derivative `f1` and second derivative `f2` on `[x, x+h]`, `|f2| ≤ M` there and `h > 0`,
`|classical_forward_difference(f, x, h) − f1(x)| ≤ M·h/2`; for the pricer with
`S, K, σ, T > 0`, `|delta_fwd(h) − bs_delta_call| ≤ (h/2)·M` for every bound `M` of
`bs_gamma_call` on `[S, S+h]`; and at `S = K = 100`, `r = 0.05`, `q = 0.02`, `σ = 0.2`, `T = 1`,
`h = 0.01` the error is below `0.001`. -/
theorem C19_forward_difference_first_order :
    (∀ (f f1 f2 : ℝ → ℝ) (x h M : ℝ), 0 < h →
        (∀ t ∈ Set.Icc x (x + h), HasDerivWithinAt f (f1 t) (Set.Icc x (x + h)) t) →
        (∀ t ∈ Set.Icc x (x + h), HasDerivWithinAt f1 (f2 t) (Set.Icc x (x + h)) t) →
        (∀ t ∈ Set.Icc x (x + h), |f2 t| ≤ M) →
        |classical_forward_difference f x h - f1 x| ≤ M * h / 2) ∧
      (∀ (S K r q sigma T h M : ℝ), 0 < S → 0 < K → 0 < sigma → 0 < T → 0 < h →
        (∀ x ∈ Set.Icc S (S + h),
          Dbl.le (bs_gamma_call (Dbl.fin x) (Dbl.fin K) (Dbl.fin r) (Dbl.fin q) (Dbl.fin sigma)
            (Dbl.fin T)) (Dbl.fin M) = true) →
        ∃ d : ℝ,
          bs_delta_call (Dbl.fin S) (Dbl.fin K) (Dbl.fin r) (Dbl.fin q) (Dbl.fin sigma)
            (Dbl.fin T) = Dbl.fin d ∧
          |delta_fwd S K r q sigma T h - d| ≤ h / 2 * M) ∧
      (∃ d : ℝ,
        bs_delta_call (Dbl.fin 100) (Dbl.fin 100) (Dbl.fin 0.05) (Dbl.fin 0.02) (Dbl.fin 0.2)
          (Dbl.fin 1) = Dbl.fin d ∧
        |delta_fwd 100 100 0.05 0.02 0.2 1 0.01 - d| < 0.001) := by
  obtain ⟨-, -, -, bs_delta_call_pos, -, phi_nonneg, -, -, bs_gamma_call_pos, -, -, -, -, -, -,
    -, -, -⟩ := analytic_greeks_facts
  obtain ⟨-, -, -, -, -, -, -, -, -, -, -, gamma_le_right, -, -, -, -, -, -, -,
    -⟩ := density_facts
  obtain ⟨-, -, -, -, forward_difference_bounds, delta_fwd_error_bounds, -, -, -,
    -⟩ := forward_difference_facts
  refine ⟨?_, ?_, ?_⟩
  · intro f f1 f2 x h M hh hf hf1 hM
    obtain ⟨h1, h2⟩ := forward_difference_bounds f f1 f2 x h (-M) M hh hf hf1
      (fun t ht => (abs_le.mp (hM t ht)).1) (fun t ht => (abs_le.mp (hM t ht)).2)
    rw [abs_le]
    constructor <;> linarith
  · intro S K r q sigma T h M hS hK hs hT hh hM
    refine ⟨_, bs_delta_call_pos S K r q sigma T hS hK hs hT, ?_⟩
    have ha0 : 0 < sigma * Real.sqrt T := mul_pos hs (Real.sqrt_pos.mpr hT)
    have hM2 : ∀ x ∈ Set.Icc S (S + h),
        Real.exp (-q * T) * phi (d1 x K r q sigma T) / (x * (sigma * Real.sqrt T)) ≤ M := by
      intro x hx
      have h1 := hM x hx
      rw [bs_gamma_call_pos x K r q sigma T (lt_of_lt_of_le hS hx.1) hK hs hT] at h1
      delta Dbl.le at h1
      simpa using h1
    have hm2 : ∀ x ∈ Set.Icc S (S + h),
        0 ≤ Real.exp (-q * T) * phi (d1 x K r q sigma T) / (x * (sigma * Real.sqrt T)) := by
      intro x hx
      have hxpos : 0 < x := lt_of_lt_of_le hS hx.1
      have := phi_nonneg (d1 x K r q sigma T)
      positivity
    obtain ⟨h1, h2⟩ := delta_fwd_error_bounds S K r q sigma T h 0 M hS hK hs hT hh hm2 hM2
    rw [abs_le]
    constructor <;> linarith
  · refine ⟨_, bs_delta_call_pos 100 100 0.05 0.02 0.2 1 (by norm_num) (by norm_num)
      (by norm_num) (by norm_num), ?_⟩
    have hm2 : ∀ x ∈ Set.Icc (100 : ℝ) (100 + 0.01),
        0 ≤ Real.exp (-0.02 * 1) * phi (d1 x 100 0.05 0.02 0.2 1) /
          (x * (0.2 * Real.sqrt 1)) := by
      intro x hx
      have hxpos : 0 < x := lt_of_lt_of_le (by norm_num) hx.1
      have := phi_nonneg (d1 x 100 0.05 0.02 0.2 1)
      positivity
    have hM2 : ∀ x ∈ Set.Icc (100 : ℝ) (100 + 0.01),
        Real.exp (-0.02 * 1) * phi (d1 x 100 0.05 0.02 0.2 1) / (x * (0.2 * Real.sqrt 1)) ≤
          Real.exp (-0.02 * 1) / (100 * (0.2 * Real.sqrt 1)) :=
      fun x hx => gamma_le_right 100 100 0.05 0.02 0.2 1 x (by norm_num) (by norm_num)
        (by norm_num) hx.1
    obtain ⟨h1, h2⟩ := delta_fwd_error_bounds 100 100 0.05 0.02 0.2 1 0.01 0 _ (by norm_num)
      (by norm_num) (by norm_num) (by norm_num) (by norm_num) hm2 hM2
    have hE1 : Real.exp (-0.02 * 1) ≤ 1 := by
      rw [Real.exp_le_one_iff]; norm_num
    have hb : Real.exp (-0.02 * 1) / (100 * (0.2 * Real.sqrt 1)) * 0.01 / 2 ≤ 0.00025 := by
      rw [Real.sqrt_one]
      norm_num
      linarith
    rw [abs_lt]
    constructor
    · linarith
    · have : (0.00025 : ℝ) < 0.001 := by norm_num
      linarith

/-- Claim C17: at `S = K = 100`, `r = 0.05`, `q = 0.02`, `σ = 0.2`, `T = 1` the complex-step
delta at `h = 1e-8` is within `1e-10` of `bs_delta_call`, and that error is smaller than the
error of the forward-difference delta at `h = 0.001`. -/
theorem C17_complex_step_delta_accuracy :
    ∃ d : ℝ,
      bs_delta_call (Dbl.fin 100) (Dbl.fin 100) (Dbl.fin 0.05) (Dbl.fin 0.02) (Dbl.fin 0.2)
        (Dbl.fin 1) = Dbl.fin d ∧
      |delta_complex_step 100 100 0.05 0.02 0.2 1 1e-8 - d| < 1e-10 ∧
      |delta_complex_step 100 100 0.05 0.02 0.2 1 1e-8 - d| <
        |delta_fwd 100 100 0.05 0.02 0.2 1 0.001 - d| := by
  obtain ⟨-, -, -, bs_delta_call_pos, -, -, -, -, -, -, -, -, -, -, -, -, -,
    -⟩ := analytic_greeks_facts
  obtain ⟨-, -, -, -, -, -, -, -, -, -, -, gamma_le_right, gamma_lower_test_scenario, -, -, -, -,
    -, -, -⟩ := density_facts
  obtain ⟨delta_complex_step_error, -, -, -⟩ := complex_step_error_facts
  obtain ⟨-, -, -, -, -, delta_fwd_error_bounds, -, -, -, -⟩ := forward_difference_facts
  refine ⟨_, bs_delta_call_pos 100 100 0.05 0.02 0.2 1 (by norm_num) (by norm_num)
    (by norm_num) (by norm_num), ?_⟩
  have hcs := delta_complex_step_error 100 100 0.05 0.02 0.2 1 1e-8 (by norm_num) (by norm_num)
    (by norm_num) (by norm_num) (by norm_num)
  have hE1 : Real.exp (-0.02 * 1) ≤ 1 := by
    rw [Real.exp_le_one_iff]; norm_num
  have hb : Real.exp (-0.02 * 1) / (2 * (100 : ℝ) ^ 2 * (0.2 * Real.sqrt 1)) * (1e-8) ^ 2 ≤
      1e-19 := by
    rw [Real.sqrt_one]
    norm_num
    linarith
  have hM : ∀ x ∈ Set.Icc (100 : ℝ) (100 + 0.001),
      Real.exp (-0.02 * 1) * phi (d1 x 100 0.05 0.02 0.2 1) / (x * (0.2 * Real.sqrt 1)) ≤
        Real.exp (-0.02 * 1) / (100 * (0.2 * Real.sqrt 1)) :=
    fun x hx => gamma_le_right 100 100 0.05 0.02 0.2 1 x (by norm_num) (by norm_num)
      (by norm_num) hx.1
  obtain ⟨h1, -⟩ := delta_fwd_error_bounds 100 100 0.05 0.02 0.2 1 0.001 0.008 _ (by norm_num)
    (by norm_num) (by norm_num) (by norm_num) (by norm_num) gamma_lower_test_scenario hM
  have h2 : (1e-6 : ℝ) ≤ |delta_fwd 100 100 0.05 0.02 0.2 1 0.001 -
      Real.exp (-0.02 * 1) * Phi (d1 100 100 0.05 0.02 0.2 1)| := by
    refine le_trans ?_ (le_abs_self _)
    refine le_trans ?_ h1
    norm_num
  constructor
  · refine lt_of_le_of_lt (le_trans hcs hb) ?_
    norm_num
  · refine lt_of_le_of_lt (le_trans hcs hb) (lt_of_lt_of_le ?_ h2)
    norm_num

/-- Claim C18: with `K = 100`, `r = 0.05`, `q = 0.02`, `σ = 0.2`, `T = 1`, `bs_gamma_call` at
`S = 100` is strictly greater than at `S = 150` and strictly greater than at `S = 50`. -/
theorem C18_gamma_maximum_atm :
    Dbl.gt
        (bs_gamma_call (Dbl.fin 100) (Dbl.fin 100) (Dbl.fin 0.05) (Dbl.fin 0.02) (Dbl.fin 0.2)
          (Dbl.fin 1))
        (bs_gamma_call (Dbl.fin 150) (Dbl.fin 100) (Dbl.fin 0.05) (Dbl.fin 0.02) (Dbl.fin 0.2)
          (Dbl.fin 1)) = true ∧
      Dbl.gt
        (bs_gamma_call (Dbl.fin 100) (Dbl.fin 100) (Dbl.fin 0.05) (Dbl.fin 0.02) (Dbl.fin 0.2)
          (Dbl.fin 1))
        (bs_gamma_call (Dbl.fin 50) (Dbl.fin 100) (Dbl.fin 0.05) (Dbl.fin 0.02) (Dbl.fin 0.2)
          (Dbl.fin 1)) = true := by
  obtain ⟨-, -, -, -, phi_pos, -, -, -, bs_gamma_call_pos, -, -, -, -, -, -, -, -,
    -⟩ := analytic_greeks_facts
  obtain ⟨-, -, d1_sub, -, d1_test_scenario, -, phi_le_of_sq_le, -, -, -, -, -, -,
    phi_far_lt_half_phi_near, -, -, -, -, -, -⟩ := density_facts
  rw [bs_gamma_call_pos 100 100 0.05 0.02 0.2 1 (by norm_num) (by norm_num) (by norm_num)
      (by norm_num),
    bs_gamma_call_pos 150 100 0.05 0.02 0.2 1 (by norm_num) (by norm_num) (by norm_num)
      (by norm_num),
    bs_gamma_call_pos 50 100 0.05 0.02 0.2 1 (by norm_num) (by norm_num) (by norm_num)
      (by norm_num)]
  have hE : 0 < Real.exp (-0.02 * 1) := Real.exp_pos _
  have hd150 := d1_sub 150 100 100 0.05 0.02 0.2 1 (by norm_num) (by norm_num) (by norm_num)
  have hd50 := d1_sub 50 100 100 0.05 0.02 0.2 1 (by norm_num) (by norm_num) (by norm_num)
  rw [d1_test_scenario, Real.sqrt_one] at hd150 hd50
  have hl150 : 0 ≤ Real.log (150 / 100) := Real.log_nonneg (by norm_num)
  have hl50 : Real.log (50 / 100) ≤ -(1 / 2) := by
    have := Real.log_le_sub_one_of_pos (show (0 : ℝ) < 50 / 100 by norm_num)
    linarith
  have hD150 : 1 / 4 ≤ d1 150 100 0.05 0.02 0.2 1 := by
    have : 0 ≤ Real.log (150 / 100) / (0.2 * 1) := by positivity
    linarith
  have hD50 : d1 50 100 0.05 0.02 0.2 1 ≤ -(9 / 4) := by
    have : Real.log (50 / 100) / (0.2 * 1) ≤ -(5 / 2) := by
      rw [div_le_iff₀ (by norm_num)]
      linarith
    linarith
  have hp150 : phi (d1 150 100 0.05 0.02 0.2 1) ≤ phi (1 / 4) :=
    phi_le_of_sq_le _ _ (by nlinarith)
  have hp50 : phi (d1 50 100 0.05 0.02 0.2 1) ≤ phi (9 / 4) :=
    phi_le_of_sq_le _ _ (by nlinarith)
  have hfar := phi_far_lt_half_phi_near
  have hpos := phi_pos (1 / 4)
  rw [d1_test_scenario, Real.sqrt_one]
  delta Dbl.gt Dbl.lt
  simp only [decide_eq_true_eq]
  constructor
  · rw [div_lt_div_iff₀ (by norm_num) (by norm_num)]
    have h1 : Real.exp (-0.02 * 1) * phi (d1 150 100 0.05 0.02 0.2 1) ≤
        Real.exp (-0.02 * 1) * phi (1 / 4) := mul_le_mul_of_nonneg_left hp150 hE.le
    have h2 : 0 < Real.exp (-0.02 * 1) * phi (1 / 4) := mul_pos hE hpos
    nlinarith
  · rw [div_lt_div_iff₀ (by norm_num) (by norm_num)]
    have h1 : Real.exp (-0.02 * 1) * phi (d1 50 100 0.05 0.02 0.2 1) ≤
        Real.exp (-0.02 * 1) * phi (9 / 4) := mul_le_mul_of_nonneg_left hp50 hE.le
    have h2 : Real.exp (-0.02 * 1) * phi (9 / 4) < Real.exp (-0.02 * 1) * (phi (1 / 4) / 2) :=
      mul_lt_mul_of_pos_left hfar hE
    nlinarith

/-- Claim C15: for `S, K, σ, T > 0` and `0 < h1 < h2` the forward-difference delta at `h1` is
strictly closer to `bs_delta_call` than the forward-difference delta at `h2` (exact
arithmetic). -/
theorem C15_delta_fwd_error_monotone (S K r q sigma T h1 h2 : ℝ) (hS : 0 < S) (hK : 0 < K)
    (hs : 0 < sigma) (hT : 0 < T) (h1pos : 0 < h1) (h12 : h1 < h2) :
    ∃ d : ℝ,
      bs_delta_call (Dbl.fin S) (Dbl.fin K) (Dbl.fin r) (Dbl.fin q) (Dbl.fin sigma)
        (Dbl.fin T) = Dbl.fin d ∧
      |delta_fwd S K r q sigma T h1 - d| < |delta_fwd S K r q sigma T h2 - d| := by
  obtain ⟨-, -, -, bs_delta_call_pos, -, -, -, -, -, -, -, -, -, -, -, -, -,
    -⟩ := analytic_greeks_facts
  obtain ⟨-, -, -, -, -, -, -, -, delta_fwd_strictMono,
    delta_fwd_ge_delta⟩ := forward_difference_facts
  refine ⟨_, bs_delta_call_pos S K r q sigma T hS hK hs hT, ?_⟩
  have hmono := delta_fwd_strictMono S K r q sigma T h1 h2 hS hK hs hT h1pos h12
  have h1nn := delta_fwd_ge_delta S K r q sigma T h1 hS hK hs hT h1pos
  rw [abs_of_nonneg h1nn, abs_of_nonneg (by linarith)]
  linarith

/-- Instance of C15 at `S = K = 100`, `r = 0.05`, `q = 0.02`, `σ = 0.2`, `T = 1`,
`h1 = 0.001`, `h2 = 0.1`. -/
theorem C15_delta_fwd_error_monotone_witness :
    ∃ d : ℝ,
      bs_delta_call (Dbl.fin 100) (Dbl.fin 100) (Dbl.fin 0.05) (Dbl.fin 0.02) (Dbl.fin 0.2)
        (Dbl.fin 1) = Dbl.fin d ∧
      |delta_fwd 100 100 0.05 0.02 0.2 1 0.001 - d| <
        |delta_fwd 100 100 0.05 0.02 0.2 1 0.1 - d| :=
  C15_delta_fwd_error_monotone 100 100 0.05 0.02 0.2 1 0.001 0.1 (by norm_num) (by norm_num)
    (by norm_num) (by norm_num) (by norm_num) (by norm_num)

/-- Claim C16: at `S = K = 100`, `r = q = 0`, `σ = 0.2`, `T = 1`, `bs_delta_call` returns a
finite value within `1e-10` of `0.5398278372770` and `bs_gamma_call` a finite value within
`1e-10` of `0.01984762737385`; they are `Φ(0.1)` and `φ(0.1)/20`. -/
theorem C16_known_values :
    ∃ d g : ℝ,
      bs_delta_call (Dbl.fin 100) (Dbl.fin 100) (Dbl.fin 0) (Dbl.fin 0) (Dbl.fin 0.2)
        (Dbl.fin 1) = Dbl.fin d ∧
      bs_gamma_call (Dbl.fin 100) (Dbl.fin 100) (Dbl.fin 0) (Dbl.fin 0) (Dbl.fin 0.2)
        (Dbl.fin 1) = Dbl.fin g ∧
      d = Phi (1 / 10) ∧ g = phi (1 / 10) / 20 ∧
      |d - 0.5398278372770| < 1e-10 ∧ |g - 0.01984762737385| < 1e-10 := by
  obtain ⟨-, -, -, bs_delta_call_pos, -, -, -, -, bs_gamma_call_pos, -, -, -, -, -, -, -, -,
    -⟩ := analytic_greeks_facts
  obtain ⟨-, -, -, -, -, -, -, -, -, -, -, -, -, -, -, -, d1_known_scenario, -, -,
    phi_tenth_value⟩ := density_facts
  obtain ⟨-, -, -, -, -, -, -, -, -, -, -, -, -, -, Phi_tenth_value⟩ := distribution_facts
  refine ⟨Phi (1 / 10), phi (1 / 10) / 20, ?_, ?_, rfl, rfl, Phi_tenth_value, phi_tenth_value⟩
  · rw [bs_delta_call_pos 100 100 0 0 0.2 1 (by norm_num) (by norm_num) (by norm_num)
      (by norm_num), d1_known_scenario]
    norm_num
  · rw [bs_gamma_call_pos 100 100 0 0 0.2 1 (by norm_num) (by norm_num) (by norm_num)
      (by norm_num), d1_known_scenario, Real.sqrt_one]
    norm_num

/-! ## The upper end of the sweep (C21) -/

/-- Claim C21: the sweep of `write_scenario_csv` has 24 records and starts at `h_rel = 10⁻¹⁶`,
but its last (24th) record has `h_rel = 10⁻⁴`, not `10⁻¹`; no record has a relative step above
`10⁻⁴`, so the grid is `[10⁻¹⁶, 10⁻⁴]` and not the documented `[10⁻¹⁶, 10⁻¹]`. -/
theorem C21_sweep_stops_at_1e_minus_4 (S K r q sigma T : ℝ) :
    (write_scenario_csv S K r q sigma T).length = 24 ∧
      ((write_scenario_csv S K r q sigma T).map ErrorRecord.h_rel)[0]? =
        some (Dbl.fin 1e-16) ∧
      ((write_scenario_csv S K r q sigma T).map ErrorRecord.h_rel)[23]? =
        some (Dbl.fin 1e-4) ∧
      ((write_scenario_csv S K r q sigma T).map ErrorRecord.h_rel)[23]? ≠
        some (Dbl.fin 1e-1) ∧
      ∀ e ∈ write_scenario_csv S K r q sigma T,
        Dbl.le e.h_rel (Dbl.fin 1e-4) = true ∧ e.h_rel ≠ Dbl.fin 1e-1 := by
  obtain ⟨sweep_record_h_rel, -, mem_write_scenario_csv, -, -, write_scenario_csv_h_rel,
    rpow_grid_last, rpow_grid_first, rpow_grid_le⟩ := sweep_facts
  have hrel := write_scenario_csv_h_rel S K r q sigma T
  have h23 : ((write_scenario_csv S K r q sigma T).map ErrorRecord.h_rel)[23]? =
      some (Dbl.fin 1e-4) := by
    rw [hrel, List.getElem?_map, List.getElem?_range (by norm_num)]
    simp only [Option.map_some']
    rw [rpow_grid_last]
  refine ⟨?_, ?_, h23, ?_, ?_⟩
  · delta write_scenario_csv
    delta num_points
    simp
  · rw [hrel, List.getElem?_map, List.getElem?_range (by norm_num)]
    simp only [Option.map_some']
    rw [rpow_grid_first]
  · rw [h23]
    intro h
    have h2 := Dbl.fin.inj (Option.some.inj h)
    norm_num at h2
  · intro e he
    obtain ⟨i, hi, rfl⟩ := mem_write_scenario_csv S K r q sigma T e he
    rw [sweep_record_h_rel]
    have hle := rpow_grid_le i hi
    constructor
    · delta Dbl.le
      simpa using hle
    · intro h
      have h2 := Dbl.fin.inj h
      rw [h2] at hle
      norm_num at hle

/-! ## The complex pricer on the real axis and the second forward difference (C22, C23) -/

/-- Claim C22: for `S, K, σ, T > 0` and real `r, q`, `bs_price_call_complex` at the real inputs
`(S+0i, K+0i, r+0i, q+0i, σ+0i, T+0i)` has imaginary part `0` and real part
`e^{-rT}·(F·Φ(d1) − K·Φ(d2))` with `F = S·e^{(r-q)T}`, `d1 = (ln(F/K) + ½σ²T)/(σ√T)`,
`d2 = d1 − σ√T`, which is the scalar pricer `bs_price_call`. -/
theorem C22_complex_pricer_on_reals (S K r q sigma T : ℝ) (hS : 0 < S) (hK : 0 < K)
    (hs : 0 < sigma) (hT : 0 < T) :
    (bs_price_call_complex ⟨S, 0⟩ ⟨K, 0⟩ ⟨r, 0⟩ ⟨q, 0⟩ ⟨sigma, 0⟩ ⟨T, 0⟩).im = 0 ∧
      (bs_price_call_complex ⟨S, 0⟩ ⟨K, 0⟩ ⟨r, 0⟩ ⟨q, 0⟩ ⟨sigma, 0⟩ ⟨T, 0⟩).re =
        Real.exp (-r * T) *
          (S * Real.exp ((r - q) * T) *
              Phi ((Real.log (S * Real.exp ((r - q) * T) / K) + 1 / 2 * sigma ^ 2 * T) /
                (sigma * Real.sqrt T)) -
            K * Phi ((Real.log (S * Real.exp ((r - q) * T) / K) + 1 / 2 * sigma ^ 2 * T) /
                (sigma * Real.sqrt T) - sigma * Real.sqrt T)) ∧
      (bs_price_call_complex ⟨S, 0⟩ ⟨K, 0⟩ ⟨r, 0⟩ ⟨q, 0⟩ ⟨sigma, 0⟩ ⟨T, 0⟩).re =
        bs_price_call S K r q sigma T := by
  obtain ⟨-, -, bs_price_call_complex_re_im, -, -, -, -, -, -, -, -, -, -, -, -, -, -, -, -, -,
    -, -, -, -, -, -, -⟩ := complex_pricer_facts
  have hz : (⟨S, 0⟩ : ℂ) ≠ 0 := by
    intro h0
    have := congrArg Complex.re h0
    simp at this
    linarith
  have hzr : (⟨S, 0⟩ : ℂ) = ((S : ℝ) : ℂ) := rfl
  have habs : Complex.abs (⟨S, 0⟩ : ℂ) = S := by
    rw [hzr, Complex.abs_ofReal, abs_of_pos hS]
  have harg : Complex.arg (⟨S, 0⟩ : ℂ) = 0 := by
    rw [hzr]
    exact Complex.arg_ofReal_of_nonneg hS.le
  obtain ⟨hre, him⟩ := bs_price_call_complex_re_im ⟨S, 0⟩ K r q sigma T hz hK hs hT
  rw [habs, harg] at hre him
  simp only [zero_div, zero_mul, mul_zero, sub_zero, add_zero] at hre him
  have hval : (bs_price_call_complex ⟨S, 0⟩ ⟨K, 0⟩ ⟨r, 0⟩ ⟨q, 0⟩ ⟨sigma, 0⟩ ⟨T, 0⟩).re =
      Real.exp (-r * T) *
        (S * Real.exp ((r - q) * T) *
            Phi ((Real.log (S * Real.exp ((r - q) * T) / K) + 1 / 2 * sigma ^ 2 * T) /
              (sigma * Real.sqrt T)) -
          K * Phi ((Real.log (S * Real.exp ((r - q) * T) / K) + 1 / 2 * sigma ^ 2 * T) /
              (sigma * Real.sqrt T) - sigma * Real.sqrt T)) := by
    rw [hre]
    delta d1 forward
    ring
  refine ⟨?_, hval, ?_⟩
  · rw [him]
  · rw [hval]
    rfl

/-- Instance of C22 at `S = K = 100`, `r = 0.05`, `q = 0.02`, `σ = 0.2`, `T = 1`. -/
theorem C22_complex_pricer_on_reals_witness :
    (bs_price_call_complex ⟨100, 0⟩ ⟨100, 0⟩ ⟨0.05, 0⟩ ⟨0.02, 0⟩ ⟨0.2, 0⟩ ⟨1, 0⟩).im = 0 ∧
      (bs_price_call_complex ⟨100, 0⟩ ⟨100, 0⟩ ⟨0.05, 0⟩ ⟨0.02, 0⟩ ⟨0.2, 0⟩ ⟨1, 0⟩).re =
        bs_price_call 100 100 0.05 0.02 0.2 1 := by
  have h := C22_complex_pricer_on_reals 100 100 0.05 0.02 0.2 1 (by norm_num) (by norm_num)
    (by norm_num) (by norm_num)
  exact ⟨h.1, h.2.2⟩

/-- Claim C23: for every scenario and every `h ≠ 0`, `gamma_fwd` is the forward difference of
`delta_fwd` in the spot, `(delta_fwd(S+h) − delta_fwd(S))/h`, that is
`classical_forward_difference` applied to `delta_fwd(·, h)`, and it is the second forward
difference `[C(S+2h) − 2C(S+h) + C(S)]/h²` of the pricer (exact arithmetic). -/
theorem C23_gamma_fwd_is_difference_of_delta_fwd (S K r q sigma T h : ℝ) (hh : h ≠ 0) :
    gamma_fwd S K r q sigma T h =
        (delta_fwd (S + h) K r q sigma T h - delta_fwd S K r q sigma T h) / h ∧
      gamma_fwd S K r q sigma T h =
        classical_forward_difference (fun x => delta_fwd x K r q sigma T h) S h ∧
      gamma_fwd S K r q sigma T h =
        (bs_price_call (S + 2 * h) K r q sigma T - 2 * bs_price_call (S + h) K r q sigma T +
          bs_price_call S K r q sigma T) / h ^ 2 := by
  have e : S + h + h = S + 2 * h := by ring
  refine ⟨?_, ?_, ?_⟩
  · delta gamma_fwd delta_fwd
    simp only [e]
    field_simp
    ring
  · delta gamma_fwd delta_fwd classical_forward_difference
    simp only [e]
    field_simp
    ring
  · delta gamma_fwd
    simp only [pow_two]

/-- Instance of C23 at `S = K = 100`, `r = 0.05`, `q = 0.02`, `σ = 0.2`, `T = 1`, `h = 0.01`. -/
theorem C23_gamma_fwd_is_difference_of_delta_fwd_witness :
    gamma_fwd 100 100 0.05 0.02 0.2 1 0.01 =
      (delta_fwd (100 + 0.01) 100 0.05 0.02 0.2 1 0.01 -
        delta_fwd 100 100 0.05 0.02 0.2 1 0.01) / 0.01 :=
  (C23_gamma_fwd_is_difference_of_delta_fwd 100 100 0.05 0.02 0.2 1 0.01 (by norm_num)).1

/-! ## Change of price unit (C24) -/

/-- Claim C24: for `λ > 0`, `S, K > 0`, `σ ≥ 0` and any real `r, q, T`,
`bs_delta_call(λS, λK, …) = bs_delta_call(S, K, …)` and
`bs_gamma_call(λS, λK, …) = bs_gamma_call(S, K, …)/λ`, in the degenerate and in the
non-degenerate branch and for either form of the logarithm (exact arithmetic). -/
theorem C24_price_unit_scaling (lam S K r q sigma T : ℝ) (hl : 0 < lam) (hS : 0 < S)
    (hK : 0 < K) (hs : 0 ≤ sigma) :
    bs_delta_call (Dbl.fin (lam * S)) (Dbl.fin (lam * K)) (Dbl.fin r) (Dbl.fin q)
        (Dbl.fin sigma) (Dbl.fin T) =
      bs_delta_call (Dbl.fin S) (Dbl.fin K) (Dbl.fin r) (Dbl.fin q) (Dbl.fin sigma)
        (Dbl.fin T) ∧
    bs_gamma_call (Dbl.fin (lam * S)) (Dbl.fin (lam * K)) (Dbl.fin r) (Dbl.fin q)
        (Dbl.fin sigma) (Dbl.fin T) =
      bs_gamma_call (Dbl.fin S) (Dbl.fin K) (Dbl.fin r) (Dbl.fin q) (Dbl.fin sigma)
        (Dbl.fin T) / Dbl.fin lam := by
  obtain ⟨-, -, -, bs_delta_call_pos, -, -, -, -, bs_gamma_call_pos, sigmaT_eq_zero_iff,
    bs_delta_call_degenerate, bs_gamma_call_degenerate, -, -, -, -, -,
    d1_scale⟩ := analytic_greeks_facts
  have hl0 : lam ≠ 0 := ne_of_gt hl
  by_cases hdeg : sigma = 0 ∨ T ≤ 0
  · have h0 : sigma * Real.sqrt (max T 0) = 0 := (sigmaT_eq_zero_iff sigma T).mpr hdeg
    rw [bs_delta_call_degenerate _ _ r q sigma T h0, bs_delta_call_degenerate _ _ r q sigma T h0,
      bs_gamma_call_degenerate _ _ r q sigma T h0, bs_gamma_call_degenerate _ _ r q sigma T h0,
      Dbl.fin_div _ _ hl0]
    constructor
    · have hiff : lam * K < forward (lam * S) r q T ↔ K < forward S r q T := by
        delta forward
        rw [mul_assoc]
        exact mul_lt_mul_left hl
      simp only [hiff]
    · simp
  · push_neg at hdeg
    have hs' : 0 < sigma := lt_of_le_of_ne hs (Ne.symm hdeg.1)
    have hT : 0 < T := hdeg.2
    have ha0 : 0 < sigma * Real.sqrt T := mul_pos hs' (Real.sqrt_pos.mpr hT)
    rw [bs_delta_call_pos _ _ r q sigma T (mul_pos hl hS) (mul_pos hl hK) hs' hT,
      bs_delta_call_pos S K r q sigma T hS hK hs' hT,
      bs_gamma_call_pos _ _ r q sigma T (mul_pos hl hS) (mul_pos hl hK) hs' hT,
      bs_gamma_call_pos S K r q sigma T hS hK hs' hT, d1_scale lam S K r q sigma T hl,
      Dbl.fin_div _ _ hl0]
    refine ⟨rfl, ?_⟩
    congr 1
    rw [div_div]
    congr 1
    ring

/-- Instance of C24 at `λ = 2`, `S = K = 100`, `r = 0.05`, `q = 0.02`, `σ = 0.2`, `T = 1`. -/
theorem C24_price_unit_scaling_witness :
    bs_delta_call (Dbl.fin (2 * 100)) (Dbl.fin (2 * 100)) (Dbl.fin 0.05) (Dbl.fin 0.02)
        (Dbl.fin 0.2) (Dbl.fin 1) =
      bs_delta_call (Dbl.fin 100) (Dbl.fin 100) (Dbl.fin 0.05) (Dbl.fin 0.02) (Dbl.fin 0.2)
        (Dbl.fin 1) ∧
    bs_gamma_call (Dbl.fin (2 * 100)) (Dbl.fin (2 * 100)) (Dbl.fin 0.05) (Dbl.fin 0.02)
        (Dbl.fin 0.2) (Dbl.fin 1) =
      bs_gamma_call (Dbl.fin 100) (Dbl.fin 100) (Dbl.fin 0.05) (Dbl.fin 0.02) (Dbl.fin 0.2)
        (Dbl.fin 1) / Dbl.fin 2 :=
  C24_price_unit_scaling 2 100 100 0.05 0.02 0.2 1 (by norm_num) (by norm_num) (by norm_num)
    (by norm_num)

/-! ## Sign of the step in the complex-step estimators (C25) -/

/-- Claim C25: for `S, K, σ, T > 0` and `h ≠ 0` with `|h| < S`, each complex-step estimator
returns the same value at `−h` as at `h`: `delta_complex_step`, `gamma_complex_step` and
`gamma_complex_step_45deg` (exact arithmetic). -/
theorem C25_complex_step_sign_symmetry (S K r q sigma T h : ℝ) (hS : 0 < S) (hK : 0 < K)
    (hs : 0 < sigma) (hT : 0 < T) (hh : h ≠ 0) (hhS : |h| < S) :
    delta_complex_step S K r q sigma T (-h) = delta_complex_step S K r q sigma T h ∧
      gamma_complex_step S K r q sigma T (-h) = gamma_complex_step S K r q sigma T h ∧
      gamma_complex_step_45deg S K r q sigma T (-h) =
        gamma_complex_step_45deg S K r q sigma T h := by
  obtain ⟨-, -, -, -, -, -, -, -, -, -, -, -, -, -, -, -, -, -, -, -, -, -, -, -, -,
    bs_price_call_complex_reflect, gamma_complex_step_45deg_neg⟩ := complex_pricer_facts
  obtain ⟨hre, him⟩ := bs_price_call_complex_reflect S K r q sigma T h hS hK hs hT
  refine ⟨?_, ?_, gamma_complex_step_45deg_neg S K r q sigma T h⟩
  · delta delta_complex_step
    simp only [him]
    rw [neg_div_neg_eq]
  · delta gamma_complex_step
    simp only [hre, neg_mul_neg]

/-- Instance of C25 at `S = K = 100`, `r = 0.05`, `q = 0.02`, `σ = 0.2`, `T = 1`,
`h = 0.001`. -/
theorem C25_complex_step_sign_symmetry_witness :
    delta_complex_step 100 100 0.05 0.02 0.2 1 (-0.001) =
        delta_complex_step 100 100 0.05 0.02 0.2 1 0.001 ∧
      gamma_complex_step 100 100 0.05 0.02 0.2 1 (-0.001) =
        gamma_complex_step 100 100 0.05 0.02 0.2 1 0.001 ∧
      gamma_complex_step_45deg 100 100 0.05 0.02 0.2 1 (-0.001) =
        gamma_complex_step_45deg 100 100 0.05 0.02 0.2 1 0.001 :=
  C25_complex_step_sign_symmetry 100 100 0.05 0.02 0.2 1 0.001 (by norm_num) (by norm_num)
    (by norm_num) (by norm_num) (by norm_num) (by rw [abs_of_pos] <;> norm_num)
